import Mathlib

/-!
# The virtual image container engine (`DVirtualImageFileIO`)

A shallow embedding of `src/corelib/dvirtualimagefileio.cpp` and theorems about it.

## Conventions of the embedding

* A byte is a `Nat` (`< 256` in a well-formed store); a conversion from a wider
  integer to a byte reduces modulo `256` explicitly (`putChar`).
* A `qint64` is an `Int`; the 8-byte big-endian stream encoding reduces modulo `2^64`.
  The subtraction in `pos()` and `size()` and the addition in `seek()`, which a
  decoded `start` at the end of the range can overflow, are reduced into the `qint64`
  range (`wrapI64`).  The other offset computations are exact, which agrees with the
  source as long as no intermediate value leaves the `qint64` range.
  The `quint8` entry index is a `Nat` reduced modulo `256` where it is assigned.
* A `QString` is represented by its UTF-8 encoding, so `toUtf8` is the identity, and
  `fromUtf8` of a byte array stops at the first zero byte, as Qt 5 does for
  `QString::fromUtf8(const QByteArray &)`.
* `QFile` is the seekable byte store: its content, its open mode (`0` when closed)
  and its position.  The named file always exists and no I/O error occurs, so
  `error() == NoError` holds throughout.  A write past the end of the store fills
  the gap with zero bytes; in `Append` mode written bytes land at the end of the
  store.  Text-mode translation and the size limit of a `QByteArray` are not
  modelled.  `QDataStream` reads and writes go straight to the store.
* `QHash<QString, FileInfo>` is an association list with unique keys, kept in
  insertion order.  The arrays built by `fileList()` and `fileNameList()` hold
  default values at indices no entry is assigned to, and an assignment to an index
  outside the array is dropped.  In the source such an assignment is out of bounds
  and an unassigned slot of `fileList()` is not initialised, so the two definitions
  are the source's on the tables whose indices are exactly `0 .. count - 1`: the
  tables that `addFile` builds, up to 256 entries, and the tables that `setFile`
  decodes into an empty table from records with pairwise distinct names.
* The digest primitive is a parameter `md5 : QByteArray → QByteArray`; feeding
  several blocks to the hasher is hashing their concatenation.
* The sampling loop of `md5sum` reads two bytes into a `quint16` in host byte order,
  taken to be little endian; bytes that the read does not deliver stay zero.
* A stateful operation takes the engine state and returns its result together with
  the new state.  Operations that run the sampling loop of `md5sum` return an
  `Option`, `none` standing for a run that does not terminate.
-/

namespace DVirtualImageFileIO

abbrev QByteArray := List Nat

abbrev QString := List Nat

/-- The UTF-8 encoding of a name (names are represented by their encoding). -/
def toUtf8 (s : QString) : QByteArray := s

/-- Decoding of a byte array as done by `QString::fromUtf8(const QByteArray &)`:
the bytes before the first zero byte. -/
def fromUtf8 (b : QByteArray) : QString := b.takeWhile (fun c => c != 0)

/-- The suffix test `QString::endsWith` on file names. -/
def endsWith (s suffix : String) : Bool := suffix.data.isSuffixOf s.data

/-! ## Open mode flags (`QIODevice::OpenModeFlag`) -/

def NotOpen : Nat := 0
def ReadOnly : Nat := 1
def WriteOnly : Nat := 2
def ReadWrite : Nat := 3
def Append : Nat := 4
def Truncate : Nat := 8
def NewOnly : Nat := 64

/-- The flag test of `QFlags::testFlag`. -/
def testFlag (m f : Nat) : Bool := (m &&& f == f) && (f != 0 || m == f)

/-! ## Byte-level helpers -/

/-- Bytes `[p, p + n)` of a store, cut at the end of the store. -/
def readAt (l : QByteArray) (p n : Nat) : QByteArray := (l.drop p).take n

/-- The store after writing `data` at offset `p`; a gap between the old end of
the store and `p` is filled with zero bytes. -/
def writeAt (l : QByteArray) (p : Nat) (data : QByteArray) : QByteArray :=
  l.take p ++ List.replicate (p - l.length) 0 ++ data ++ l.drop (p + data.length)

/-- The `n` low-order bytes of `u`, most significant first. -/
def beBytes : Nat → Nat → QByteArray
  | 0, _ => []
  | n + 1, u => beBytes n (u / 256) ++ [u % 256]

/-- The number denoted by a big-endian byte sequence. -/
def beValue (bs : QByteArray) : Nat := bs.foldl (fun acc b => acc * 256 + b) 0

/-- The 8 bytes `QDataStream` writes for a `qint64` (big endian, two's complement). -/
def encodeI64 (v : Int) : QByteArray := beBytes 8 (v % 2 ^ 64).toNat

/-- The `qint64` denoted by 8 stream bytes. -/
def decodeI64 (bs : QByteArray) : Int :=
  let u : Nat := beValue bs % 2 ^ 64
  if u < 2 ^ 63 then (u : Int) else (u : Int) - 2 ^ 64

/-- The `qint64` that an arithmetic operation with the exact result `v` yields:
`v` reduced modulo `2^64` into `[-2^63, 2^63)`.  Signed overflow, which C++ leaves
undefined, is taken to wrap around. -/
def wrapI64 (v : Int) : Int := (v + 2 ^ 63) % 2 ^ 64 - 2 ^ 63

/-! ## The byte store -/

structure QFile where
  bytes : QByteArray
  openMode : Nat
  pos : Nat
deriving DecidableEq, Repr

namespace QFile

def isOpen (f : QFile) : Bool := f.openMode != 0

def size (f : QFile) : Int := f.bytes.length

def readable (f : QFile) : Bool := f.openMode &&& ReadOnly != 0

def writable (f : QFile) : Bool := f.openMode &&& WriteOnly != 0

/-- The `QFile::open` of an existing file: fails when already open, when no
access is requested or when `NewOnly` is set; `Append` implies `WriteOnly`;
write-only access without `ReadOnly` or `Append` truncates. -/
def open_ (f : QFile) (mode : Nat) : Bool × QFile :=
  if f.isOpen then (false, f)
  else
    let m := if mode &&& (Append ||| NewOnly) != 0 then mode ||| WriteOnly else mode
    if m &&& (ReadOnly ||| WriteOnly) == 0 then (false, f)
    else if m &&& NewOnly != 0 then (false, f)
    else
      let trunc := (m &&& Truncate != 0) ||
        ((m &&& WriteOnly != 0) && (m &&& (ReadOnly ||| Append) == 0))
      let bs := if trunc then [] else f.bytes
      (true, { bytes := bs, openMode := m, pos := if m &&& Append != 0 then bs.length else 0 })

def close (f : QFile) : QFile := { f with openMode := 0, pos := 0 }

def seek (f : QFile) (p : Int) : Bool × QFile :=
  if !f.isOpen || p < 0 then (false, f) else (true, { f with pos := p.toNat })

def resize (f : QFile) (n : Int) : Bool × QFile :=
  if n < 0 then (false, f)
  else (true, { f with bytes := f.bytes.take n.toNat ++ List.replicate (n.toNat - f.bytes.length) 0 })

/-- The `read(maxSize)` returning the bytes read: nothing when the store is not
readable or `maxSize` is negative. -/
def read (f : QFile) (maxlen : Int) : QByteArray × QFile :=
  if !f.readable || maxlen < 0 then ([], f)
  else
    let data := readAt f.bytes f.pos maxlen.toNat
    (data, { f with pos := f.pos + data.length })

/-- The `read(data, maxSize)` returning the count: `-1` when the store is not
readable or `maxSize` is negative. -/
def readInto (f : QFile) (maxlen : Int) : Int × QByteArray × QFile :=
  if !f.readable || maxlen < 0 then (-1, [], f)
  else
    let data := readAt f.bytes f.pos maxlen.toNat
    (data.length, data, { f with pos := f.pos + data.length })

/-- The `write(data, len)` with `len = data.length`: `-1` when the store is not
writable; in append mode the bytes land at the end of the store. -/
def write (f : QFile) (data : QByteArray) : Int × QFile :=
  if !f.writable then (-1, f)
  else if f.openMode &&& Append != 0 then
    (data.length, { f with bytes := f.bytes ++ data, pos := f.pos + data.length })
  else
    (data.length, { f with bytes := writeAt f.bytes f.pos data, pos := f.pos + data.length })

def putChar (f : QFile) (c : Nat) : Bool × QFile :=
  let r := f.write [c % 256]
  (r.1 == 1, r.2)

/-- The `stream >> quint8`: zero when no byte is left. -/
def getU8 (f : QFile) : Nat × QFile :=
  let r := f.read 1
  (r.1.headD 0, r.2)

/-- The `stream >> qint64`: zero when fewer than 8 bytes are left. -/
def getI64 (f : QFile) : Int × QFile :=
  let r := f.read 8
  (if r.1.length = 8 then decodeI64 r.1 else 0, r.2)

/-- The `stream << qint64`. -/
def putI64 (f : QFile) (v : Int) : QFile := (f.write (encodeI64 v)).2

end QFile

/-! ## The entry table -/

structure FileInfo where
  index : Nat
  name : QString
  start : Int
  end_ : Int
deriving DecidableEq, Repr

instance : Inhabited FileInfo := ⟨⟨0, [], 0, 0⟩⟩

abbrev QHash := List (QString × FileInfo)

namespace QHash

def find : QHash → QString → Option FileInfo
  | [], _ => none
  | (k, v) :: t, key => if k = key then some v else find t key

def contains (m : QHash) (key : QString) : Bool := (find m key).isSome

/-- The `value(key)`: a default-constructed value when the key is absent. -/
def value (m : QHash) (key : QString) : FileInfo := (find m key).getD default

/-- The `m[key] = v`: replaces the value of an existing key, else adds the key. -/
def insert : QHash → QString → FileInfo → QHash
  | [], key, v => [(key, v)]
  | (k, w) :: t, key, v => if k = key then (k, v) :: t else (k, w) :: insert t key v

def remove (m : QHash) (key : QString) : QHash := m.filter (fun p => p.1 != key)

/-- The `take(key)`: removes the key and returns its value. -/
def take (m : QHash) (key : QString) : FileInfo × QHash := (value m key, remove m key)

def count (m : QHash) : Int := m.length

end QHash

structure DVirtualImageFileIOPrivate where
  isValid : Bool
  file : QFile
  version : Nat
  fileMap : QHash
  openedFile : QString
deriving DecidableEq, Repr

/-- The state of a newly constructed engine, before `setFile`. -/
def newEngine : DVirtualImageFileIOPrivate :=
  { isValid := false, file := { bytes := [], openMode := 0, pos := 0 }, version := 0,
    fileMap := [], openedFile := [] }

/-! ## The engine operations -/

def maxFileCount : Int := 255

def metaDataSize : Int := 24 * 1024

def validMetaDataSize (d : DVirtualImageFileIOPrivate) : Int := 3 + d.fileMap.count * 80

def isValid (d : DVirtualImageFileIOPrivate) : Bool := d.isValid

def existes (d : DVirtualImageFileIOPrivate) (fileName : QString) : Bool :=
  d.fileMap.contains fileName

def isOpen (d : DVirtualImageFileIOPrivate) (fileName : QString) : Bool :=
  d.openedFile == fileName

def isWritable (d : DVirtualImageFileIOPrivate) (fileName : QString) : Bool :=
  if !existes d fileName then true
  else
    let info := d.fileMap.value fileName
    (info.index : Int) == d.fileMap.count - 1

def fileDataSize (d : DVirtualImageFileIOPrivate) : Int :=
  if d.fileMap.isEmpty then 0
  else
    let max_end := d.fileMap.foldl (fun (m : Int) p => max m p.2.end_) 0
    max_end - metaDataSize

def writableDataSize (d : DVirtualImageFileIOPrivate) : Int :=
  d.file.size - fileDataSize d - metaDataSize

/-- The name list indexed by entry index (`DVirtualImageFileIOPrivate::fileNameList`).
An index outside the list, where the source indexes out of bounds, is skipped. -/
def fileNameList (d : DVirtualImageFileIOPrivate) : List QString :=
  d.fileMap.foldl (fun l p => l.set p.2.index p.2.name) (List.replicate d.fileMap.length [])

/-- The entry list indexed by entry index (`DVirtualImageFileIOPrivate::fileList`).
An index outside the array, where the source indexes out of bounds, is skipped, and a
slot that no entry is assigned to, which the source leaves without a value, holds the
default entry; neither occurs when the indices of the table are `0 .. count - 1`. -/
def fileInfoList (d : DVirtualImageFileIOPrivate) : List FileInfo :=
  d.fileMap.foldl (fun l p => l.set p.2.index p.2) (List.replicate d.fileMap.length default)

def fileList (d : DVirtualImageFileIOPrivate) : List QString := fileNameList d

def size (d : DVirtualImageFileIOPrivate) (fileName : QString) : Int :=
  if !d.fileMap.contains fileName then -1
  else
    let info := d.fileMap.value fileName
    wrapI64 (info.end_ - info.start)

def start (d : DVirtualImageFileIOPrivate) (fileName : QString) : Int :=
  if !d.fileMap.contains fileName then -1 else (d.fileMap.value fileName).start

def end_ (d : DVirtualImageFileIOPrivate) (fileName : QString) : Int :=
  if !d.fileMap.contains fileName then -1 else (d.fileMap.value fileName).end_

def addFile (d : DVirtualImageFileIOPrivate) (name : QString) : Bool × DVirtualImageFileIOPrivate :=
  match d.file.open_ ReadWrite with
  | (false, _) => (false, d)
  | (true, f0) =>
    let start := validMetaDataSize d
    let f1 := (f0.seek start).2
    match f1.putChar 0xdd with
    | (false, f2) => (false, { d with file := f2.close })
    | (true, f2) =>
      let file_name := toUtf8 name
      if file_name.length > 63 then (false, { d with file := f2.close })
      else
        let f3 := (f2.write file_name).2
        let f4 := if file_name.length < 63 then
            (f3.write (List.replicate (63 - file_name.length) 0)).2 else f3
        let istart := metaDataSize + fileDataSize d
        let info : FileInfo :=
          { name := name, start := istart, end_ := istart,
            index := d.fileMap.length % 256 }
        let fileMap := d.fileMap.insert name info
        let f5 := f4.putI64 info.start
        let f6 := f5.putI64 info.end_
        let f7 := (f6.seek 2).2
        let f8 := (f7.putChar fileMap.length).2
        (true, { d with file := f8.close, fileMap := fileMap })

def setSize (d : DVirtualImageFileIOPrivate) (fileName : QString) (size : Int) :
    Bool × DVirtualImageFileIOPrivate :=
  if !isWritable d fileName then (false, d)
  else if size < 0 then (false, d)
  else
    match d.file.open_ ReadWrite with
    | (false, _) => (false, d)
    | (true, f0) =>
      let info := d.fileMap.value fileName
      let fileMap := d.fileMap.insert fileName { info with end_ := info.start + size }
      let f1 := (f0.seek (3 + fileMap.count * 80 - 8)).2
      let f2 := f1.putI64 (fileMap.value fileName).end_
      (true, { d with file := f2.close, fileMap := fileMap })

def rename (d : DVirtualImageFileIOPrivate) (from_ to_ : QString) : Bool × DVirtualImageFileIOPrivate :=
  if !existes d from_ then (false, d)
  else
    let taken := d.fileMap.take from_
    let info : FileInfo := { taken.1 with name := to_ }
    let d1 := { d with fileMap := taken.2 }
    let pos := d1.file.pos
    match d1.file.seek (3 + (info.index : Int) * 80 + 1) with
    | (false, _) => (false, d1)
    | (true, f1) =>
      let file_name := toUtf8 to_
      if file_name.length > 63 then (false, { d1 with file := f1 })
      else
        let f2 := (f1.write file_name).2
        let f3 := if file_name.length < 63 then
            (f2.write (List.replicate (63 - file_name.length) 0)).2 else f2
        (true, { d1 with file := (f3.seek pos).2 })

/-- The sampling loop of `md5sum` for one entry: `none` when the fuel runs out.
The caller passes `end - pos + 1` as fuel, which is more than the number of
iterations of any run in which every iteration advances the position; a run
with an iteration that does not advance repeats it for ever. -/
def sampleLoop : Nat → QFile → Int → QByteArray → Option (QFile × QByteArray)
  | 0, _, _, _ => none
  | fuel + 1, f, iend, acc =>
    if (f.pos : Int) < iend - 1024 * 1024 - 2 then
      let r := f.read 2
      let block_index := (r.1.headD 0 + 256 * (r.1.tail.headD 0)) % 65536 % 1024
      match r.2.seek ((r.2.pos : Int) + block_index * 1024) with
      | (false, f2) => some (f2, acc)
      | (true, f2) =>
        let s := f2.read 1024
        sampleLoop fuel s.2 iend (acc ++ s.1)
    else some (f, acc)

/-- The body of the entry loop of `md5sum`. -/
def md5Entry (f : QFile) (acc : QByteArray) (info : FileInfo) : Option (QFile × QByteArray) :=
  let f1 := (f.seek info.start).2
  match sampleLoop ((info.end_ - f1.pos).toNat + 1) f1 info.end_ acc with
  | none => none
  | some (f2, acc2) =>
    let t := f2.read (info.end_ - f2.pos)
    some (t.2, acc2 ++ t.1)

def md5Entries : List FileInfo → QFile → QByteArray → Option (QFile × QByteArray)
  | [], f, acc => some (f, acc)
  | info :: rest, f, acc =>
    match md5Entry f acc info with
    | none => none
    | some (f1, acc1) => md5Entries rest f1 acc1

/-- The sparse-sampling digest: `none` when a sampling loop does not terminate. -/
def md5sum (md5 : QByteArray → QByteArray) (d : DVirtualImageFileIOPrivate) :
    Option (QByteArray × DVirtualImageFileIOPrivate) :=
  if !d.file.isOpen then some ([], d)
  else
    let f0 := (d.file.seek 0).2
    let r := f0.read (validMetaDataSize d)
    match md5Entries (fileInfoList d) r.2 r.1 with
    | none => none
    | some (f2, acc) => some (md5 acc, { d with file := f2 })

/-- The entry loop of `setFile`, with `k` records left to read and `i` the index
of the next one. -/
def decodeEntries : Nat → Nat → DVirtualImageFileIOPrivate → Bool × DVirtualImageFileIOPrivate
  | 0, _, d => (true, d)
  | k + 1, i, d =>
    let m := d.file.getU8
    if m.1 != 0xdd then (false, { d with file := m.2.close })
    else
      let nb := m.2.read 63
      let st := nb.2.getI64
      let en := st.2.getI64
      let info : FileInfo := { name := fromUtf8 nb.1, index := i, start := st.1, end_ := en.1 }
      decodeEntries k (i + 1) { d with file := en.2, fileMap := d.fileMap.insert info.name info }

/-- The placeholder digest of a new container. -/
def initMd5 : QByteArray :=
  [0x21, 0x21, 0x5b, 0x9a, 0xf6, 0xd0, 0x5c, 0x31, 0xd8, 0xcd, 0x42, 0xbb, 0xca, 0x12, 0x97, 0x7f]

/-- The `setFile(fileName)`, with `store` the content of the named file.
The result is `none` when the digest computation does not terminate. -/
def setFile (md5 : QByteArray → QByteArray) (d : DVirtualImageFileIOPrivate) (fileName : String)
    (store : QByteArray) : Option (Bool × DVirtualImageFileIOPrivate) :=
  if d.file.isOpen then some (false, d)
  else
    let d0 := { d with isValid := false }
    if !endsWith fileName ".dim" then some (false, d0)
    else
      let d1 := { d0 with file := { bytes := store, openMode := 0, pos := 0 } }
      if d1.file.size > 0 then
        if d1.file.size < metaDataSize then some (false, d1)
        else
          match d1.file.open_ ReadOnly with
          | (false, _) => some (false, d1)
          | (true, f0) =>
            let m := f0.getU8
            if m.1 != 0xdd then some (false, { d1 with file := m.2.close })
            else
              let v := m.2.getU8
              let d2 := { d1 with file := v.2, version := v.1 }
              if d2.version != 1 then some (false, { d2 with file := d2.file.close })
              else
                let c := d2.file.getU8
                let file_count : Nat := c.1
                let d3 := { d2 with file := c.2 }
                if d3.file.size < 3 + (file_count : Int) * 80 then
                  some (false, { d3 with file := d3.file.close })
                else
                  match decodeEntries file_count 0 d3 with
                  | (false, d4) => some (false, d4)
                  | (true, d4) =>
                    let stored := d4.file.read 16
                    match md5sum md5 { d4 with file := stored.2 } with
                    | none => none
                    | some (sum, d5) =>
                      if stored.1 != sum then some (false, d5)
                      else some (true, { d5 with file := d5.file.close, isValid := true })
      else
        match d1.file.open_ WriteOnly with
        | (true, f0) =>
          let f1 := (f0.resize metaDataSize).2
          let f2 := (f1.putChar 0xdd).2
          let f3 := (f2.putChar 0x01).2
          let f4 := (f3.putChar 0x00).2
          let f5 := (f4.write initMd5).2
          some (true, { d1 with file := f5.close, isValid := true })
        | (false, _) => some (false, d1)

def open_ (d : DVirtualImageFileIOPrivate) (fileName : QString) (openMode : Nat) :
    Bool × DVirtualImageFileIOPrivate :=
  if d.file.isOpen || !isValid d then (false, d)
  else if testFlag openMode NotOpen then (false, d)
  else if openMode &&& (WriteOnly ||| Append) != 0 && !isWritable d fileName then (false, d)
  else if !(openMode &&& (WriteOnly ||| Append) != 0) && !existes d fileName then (false, d)
  else
    let d1 := if !existes d fileName then (addFile d fileName).2 else d
    match d1.file.open_ (openMode ||| ReadOnly) with
    | (false, _) => (false, d1)
    | (true, f0) =>
      let info := d1.fileMap.value fileName
      (true, { d1 with file := (f0.seek info.start).2, openedFile := fileName })

/-- The `close()`; `none` when the digest computation does not terminate. -/
def close (md5 : QByteArray → QByteArray) (d : DVirtualImageFileIOPrivate) :
    Option (Bool × DVirtualImageFileIOPrivate) :=
  if !d.file.isOpen then some (false, d)
  else
    let open_mode := d.file.openMode
    if testFlag open_mode WriteOnly then
      let d1 :=
        if !d.openedFile.isEmpty then
          let info := d.fileMap.value d.openedFile
          (setSize { d with file := d.file.close } d.openedFile (info.end_ - info.start)).2
        else { d with openedFile := [] }
      let reopened := if !d1.file.isOpen then d1.file.open_ ReadWrite else (true, d1.file)
      if !reopened.1 then some (false, d1)
      else
        match md5sum md5 { d1 with file := reopened.2 } with
        | none => none
        | some (sum, d2) =>
          let f1 := (d2.file.seek (validMetaDataSize d2)).2
          let f2 := (f1.write sum).2
          some (true, { d2 with file := f2.close })
    else some (true, { d with file := d.file.close })

def pos (d : DVirtualImageFileIOPrivate) : Int :=
  if d.openedFile.isEmpty then -1
  else
    let info := d.fileMap.value d.openedFile
    let p : Int := d.file.pos
    if p < info.start || p > info.end_ then -1 else wrapI64 ((d.file.pos : Int) - info.start)

def seek (d : DVirtualImageFileIOPrivate) (p : Int) : Bool × DVirtualImageFileIOPrivate :=
  if p < 0 then (false, d)
  else if d.openedFile.isEmpty then (true, d)
  else
    let info := d.fileMap.value d.openedFile
    let r := d.file.seek (wrapI64 (info.start + p))
    (r.1, { d with file := r.2 })

def read (d : DVirtualImageFileIOPrivate) (maxlen : Int) : Int × QByteArray × DVirtualImageFileIOPrivate :=
  let n := min maxlen ((d.fileMap.value d.openedFile).end_ - d.file.pos)
  let r := d.file.readInto n
  (r.1, r.2.1, { d with file := r.2.2 })

def write (d : DVirtualImageFileIOPrivate) (data : QByteArray) : Int × DVirtualImageFileIOPrivate :=
  let r := d.file.write data
  let info := d.fileMap.value d.openedFile
  let fileMap := d.fileMap.insert d.openedFile { info with end_ := max info.end_ r.2.pos }
  (r.1, { d with file := r.2, fileMap := fileMap })

/-! ## Scenarios: sequences of operations -/

/-- Successive `write` calls, one per chunk. -/
def writeAll (d : DVirtualImageFileIOPrivate) : List QByteArray → DVirtualImageFileIOPrivate
  | [] => d
  | c :: cs => writeAll (write d c).2 cs

/-- A write session: `open(name, WriteOnly)`, the writes, `close()`.  When the
open fails nothing else is called. -/
def writeSession (md5 : QByteArray → QByteArray) (d : DVirtualImageFileIOPrivate)
    (name : QString) (chunks : List QByteArray) : Option (Bool × DVirtualImageFileIOPrivate) :=
  match open_ d name WriteOnly with
  | (false, d1) => some (false, d1)
  | (true, d1) => close md5 (writeAll d1 chunks)

inductive Op where
  | addFile (name : QString)
  | session (name : QString) (chunks : List QByteArray)
deriving DecidableEq, Repr

def Op.name : Op → QString
  | .addFile n => n
  | .session n _ => n

def step (md5 : QByteArray → QByteArray) (d : DVirtualImageFileIOPrivate) :
    Op → Option DVirtualImageFileIOPrivate
  | .addFile name => some (addFile d name).2
  | .session name chunks => (writeSession md5 d name chunks).map Prod.snd

def run (md5 : QByteArray → QByteArray) :
    List Op → DVirtualImageFileIOPrivate → Option DVirtualImageFileIOPrivate
  | [], d => some d
  | op :: ops, d => (step md5 d op).bind (run md5 ops)

/-- The store of a container just created by `setFile` on an empty file. -/
def freshStore : QByteArray := [0xdd, 0x01, 0x00] ++ initMd5 ++ List.replicate 24557 0

/-- The engine state after `setFile` has created a container in an empty file. -/
def freshEngine : DVirtualImageFileIOPrivate :=
  { isValid := true, file := { bytes := freshStore, openMode := 0, pos := 0 }, version := 0,
    fileMap := [], openedFile := [] }

/-- The entry `addFile` creates for `name`. -/
def newInfo (d : DVirtualImageFileIOPrivate) (name : QString) : FileInfo :=
  { index := d.fileMap.length % 256, name := name,
    start := metaDataSize + fileDataSize d, end_ := metaDataSize + fileDataSize d }

/-- The store after a successful `addFile`: the marker, the name, its padding,
start and end are written at `validMetaDataSize()`, then the count at offset 2. -/
def addFileBytes (d : DVirtualImageFileIOPrivate) (name : QString) : QByteArray :=
  let v := (validMetaDataSize d).toNat
  let s := metaDataSize + fileDataSize d
  writeAt (writeAt (writeAt (writeAt (writeAt (writeAt d.file.bytes v [0xdd]) (v + 1) name)
    (v + 1 + name.length) (List.replicate (63 - name.length) 0)) (v + 64) (encodeI64 s))
    (v + 72) (encodeI64 s)) 2 [(d.fileMap.insert name (newInfo d name)).length % 256]

/-! ## Invariants of the entry table -/

/-- The entries are laid out back to back from offset `a`. -/
def Chain : Int → List FileInfo → Prop
  | _, [] => True
  | a, x :: xs => x.start = a ∧ x.start ≤ x.end_ ∧ Chain x.end_ xs

/-- The end of the last entry of a chain starting at `a`. -/
def lastEnd : Int → List FileInfo → Int
  | a, [] => a
  | _, x :: xs => lastEnd x.end_ xs

/-- The invariant of the in-memory table and the size of the store that
`addFile` and write sessions maintain. -/
structure TableInv (d : DVirtualImageFileIOPrivate) : Prop where
  valid : d.isValid = true
  size_ge : 24576 ≤ d.file.bytes.length
  nodup : (d.fileMap.map Prod.fst).Nodup
  chain : Chain 24576 (d.fileMap.map Prod.snd)
  last_le : lastEnd 24576 (d.fileMap.map Prod.snd) ≤ d.file.bytes.length
  index : ∀ (i : Nat) (p : QString × FileInfo), d.fileMap.get? i = some p → p.2.index = i % 256
  name : ∀ p ∈ d.fileMap, p.2.name = p.1

/-- The state during a write session on `name`: the store is open for reading
and writing and `name` is the open cursor and the last entry of the table. -/
structure SessInv (d : DVirtualImageFileIOPrivate) (name : QString) : Prop where
  inv : TableInv d
  mode : d.file.openMode = 3
  opened : d.openedFile = name
  last : ∃ init info, d.fileMap = init ++ [(name, info)]

/-- The names of the table after an operation on `n`: a new name is appended. -/
def addKey (ks : List QString) (n : QString) : List QString := if n ∈ ks then ks else ks ++ [n]

/-- The names of the table after operations on the given names, in order. -/
def keysAfter (ks : List QString) (names : List QString) : List QString := names.foldl addKey ks

/-- The operations of a script are admissible from a table with names `ks`:
every name has at most 63 bytes and `addFile` is only called with a new name. -/
def OpsOK : List QString → List Op → Prop
  | _, [] => True
  | ks, op :: ops =>
    op.name.length ≤ 63 ∧ (∀ n, op = Op.addFile n → n ∉ ks) ∧ OpsOK (addKey ks op.name) ops

/-- The operations that add each entry with `addFile` and then, when a list of
chunks is given, fill it in a write session before the next entry is added. -/
def fillOps : List (QString × Option (List QByteArray)) → List Op
  | [] => []
  | (n, none) :: rest => Op.addFile n :: fillOps rest
  | (n, some cs) :: rest => Op.addFile n :: Op.session n cs :: fillOps rest

/-! ## Concrete stores and states used in the theorems -/

/-- The store after one entry `name` has been created in the store `F0`, filled
with `B` and closed with digest `dg`. -/
def oneEntryStore (F0 name B dg : QByteArray) : QByteArray :=
  writeAt (writeAt (writeAt (writeAt (writeAt (writeAt (writeAt (writeAt (writeAt F0
    3 [221]) (3 + 1) name) (3 + 1 + name.length) (List.replicate (63 - name.length) 0))
    (3 + 64) (encodeI64 24576)) (3 + 72) (encodeI64 24576)) 2 [1])
    24576 B) 75 (encodeI64 (24576 + (B.length : Int)))) 83 dg

/-- A simple function with 16-byte results, used to instantiate the digest parameter. -/
def sampleMd5 : QByteArray → QByteArray := fun x => List.replicate 16 (x.length % 256)

/-- The engine after `addFile("a")` and `addFile("b")` on a new container. -/
def twoEntryEngine : DVirtualImageFileIOPrivate :=
  (addFile (addFile freshEngine [97]).2 [98]).2

/-- The single-byte names `[1]`, ..., `[n]`. -/
def byteNames (n : Nat) : List QString := (List.range n).map (fun i => [i + 1])

/-- The engine state after `open("a", WriteOnly)` on a new container. -/
def openedFresh : DVirtualImageFileIOPrivate :=
  { freshEngine with
    file := ⟨addFileBytes freshEngine [97], 3, 24576⟩,
    fileMap := [([97], ⟨0, [97], 24576, 24576⟩)],
    openedFile := [97] }

/-- The engine state in `setFile` when the three header bytes of `store` have
been read and accepted. -/
def headerRead (d : DVirtualImageFileIOPrivate) (store : QByteArray) : DVirtualImageFileIOPrivate :=
  { d with isValid := false, file := ⟨store, 1, 3⟩, version := store.getD 1 0 }

/-- The engine state in `setFile` when the entry records of `store` and the 16
bytes of the stored digest have been read, before `md5sum()` is called. -/
def digestRead (d : DVirtualImageFileIOPrivate) (store : QByteArray) : DVirtualImageFileIOPrivate :=
  { (decodeEntries (store.getD 2 0) 0 (headerRead d store)).2 with
    file := ⟨store, 1, 3 + 80 * store.getD 2 0 + 16⟩ }

/-- A well-formed store without entries whose digest slot holds 16 zero bytes. -/
def blankStore : QByteArray := [0xdd, 0x01, 0x00] ++ List.replicate 24573 0

/-- The engine state after `setFile` has read the header of `blankStore`. -/
def decodedBlank : DVirtualImageFileIOPrivate :=
  { isValid := false, file := ⟨blankStore, 1, 3⟩, version := 1, fileMap := [], openedFile := [] }

/-- A store of 24576 bytes with marker, version 1 and entry count 1 whose record 0
starts with a zero byte instead of the marker. -/
def badRecordStore : QByteArray := [0xdd, 0x01, 0x01] ++ List.replicate 24573 0

/-- A small engine state: a ten-byte store open for reading and writing, one entry
`a` with range `[2, 8)` that is the open cursor, and the store position at offset 4. -/
def tinyEngine : DVirtualImageFileIOPrivate :=
  { isValid := true, file := ⟨[10, 11, 12, 13, 14, 15, 16, 17, 18, 19], 3, 4⟩, version := 1,
    fileMap := [([97], ⟨0, [97], 2, 8⟩)], openedFile := [97] }

/-- The value of `block_index` in the sampling loop of `md5sum` after its reduction
modulo 1024, when the two jump bytes are read at offset `p` of the store. -/
def blockIndex (bs : QByteArray) (p : Nat) : Nat :=
  ((readAt bs p 2).headD 0 + 256 * (readAt bs p 2).tail.headD 0) % 65536 % 1024

/-- A store of 1073155 bytes: the store of a new container followed by the data of
one entry, whose two jump bytes give the jump value 1. -/
def sampledStore : QByteArray := freshStore ++ ([1, 0, 0] ++ List.replicate 1048576 0)

/-- An entry that spans the data of `sampledStore`. -/
def sampledEntry : FileInfo := ⟨0, [97], 24576, 1073155⟩

/-- Successive `addFile` calls, one per name. -/
def addFiles (d : DVirtualImageFileIOPrivate) (names : List QString) : DVirtualImageFileIOPrivate :=
  names.foldl (fun d n => (addFile d n).2) d

/-- The engine state after a successful `addFile` of a new name. -/
def added (d : DVirtualImageFileIOPrivate) (name : QString) : DVirtualImageFileIOPrivate :=
  { d with file := ⟨addFileBytes d name, 0, 0⟩, fileMap := d.fileMap ++ [(name, newInfo d name)] }

/-- The store of a closed container whose entries are all empty holds the header
and, for the entry at position `i` of the table, the record at offset `3 + 80 * i`:
the marker, the zero-padded name, the start and the end. -/
structure RecordsInv (d : DVirtualImageFileIOPrivate) : Prop where
  closed : d.file.openMode = 0
  marker : d.file.bytes.getD 0 0 = 0xdd
  version : d.file.bytes.getD 1 0 = 1
  count : d.file.bytes.getD 2 0 = d.fileMap.length % 256
  empty : ∀ p ∈ d.fileMap, p.2.start = 24576 ∧ p.2.end_ = 24576
  short : ∀ p ∈ d.fileMap, p.1.length ≤ 63
  record : ∀ (i : Nat) (p : QString × FileInfo), d.fileMap[i]? = some p →
    d.file.bytes.getD (3 + 80 * i) 0 = 0xdd ∧
    readAt d.file.bytes (3 + 80 * i + 1) 63 = p.1 ++ List.replicate (63 - p.1.length) 0 ∧
    readAt d.file.bytes (3 + 80 * i + 64) 8 = encodeI64 p.2.start ∧
    readAt d.file.bytes (3 + 80 * i + 72) 8 = encodeI64 p.2.end_

/-- A store of 24576 bytes with one record: the entry `a` with start `-2^63` and end
50, followed by the digest that `sampleMd5` yields for this store. -/
def overflowStore : QByteArray :=
  [0xdd, 0x01, 0x01] ++ ([0xdd, 97] ++ List.replicate 62 0 ++ [0x80, 0, 0, 0, 0, 0, 0, 0] ++
    [0, 0, 0, 0, 0, 0, 0, 50]) ++ List.replicate 16 83 ++ List.replicate 24477 0

/-- The engine states on `overflowStore` with its decoded table. -/
def overflowState (valid : Bool) (m p : Nat) (opened : QString) : DVirtualImageFileIOPrivate :=
  { isValid := valid, file := ⟨overflowStore, m, p⟩, version := 1,
    fileMap := [([97], ⟨0, [97], -2 ^ 63, 50⟩)], openedFile := opened }

/-- The engine state after `setFile` has accepted `overflowStore`. -/
def overflowEngine : DVirtualImageFileIOPrivate := overflowState true 0 0 []

/-- The engine state after `open("", WriteOnly)` on a new container. -/
def openedEmptyName : DVirtualImageFileIOPrivate :=
  { freshEngine with
    file := ⟨addFileBytes freshEngine [], 3, 24576⟩,
    fileMap := [([], ⟨0, [], 24576, 24576⟩)],
    openedFile := [] }

/-- The entry that the loop of `setFile` decodes from record `i` of a store. -/
def decodeRecord (store : QByteArray) (i : Nat) : FileInfo :=
  { index := i, name := fromUtf8 (readAt store (3 + 80 * i + 1) 63),
    start := decodeI64 (readAt store (3 + 80 * i + 64) 8),
    end_ := decodeI64 (readAt store (3 + 80 * i + 72) 8) }

/-- The table that holds the first `n` records of a store, in record order. -/
def decodedTable (store : QByteArray) (n : Nat) : QHash :=
  (List.range n).map (fun i => ((decodeRecord store i).name, decodeRecord store i))

/-- A store of 24576 bytes with one record, the entry `a` with the empty range
`[24576, 24576)`, and 16 zero bytes in the digest slot. -/
def oneRecordStore : QByteArray :=
  [0xdd, 0x01, 0x01] ++ ([0xdd, 97] ++ List.replicate 62 0 ++ [0, 0, 0, 0, 0, 0, 0x60, 0] ++
    [0, 0, 0, 0, 0, 0, 0x60, 0]) ++ List.replicate 24493 0

/-- The engine state in which `setFile` leaves a new engine on `oneRecordStore`. -/
def decodedOneRecord : DVirtualImageFileIOPrivate :=
  { isValid := false, file := ⟨oneRecordStore, 1, 24576⟩, version := 1,
    fileMap := [([97], ⟨0, [97], 24576, 24576⟩)], openedFile := [] }

theorem wrapI64_of_range (v : Int) (h1 : -2 ^ 63 ≤ v) (h2 : v < 2 ^ 63) : wrapI64 v = v := by
  unfold wrapI64
  rw [Int.emod_eq_of_lt (by omega) (by omega)]
  omega

theorem length_writeAt (l : QByteArray) (p : Nat) (d : QByteArray) :
    (writeAt l p d).length = max l.length (p + d.length) := by
  simp only [writeAt, List.length_append, List.length_take, List.length_replicate, List.length_drop]
  omega

theorem writeAt_head_length (l : QByteArray) (p : Nat) :
    (l.take p ++ List.replicate (p - l.length) 0).length = p := by
  simp only [List.length_append, List.length_take, List.length_replicate]
  omega

theorem take_writeAt (l : QByteArray) (p : Nat) (d : QByteArray) (k : Nat)
    (hk : k ≤ p) (hl : k ≤ l.length) : (writeAt l p d).take k = l.take k := by
  unfold writeAt
  rw [List.append_assoc, List.append_assoc, List.take_append_of_le_length, List.take_take]
  · congr 1; omega
  · simp only [List.length_take]; omega

theorem drop_writeAt (l : QByteArray) (p : Nat) (d : QByteArray) (k : Nat)
    (hk : p + d.length ≤ k) : (writeAt l p d).drop k = l.drop k := by
  unfold writeAt
  have h := writeAt_head_length l p
  rw [List.drop_append_eq_append_drop]
  have h2 : (l.take p ++ List.replicate (p - l.length) 0 ++ d).length = p + d.length := by
    rw [List.length_append, h]
  rw [h2, List.drop_of_length_le (by omega), List.nil_append, List.drop_drop]
  congr 1; omega

theorem readAt_writeAt_same (l : QByteArray) (p : Nat) (d : QByteArray) :
    readAt (writeAt l p d) p d.length = d := by
  unfold readAt writeAt
  have h := writeAt_head_length l p
  rw [List.append_assoc, List.drop_append_eq_append_drop, h, 
    List.drop_of_length_le (by omega), Nat.sub_self, List.drop_zero, List.nil_append,
    List.take_append_of_le_length (by omega), List.take_length]

theorem readAt_eq_drop_take (l : QByteArray) (q n : Nat) :
    readAt l q n = (l.take (q + n)).drop q := by
  unfold readAt
  rw [List.drop_take]; congr 1; omega

theorem readAt_writeAt_before (l : QByteArray) (p : Nat) (d : QByteArray) (q n : Nat)
    (hq : q + n ≤ p) (hl : q + n ≤ l.length) :
    readAt (writeAt l p d) q n = readAt l q n := by
  rw [readAt_eq_drop_take, readAt_eq_drop_take, take_writeAt l p d _ hq hl]

theorem readAt_writeAt_after (l : QByteArray) (p : Nat) (d : QByteArray) (q n : Nat)
    (hq : p + d.length ≤ q) :
    readAt (writeAt l p d) q n = readAt l q n := by
  unfold readAt
  rw [drop_writeAt l p d q hq]

theorem readAt_add (l : QByteArray) (q n m : Nat) :
    readAt l q (n + m) = readAt l q n ++ readAt l (q + n) m := by
  unfold readAt
  rw [List.take_add, List.drop_drop]

theorem length_readAt (l : QByteArray) (q n : Nat) :
    (readAt l q n).length = min n (l.length - q) := by
  simp [readAt]

theorem writeAt_nil (l : QByteArray) (p : Nat) (h : p ≤ l.length) : writeAt l p [] = l := by
  unfold writeAt
  simp [Nat.sub_eq_zero_of_le h]

theorem writeAt_writeAt_adj (l : QByteArray) (p : Nat) (a b : QByteArray) :
    writeAt (writeAt l p a) (p + a.length) b = writeAt l p (a ++ b) := by
  have h1 : (writeAt l p a).take (p + a.length) = l.take p ++ List.replicate (p - l.length) 0 ++ a := by
    unfold writeAt
    have h := writeAt_head_length l p
    rw [List.take_append_of_le_length]
    · rw [List.take_of_length_le]; rw [List.length_append, h]
    · rw [List.length_append, h]
  have h2 := drop_writeAt l p a (p + a.length + b.length) (by omega)
  have h3 := length_writeAt l p a
  have h4 : ∀ W : QByteArray, writeAt W (p + a.length) b =
      W.take (p + a.length) ++ List.replicate (p + a.length - W.length) 0 ++ b ++
        W.drop (p + a.length + b.length) := fun _ => rfl
  rw [h4, h1, h2, h3]
  unfold writeAt
  have : p + a.length - max l.length (p + a.length) = 0 := by omega
  simp [this, Nat.add_assoc]

theorem readAt_congr_drop (l l' : QByteArray) (b q n : Nat) (hb : b ≤ q)
    (h : l.drop b = l'.drop b) : readAt l q n = readAt l' q n := by
  unfold readAt
  have : ∀ x : QByteArray, x.drop q = (x.drop b).drop (q - b) := by
    intro x; rw [List.drop_drop]; congr 1; omega
  rw [this l, this l', h]

theorem read_eq (bs : QByteArray) (m p : Nat) (n : Int) (hr : m &&& ReadOnly ≠ 0) (hn : 0 ≤ n) :
    QFile.read ⟨bs, m, p⟩ n = (readAt bs p n.toNat, ⟨bs, m, p + (readAt bs p n.toNat).length⟩) := by
  simp [QFile.read, QFile.readable, hr, hn]

theorem read_neg (f : QFile) (n : Int) (hn : n < 0) : QFile.read f n = ([], f) := by
  simp [QFile.read, hn]

theorem seek_eq (bs : QByteArray) (m p : Nat) (q : Int) (ho : m ≠ 0) (hq : 0 ≤ q) :
    QFile.seek ⟨bs, m, p⟩ q = (true, ⟨bs, m, q.toNat⟩) := by
  simp [QFile.seek, QFile.isOpen, ho, hq]

theorem readable_ne_zero (m : Nat) (hr : m &&& ReadOnly ≠ 0) : m ≠ 0 := by
  rintro rfl; simp at hr

theorem sampleLoop_spec (b : Nat) (fuel : Nat) :
    ∀ (bs bs1 : QByteArray) (m m1 p : Nat) (iend : Int) (acc : QByteArray),
    m &&& ReadOnly ≠ 0 → m1 &&& ReadOnly ≠ 0 → b ≤ p → bs.drop b = bs1.drop b →
    iend ≤ bs.length → (iend - 1048578 - p).toNat < fuel →
    ∃ q acc1, p ≤ q ∧ sampleLoop fuel ⟨bs, m, p⟩ iend acc = some (⟨bs, m, q⟩, acc1) ∧
      sampleLoop fuel ⟨bs1, m1, p⟩ iend acc = some (⟨bs1, m1, q⟩, acc1) := by
  induction fuel with
  | zero => intro bs bs1 m m1 p iend acc _ _ _ _ _ h; omega
  | succ fuel ih =>
    intro bs bs1 m m1 p iend acc hr hr1 hb hd hle hfuel
    have ho := readable_ne_zero m hr
    have ho1 := readable_ne_zero m1 hr1
    unfold sampleLoop
    by_cases hlt : ((p : Nat) : Int) < iend - 1024 * 1024 - 2
    · simp only [hlt, if_true]
      rw [read_eq bs m p 2 hr (by omega), read_eq bs1 m1 p 2 hr1 (by omega)]
      simp only []
      rw [← readAt_congr_drop bs bs1 b p _ hb hd]
      have hl2 := length_readAt bs p (Int.toNat 2)
      generalize readAt bs p (Int.toNat 2) = r2 at hl2 ⊢
      generalize hk : (r2.headD 0 + 256 * r2.tail.headD 0) % 65536 % 1024 = k
      have hk2 : k < 1024 := by omega
      rw [seek_eq _ _ _ _ ho (by positivity), seek_eq _ _ _ _ ho1 (by positivity)]
      simp only []
      generalize hp2 : (((p + r2.length : Nat) : Int) + (k : Int) * 1024).toNat = p2
      rw [read_eq _ _ _ 1024 hr (by omega), read_eq _ _ _ 1024 hr1 (by omega)]
      simp only []
      rw [← readAt_congr_drop bs bs1 b p2 _ (by omega) hd]
      have hl3 := length_readAt bs p2 (Int.toNat 1024)
      generalize readAt bs p2 (Int.toNat 1024) = r3 at hl3 ⊢
      obtain ⟨q, acc1, hq, h1, h2⟩ := ih bs bs1 m m1 (p2 + r3.length) iend (acc ++ r3) hr hr1
        (by omega) hd hle (by omega)
      exact ⟨q, acc1, by omega, h1, h2⟩
    · simp only [hlt, if_false]
      exact ⟨p, acc, Nat.le_refl _, rfl, rfl⟩

theorem md5Entry_spec (b : Nat) (bs bs1 : QByteArray) (m m1 p : Nat) (acc : QByteArray)
    (info : FileInfo) (hr : m &&& ReadOnly ≠ 0) (hr1 : m1 &&& ReadOnly ≠ 0)
    (hd : bs.drop b = bs1.drop b) (hs : (b : Int) ≤ info.start) (he : info.end_ ≤ bs.length) :
    ∃ q acc1, md5Entry ⟨bs, m, p⟩ acc info = some (⟨bs, m, q⟩, acc1) ∧
      md5Entry ⟨bs1, m1, p⟩ acc info = some (⟨bs1, m1, q⟩, acc1) := by
  have ho := readable_ne_zero m hr
  have ho1 := readable_ne_zero m1 hr1
  unfold md5Entry
  rw [seek_eq _ _ _ _ ho (by omega), seek_eq _ _ _ _ ho1 (by omega)]
  simp only []
  obtain ⟨q, acc1, hq, h1, h2⟩ := sampleLoop_spec b ((info.end_ - (info.start.toNat : Int)).toNat + 1)
    bs bs1 m m1 info.start.toNat info.end_ acc hr hr1 (by omega) hd he (by omega)
  rw [h1, h2]
  simp only []
  by_cases hn : 0 ≤ info.end_ - (q : Int)
  · rw [read_eq _ _ _ _ hr hn, read_eq _ _ _ _ hr1 hn,
      ← readAt_congr_drop bs bs1 b q _ (by omega) hd]
    exact ⟨_, _, rfl, rfl⟩
  · rw [read_neg _ _ (by omega), read_neg _ _ (by omega)]
    exact ⟨_, _, rfl, rfl⟩

theorem md5Entries_spec (b : Nat) (bs bs1 : QByteArray) (m m1 : Nat)
    (hr : m &&& ReadOnly ≠ 0) (hr1 : m1 &&& ReadOnly ≠ 0) (hd : bs.drop b = bs1.drop b) :
    ∀ (l : List FileInfo) (p : Nat) (acc : QByteArray),
    (∀ x ∈ l, (b : Int) ≤ x.start ∧ x.end_ ≤ bs.length) →
    ∃ q acc1, md5Entries l ⟨bs, m, p⟩ acc = some (⟨bs, m, q⟩, acc1) ∧
      md5Entries l ⟨bs1, m1, p⟩ acc = some (⟨bs1, m1, q⟩, acc1) := by
  intro l
  induction l with
  | nil => intro p acc _; exact ⟨p, acc, rfl, rfl⟩
  | cons x xs ih =>
    intro p acc h
    have hx := h x (List.mem_cons_self _ _)
    obtain ⟨q, acc1, h1, h2⟩ := md5Entry_spec b bs bs1 m m1 p acc x hr hr1 hd hx.1 hx.2
    unfold md5Entries
    rw [h1, h2]
    simp only []
    exact ih q acc1 (fun y hy => h y (List.mem_cons_of_mem _ hy))

theorem md5sum_spec (md5 : QByteArray → QByteArray) (b : Nat) (d d1 : DVirtualImageFileIOPrivate)
    (bs bs1 : QByteArray) (m m1 p p1 : Nat)
    (hf : d.file = ⟨bs, m, p⟩) (hf1 : d1.file = ⟨bs1, m1, p1⟩)
    (hmap : d.fileMap = d1.fileMap)
    (hr : m &&& ReadOnly ≠ 0) (hr1 : m1 &&& ReadOnly ≠ 0)
    (ht : bs.take (validMetaDataSize d).toNat = bs1.take (validMetaDataSize d).toNat)
    (hd : bs.drop b = bs1.drop b)
    (hl : ∀ x ∈ fileInfoList d, (b : Int) ≤ x.start ∧ x.end_ ≤ bs.length) :
    ∃ acc q, md5sum md5 d = some (md5 acc, { d with file := ⟨bs, m, q⟩ }) ∧
      md5sum md5 d1 = some (md5 acc, { d1 with file := ⟨bs1, m1, q⟩ }) := by
  have ho := readable_ne_zero m hr
  have ho1 := readable_ne_zero m1 hr1
  have hv : validMetaDataSize d1 = validMetaDataSize d := by simp [validMetaDataSize, hmap]
  have hv0 : 0 ≤ validMetaDataSize d := by simp [validMetaDataSize, QHash.count]; positivity
  have hfl : fileInfoList d1 = fileInfoList d := by simp [fileInfoList, hmap]
  unfold md5sum
  rw [hf, hf1, hv, hfl]
  have hopen : ∀ x, QFile.isOpen ⟨bs, m, x⟩ = true := by intro x; simp [QFile.isOpen, ho]
  have hopen1 : ∀ x, QFile.isOpen ⟨bs1, m1, x⟩ = true := by intro x; simp [QFile.isOpen, ho1]
  simp only [hopen, hopen1, Bool.not_true, Bool.false_eq_true, if_false]
  rw [seek_eq _ _ _ _ ho (le_refl _), seek_eq _ _ _ _ ho1 (le_refl _)]
  simp only []
  rw [read_eq _ _ _ _ hr hv0, read_eq _ _ _ _ hr1 hv0]
  simp only []
  have hra : readAt bs1 (Int.toNat 0) (validMetaDataSize d).toNat
      = readAt bs (Int.toNat 0) (validMetaDataSize d).toNat := by
    simp [readAt, ht]
  rw [hra]
  obtain ⟨q, acc1, h1, h2⟩ := md5Entries_spec b bs bs1 m m1 hr hr1 hd (fileInfoList d) 
    (Int.toNat 0 + (readAt bs (Int.toNat 0) (validMetaDataSize d).toNat).length)
    (readAt bs (Int.toNat 0) (validMetaDataSize d).toNat) hl
  rw [h1, h2]
  exact ⟨_, _, rfl, rfl⟩

/-! ### The association list -/

theorem QHash.find_eq_none (m : QHash) (key : QString) :
    QHash.find m key = none ↔ key ∉ m.map Prod.fst := by
  induction m with
  | nil => simp [QHash.find]
  | cons x xs ih =>
    obtain ⟨k, v⟩ := x
    by_cases h : k = key
    · simp [QHash.find, h]
    · simp [QHash.find, h, ih, Ne.symm h]

theorem QHash.contains_eq_false (m : QHash) (key : QString) (h : key ∉ m.map Prod.fst) :
    QHash.contains m key = false := by
  simp [QHash.contains, (QHash.find_eq_none m key).2 h]

theorem QHash.contains_eq_true (m : QHash) (key : QString) (h : key ∈ m.map Prod.fst) :
    QHash.contains m key = true := by
  cases hf : QHash.find m key with
  | none => exact absurd h ((QHash.find_eq_none m key).1 hf)
  | some v => simp [QHash.contains, hf]

theorem QHash.insert_of_not_mem (m : QHash) (key : QString) (v : FileInfo)
    (h : key ∉ m.map Prod.fst) : QHash.insert m key v = m ++ [(key, v)] := by
  induction m with
  | nil => rfl
  | cons x xs ih =>
    obtain ⟨k, w⟩ := x
    simp only [List.map_cons, List.mem_cons, not_or] at h
    simp [QHash.insert, Ne.symm h.1, ih h.2]

theorem QHash.find_append_last (m : QHash) (key : QString) (v : FileInfo)
    (h : key ∉ m.map Prod.fst) : QHash.find (m ++ [(key, v)]) key = some v := by
  induction m with
  | nil => simp [QHash.find]
  | cons x xs ih =>
    obtain ⟨k, w⟩ := x
    simp only [List.map_cons, List.mem_cons, not_or] at h
    simp [QHash.find, Ne.symm h.1, ih h.2]

theorem QHash.insert_append_last (m : QHash) (key : QString) (x v : FileInfo)
    (h : key ∉ m.map Prod.fst) : QHash.insert (m ++ [(key, x)]) key v = m ++ [(key, v)] := by
  induction m with
  | nil => simp [QHash.insert]
  | cons y ys ih =>
    obtain ⟨k, w⟩ := y
    simp only [List.map_cons, List.mem_cons, not_or] at h
    simp [QHash.insert, Ne.symm h.1, ih h.2]

theorem QHash.length_insert_ge (m : QHash) (key : QString) (v : FileInfo) :
    m.length ≤ (QHash.insert m key v).length := by
  induction m with
  | nil => simp [QHash.insert]
  | cons y ys ih =>
    obtain ⟨k, w⟩ := y
    by_cases h : k = key
    · simp [QHash.insert, h]
    · simp [QHash.insert, h]; exact ih

theorem QHash.length_insert_pos (m : QHash) (key : QString) (v : FileInfo) :
    1 ≤ (QHash.insert m key v).length := by
  cases m with
  | nil => simp [QHash.insert]
  | cons y ys =>
    obtain ⟨k, w⟩ := y
    by_cases h : k = key <;> simp [QHash.insert, h]

/-! ### Chains -/

theorem chain_append (a : Int) (l : List FileInfo) (x : FileInfo) :
    Chain a (l ++ [x]) ↔ Chain a l ∧ x.start = lastEnd a l ∧ x.start ≤ x.end_ := by
  induction l generalizing a with
  | nil => simp [Chain, lastEnd]
  | cons y ys ih => simp [Chain, lastEnd, ih, and_assoc]

theorem lastEnd_append (a : Int) (l : List FileInfo) (x : FileInfo) :
    lastEnd a (l ++ [x]) = x.end_ := by
  induction l generalizing a with
  | nil => simp [lastEnd]
  | cons y ys ih => simp [lastEnd, ih]

theorem chain_le_lastEnd (a : Int) (l : List FileInfo) (h : Chain a l) : a ≤ lastEnd a l := by
  induction l generalizing a with
  | nil => simp [lastEnd]
  | cons y ys ih =>
    obtain ⟨h1, h2, h3⟩ := h
    have := ih _ h3
    simp only [lastEnd]; omega

theorem chain_mem (a : Int) (l : List FileInfo) (h : Chain a l) :
    ∀ x ∈ l, a ≤ x.start ∧ x.start ≤ x.end_ ∧ x.end_ ≤ lastEnd a l := by
  induction l generalizing a with
  | nil => simp
  | cons y ys ih =>
    obtain ⟨h1, h2, h3⟩ := h
    intro x hx
    rcases List.mem_cons.1 hx with rfl | hx
    · have := chain_le_lastEnd _ _ h3
      simp only [lastEnd]; omega
    · have := ih _ h3 x hx
      simp only [lastEnd]; omega

theorem foldl_max_chain (l : QHash) : ∀ (a m0 : Int), Chain a (l.map Prod.snd) → m0 ≤ a →
    l ≠ [] → l.foldl (fun (m : Int) p => max m p.2.end_) m0 = lastEnd a (l.map Prod.snd) := by
  induction l with
  | nil => intro a m0 _ _ h; exact absurd rfl h
  | cons x xs ih =>
    intro a m0 hc hm _
    obtain ⟨h1, h2, h3⟩ := hc
    simp only [List.foldl_cons, List.map_cons, lastEnd]
    have hmax : max m0 x.2.end_ = x.2.end_ := by omega
    rw [hmax]
    by_cases hx : xs = []
    · subst hx; simp [lastEnd]
    · exact ih _ _ h3 (le_refl _) hx

theorem fileDataSize_eq (d : DVirtualImageFileIOPrivate)
    (hc : Chain 24576 (d.fileMap.map Prod.snd)) :
    metaDataSize + fileDataSize d = lastEnd 24576 (d.fileMap.map Prod.snd) := by
  unfold fileDataSize
  by_cases h : d.fileMap = []
  · simp [h, lastEnd, metaDataSize]
  · have hne : d.fileMap.isEmpty = false := by
      cases hm : d.fileMap with
      | nil => exact absurd hm h
      | cons _ _ => rfl
    simp only [hne, Bool.false_eq_true, if_false]
    rw [foldl_max_chain d.fileMap 24576 0 hc (by omega) h]
    omega

/-! ### The byte store at fixed modes -/

theorem length_encodeI64 (v : Int) : (encodeI64 v).length = 8 := by
  simp [encodeI64, beBytes]

theorem open_closed_rw (f : QFile) (h : f.openMode = 0) :
    f.open_ ReadWrite = (true, ⟨f.bytes, 3, 0⟩) := by
  obtain ⟨bs, m, p⟩ := f
  simp only at h
  subst h
  rfl

theorem open_closed_ro (f : QFile) (h : f.openMode = 0) :
    f.open_ ReadOnly = (true, ⟨f.bytes, 1, 0⟩) := by
  obtain ⟨bs, m, p⟩ := f
  simp only at h
  subst h
  rfl

theorem write_rw (bs : QByteArray) (p : Nat) (data : QByteArray) :
    QFile.write ⟨bs, 3, p⟩ data = ((data.length : Int), ⟨writeAt bs p data, 3, p + data.length⟩) := by
  simp [QFile.write, QFile.writable, WriteOnly, Append, show (3 : Nat) &&& 2 = 2 from rfl,
    show (3 : Nat) &&& 4 = 0 from rfl]

theorem putChar_rw (bs : QByteArray) (p c : Nat) :
    QFile.putChar ⟨bs, 3, p⟩ c = (true, ⟨writeAt bs p [c % 256], 3, p + 1⟩) := by
  simp [QFile.putChar, write_rw]

theorem putI64_rw (bs : QByteArray) (p : Nat) (v : Int) :
    QFile.putI64 ⟨bs, 3, p⟩ v = ⟨writeAt bs p (encodeI64 v), 3, p + 8⟩ := by
  simp [QFile.putI64, write_rw, length_encodeI64]

theorem seek_rw (bs : QByteArray) (p : Nat) (q : Int) (hq : 0 ≤ q) :
    QFile.seek ⟨bs, 3, p⟩ q = (true, ⟨bs, 3, q.toNat⟩) := seek_eq bs 3 p q (by decide) hq

theorem validMetaDataSize_nonneg (d : DVirtualImageFileIOPrivate) : 0 ≤ validMetaDataSize d := by
  simp only [validMetaDataSize, QHash.count]; positivity

theorem addFile_spec (d : DVirtualImageFileIOPrivate) (name : QString)
    (hc : d.file.openMode = 0) (hn : name.length ≤ 63) :
    addFile d name = (true, { d with file := ⟨addFileBytes d name, 0, 0⟩,
                                     fileMap := d.fileMap.insert name (newInfo d name) }) := by
  have hv := validMetaDataSize_nonneg d
  unfold addFile
  rw [open_closed_rw _ hc]
  simp only []
  rw [seek_rw _ _ _ hv]
  simp only [putChar_rw, toUtf8]
  rw [if_neg (by omega)]
  simp only [write_rw]
  have hpad : (if name.length < 63 then
      (⟨writeAt (writeAt (writeAt d.file.bytes (validMetaDataSize d).toNat [221 % 256])
          ((validMetaDataSize d).toNat + 1) name) ((validMetaDataSize d).toNat + 1 + name.length)
          (List.replicate (63 - name.length) 0), 3,
        (validMetaDataSize d).toNat + 1 + name.length + (List.replicate (63 - name.length) 0).length⟩ : QFile)
      else ⟨writeAt (writeAt d.file.bytes (validMetaDataSize d).toNat [221 % 256])
          ((validMetaDataSize d).toNat + 1) name, 3, (validMetaDataSize d).toNat + 1 + name.length⟩)
      = ⟨writeAt (writeAt (writeAt d.file.bytes (validMetaDataSize d).toNat [221 % 256])
          ((validMetaDataSize d).toNat + 1) name) ((validMetaDataSize d).toNat + 1 + name.length)
          (List.replicate (63 - name.length) 0), 3, (validMetaDataSize d).toNat + 64⟩ := by
    by_cases hlt : name.length < 63
    · rw [if_pos hlt]
      congr 1
      rw [List.length_replicate]; omega
    · rw [if_neg hlt]
      have h63 : 63 - name.length = 0 := by omega
      rw [h63, List.replicate_zero, writeAt_nil _ _ (by rw [length_writeAt]; omega)]
      congr 1
      omega
  rw [hpad]
  simp only [putI64_rw]
  rw [seek_rw _ _ _ (by omega)]
  simp only [putChar_rw]
  simp only [QFile.close, addFileBytes, newInfo, Nat.add_assoc, show Int.toNat 2 = 2 from rfl,
    show 221 % 256 = 221 from rfl]

theorem length_addFileBytes_ge (d : DVirtualImageFileIOPrivate) (name : QString) :
    d.file.bytes.length ≤ (addFileBytes d name).length := by
  simp only [addFileBytes, length_writeAt]
  omega

theorem addFile_long (d : DVirtualImageFileIOPrivate) (name : QString)
    (hc : d.file.openMode = 0) (hn : 63 < name.length) :
    addFile d name = (false, { d with file :=
      ⟨writeAt d.file.bytes (validMetaDataSize d).toNat [0xdd], 0, 0⟩ }) := by
  have hv := validMetaDataSize_nonneg d
  unfold addFile
  rw [open_closed_rw _ hc]
  simp only []
  rw [seek_rw _ _ _ hv]
  simp only [putChar_rw, toUtf8]
  rw [if_pos (by omega)]
  rfl

theorem existes_iff (d : DVirtualImageFileIOPrivate) (name : QString) :
    existes d name = true ↔ name ∈ d.fileMap.map Prod.fst := by
  constructor
  · intro h
    by_contra hn
    rw [existes, QHash.contains_eq_false _ _ hn] at h
    exact Bool.false_ne_true h
  · exact QHash.contains_eq_true _ _

theorem existes_eq_false (d : DVirtualImageFileIOPrivate) (name : QString)
    (h : name ∉ d.fileMap.map Prod.fst) : existes d name = false :=
  QHash.contains_eq_false _ _ h

theorem value_append_last (m : QHash) (key : QString) (v : FileInfo)
    (h : key ∉ m.map Prod.fst) : QHash.value (m ++ [(key, v)]) key = v := by
  simp [QHash.value, QHash.find_append_last m key v h]

theorem setSize_spec (d : DVirtualImageFileIOPrivate) (name : QString) (sz : Int)
    (hw : isWritable d name = true) (hs : 0 ≤ sz) (hc : d.file.openMode = 0) :
    setSize d name sz = (true, { d with
      file := ⟨writeAt d.file.bytes
        (3 + (d.fileMap.insert name { d.fileMap.value name with
            end_ := (d.fileMap.value name).start + sz }).count * 80 - 8).toNat
        (encodeI64 ((d.fileMap.insert name { d.fileMap.value name with
            end_ := (d.fileMap.value name).start + sz }).value name).end_), 0, 0⟩,
      fileMap := d.fileMap.insert name { d.fileMap.value name with
            end_ := (d.fileMap.value name).start + sz } }) := by
  unfold setSize
  rw [hw]
  simp only [Bool.not_true, Bool.false_eq_true, if_false]
  rw [if_neg (by omega), open_closed_rw _ hc]
  simp only []
  have key : ∀ fm : QHash, 1 ≤ fm.length → 0 ≤ 3 + fm.count * 80 - 8 := by
    intro fm h; simp only [QHash.count]; omega
  rw [seek_rw _ _ _ (key _ (QHash.length_insert_pos _ _ _))]
  simp only [putI64_rw, QFile.close]

/-! ### Opening an entry for writing -/

theorem isWritable_new (d : DVirtualImageFileIOPrivate) (name : QString)
    (h : name ∉ d.fileMap.map Prod.fst) : isWritable d name = true := by
  simp [isWritable, existes_eq_false d name h]

theorem isWritable_last (d : DVirtualImageFileIOPrivate) (name : QString) (init : QHash)
    (info : FileInfo) (hm : d.fileMap = init ++ [(name, info)])
    (hni : name ∉ init.map Prod.fst) :
    isWritable d name = decide (info.index = init.length) := by
  have he : existes d name = true := by
    rw [existes_iff, hm]; simp
  simp only [isWritable, he, Bool.not_true, Bool.false_eq_true, if_false, hm,
    value_append_last init name info hni, QHash.count, List.length_append, List.length_singleton]
  by_cases hi : info.index = init.length
  · simp [hi]
  · simp only [hi, decide_False, beq_eq_false_iff_ne, ne_eq]
    push_cast
    omega

theorem open_new (d : DVirtualImageFileIOPrivate) (name : QString)
    (hv : d.isValid = true) (hc : d.file.openMode = 0) (hn : name.length ≤ 63)
    (hnew : name ∉ d.fileMap.map Prod.fst) (hs : 0 ≤ metaDataSize + fileDataSize d) :
    open_ d name WriteOnly = (true, { d with
      file := ⟨addFileBytes d name, 3, (metaDataSize + fileDataSize d).toNat⟩,
      fileMap := d.fileMap ++ [(name, newInfo d name)],
      openedFile := name }) := by
  have hopen : d.file.isOpen = false := by simp [QFile.isOpen, hc]
  have hex := existes_eq_false d name hnew
  have hw := isWritable_new d name hnew
  unfold open_
  simp only [hopen, isValid, hv, hex, hw, Bool.not_true, Bool.or_self, Bool.false_eq_true, if_false,
    Bool.and_false, Bool.not_false, if_true, testFlag, NotOpen, WriteOnly, Append]
  rw [if_neg (by decide), if_neg (by decide)]
  rw [addFile_spec d name hc hn]
  simp only []
  rw [show (2 ||| ReadOnly) = ReadWrite from rfl, open_closed_rw _ rfl]
  simp only []
  rw [QHash.insert_of_not_mem _ _ _ hnew, value_append_last _ _ _ hnew]
  rw [seek_rw _ _ _ (by simpa [newInfo] using hs)]
  simp [newInfo, hv]

theorem open_last (d : DVirtualImageFileIOPrivate) (name : QString) (init : QHash)
    (info : FileInfo) (hv : d.isValid = true) (hc : d.file.openMode = 0)
    (hm : d.fileMap = init ++ [(name, info)]) (hni : name ∉ init.map Prod.fst)
    (hi : info.index = init.length) (hs : 0 ≤ info.start) :
    open_ d name WriteOnly = (true, { d with
      file := ⟨d.file.bytes, 3, info.start.toNat⟩, openedFile := name }) := by
  have hopen : d.file.isOpen = false := by simp [QFile.isOpen, hc]
  have hex : existes d name = true := by rw [existes_iff, hm]; simp
  have hw : isWritable d name = true := by rw [isWritable_last d name init info hm hni]; simp [hi]
  unfold open_
  simp only [hopen, isValid, hv, hex, hw, Bool.not_true, Bool.or_self, Bool.false_eq_true, if_false,
    Bool.and_false, Bool.not_false, if_true, testFlag, NotOpen, WriteOnly, Append]
  rw [show (2 ||| ReadOnly) = ReadWrite from rfl, open_closed_rw _ hc]
  simp only []
  rw [hm, value_append_last _ _ _ hni, seek_rw _ _ _ hs, if_neg (by decide)]

theorem open_not_writable (d : DVirtualImageFileIOPrivate) (name : QString) (mode : Nat)
    (hmode : mode &&& (WriteOnly ||| Append) ≠ 0) (hw : isWritable d name = false) :
    open_ d name mode = (false, d) := by
  unfold open_
  by_cases h1 : (d.file.isOpen || !isValid d) = true
  · rw [if_pos h1]
  · rw [if_neg h1]
    by_cases h2 : testFlag mode NotOpen = true
    · rw [if_pos h2]
    · rw [if_neg h2, if_pos (by simp [hmode, hw])]

/-! ### Preservation of the table invariant -/

theorem tableInv_file (d : DVirtualImageFileIOPrivate) (h : TableInv d) (f : QFile)
    (o : QString) (hl : d.file.bytes.length ≤ f.bytes.length) :
    TableInv { d with file := f, openedFile := o } where
  valid := h.valid
  size_ge := le_trans h.size_ge hl
  nodup := h.nodup
  chain := h.chain
  last_le := le_trans h.last_le (by exact_mod_cast hl)
  index := h.index
  name := h.name

theorem tableInv_append (d : DVirtualImageFileIOPrivate) (h : TableInv d) (f : QFile)
    (o name : QString) (hl : d.file.bytes.length ≤ f.bytes.length)
    (hnew : name ∉ d.fileMap.map Prod.fst) :
    TableInv { d with file := f, fileMap := d.fileMap ++ [(name, newInfo d name)],
                      openedFile := o } where
  valid := h.valid
  size_ge := le_trans h.size_ge hl
  nodup := by
    simp only [List.map_append, List.map_cons, List.map_nil]
    exact List.Nodup.append h.nodup (List.nodup_singleton _) (by simpa using hnew)
  chain := by
    simp only [List.map_append, List.map_cons, List.map_nil]
    rw [chain_append]
    exact ⟨h.chain, by simp only [newInfo]; exact fileDataSize_eq d h.chain, le_refl _⟩
  last_le := by
    simp only [List.map_append, List.map_cons, List.map_nil]
    rw [lastEnd_append]
    simp only [newInfo]
    rw [fileDataSize_eq d h.chain]
    exact le_trans h.last_le (by exact_mod_cast hl)
  index := by
    intro i p hp
    simp only [List.get?_eq_getElem?] at hp
    by_cases hi : i < d.fileMap.length
    · rw [List.getElem?_append_left hi] at hp
      exact h.index i p (by simpa [List.get?_eq_getElem?] using hp)
    · rw [List.getElem?_append_right (by omega)] at hp
      have h0 : i - d.fileMap.length = 0 := by
        by_contra hne
        rw [List.getElem?_eq_none (by simp; omega)] at hp
        exact Option.noConfusion hp
      rw [h0] at hp
      simp only [List.getElem?_cons_zero, Option.some.injEq] at hp
      subst hp
      simp only [newInfo]
      congr 1; omega
  name := by
    intro p hp
    rcases List.mem_append.1 hp with hp | hp
    · exact h.name p hp
    · simp only [List.mem_singleton] at hp
      subst hp
      rfl

theorem tableInv_setLast (d : DVirtualImageFileIOPrivate) (h : TableInv d) (f : QFile)
    (o name : QString) (init : QHash) (info : FileInfo) (e : Int)
    (hm : d.fileMap = init ++ [(name, info)])
    (hl : d.file.bytes.length ≤ f.bytes.length)
    (he : info.start ≤ e) (hef : e ≤ f.bytes.length) :
    TableInv { d with file := f, fileMap := init ++ [(name, { info with end_ := e })],
                      openedFile := o } := by
  have hch := h.chain
  have hnd := h.nodup
  have hidx := h.index
  have hnm := h.name
  rw [hm] at hch hnd hidx hnm
  simp only [List.map_append, List.map_cons, List.map_nil] at hch hnd
  rw [chain_append] at hch
  refine ⟨h.valid, le_trans h.size_ge hl, ?_, ?_, ?_, ?_, ?_⟩
  · simpa only [List.map_append, List.map_cons, List.map_nil] using hnd
  · simp only [List.map_append, List.map_cons, List.map_nil]
    rw [chain_append]
    exact ⟨hch.1, hch.2.1, he⟩
  · simp only [List.map_append, List.map_cons, List.map_nil]
    rw [lastEnd_append]
    exact hef
  · intro i p hp
    simp only [List.get?_eq_getElem?] at hp hidx
    by_cases hi : i < init.length
    · rw [List.getElem?_append_left hi] at hp
      exact hidx i p (by rw [List.getElem?_append_left hi]; exact hp)
    · rw [List.getElem?_append_right (by omega)] at hp
      have h0 : i - init.length = 0 := by
        by_contra hne
        rw [List.getElem?_eq_none (by simp; omega)] at hp
        exact Option.noConfusion hp
      rw [h0] at hp
      simp only [List.getElem?_cons_zero, Option.some.injEq] at hp
      subst hp
      have := hidx i (name, info) (by rw [List.getElem?_append_right (by omega), h0]; rfl)
      exact this
  · intro p hp
    rcases List.mem_append.1 hp with hp | hp
    · exact hnm p (List.mem_append_left _ hp)
    · simp only [List.mem_singleton] at hp
      subst hp
      exact hnm (name, info) (List.mem_append_right _ (List.mem_singleton_self _))

theorem not_mem_init_of_nodup (init : QHash) (name : QString) (info : FileInfo)
    (h : ((init ++ [(name, info)]).map Prod.fst).Nodup) : name ∉ init.map Prod.fst := by
  simp only [List.map_append, List.map_cons, List.map_nil] at h
  intro hmem
  exact (List.nodup_append.1 h).2.2 hmem (List.mem_singleton_self _)

/-! ### Write sessions -/

theorem write_session (d : DVirtualImageFileIOPrivate) (name : QString) (data : QByteArray)
    (h : SessInv d name) :
    (write d data).1 = data.length ∧ SessInv (write d data).2 name ∧
      (write d data).2.fileMap.map Prod.fst = d.fileMap.map Prod.fst := by
  obtain ⟨hinv, hmode, hopened, init, info, hm⟩ := h
  obtain ⟨valid, ⟨bs, m, p⟩, ver, fm, opened⟩ := d
  simp only at hmode hopened hm
  subst hmode hopened hm
  have hni := not_mem_init_of_nodup init opened info hinv.nodup
  have hch := hinv.chain
  simp only [List.map_append, List.map_cons, List.map_nil] at hch
  rw [chain_append] at hch
  have hlast := hinv.last_le
  simp only [List.map_append, List.map_cons, List.map_nil] at hlast
  rw [lastEnd_append] at hlast
  simp only [write, write_rw, value_append_last init opened info hni,
    QHash.insert_append_last init opened info _ hni]
  refine ⟨trivial, ⟨?_, rfl, rfl, init, _, rfl⟩, by simp⟩
  apply tableInv_setLast _ hinv _ _ opened init info _ rfl
  · simp only [length_writeAt]; omega
  · omega
  · simp only [length_writeAt]; push_cast; omega

theorem writeAll_session (chunks : List QByteArray) :
    ∀ (d : DVirtualImageFileIOPrivate) (name : QString), SessInv d name →
      SessInv (writeAll d chunks) name ∧
        (writeAll d chunks).fileMap.map Prod.fst = d.fileMap.map Prod.fst := by
  induction chunks with
  | nil => intro d name h; exact ⟨h, rfl⟩
  | cons c cs ih =>
    intro d name h
    obtain ⟨_, h2, h3⟩ := write_session d name c h
    obtain ⟨h4, h5⟩ := ih _ name h2
    exact ⟨h4, h5.trans h3⟩

theorem mem_foldl_set (l : QHash) : ∀ (init : List FileInfo) (x : FileInfo),
    x ∈ l.foldl (fun acc p => acc.set p.2.index p.2) init → x ∈ init ∨ x ∈ l.map Prod.snd := by
  induction l with
  | nil => intro init x h; exact Or.inl h
  | cons y ys ih =>
    intro init x h
    simp only [List.foldl_cons] at h
    rcases ih _ x h with h1 | h1
    · rcases List.mem_or_eq_of_mem_set h1 with h2 | h2
      · exact Or.inl h2
      · exact Or.inr (by simp [h2])
    · exact Or.inr (by simp only [List.map_cons, List.mem_cons]; exact Or.inr h1)

theorem fileInfoList_ok (d : DVirtualImageFileIOPrivate) (h : TableInv d) :
    ∀ x ∈ fileInfoList d, ((0 : Nat) : Int) ≤ x.start ∧ x.end_ ≤ d.file.bytes.length := by
  intro x hx
  rcases mem_foldl_set _ _ x hx with h1 | h1
  · rw [List.mem_replicate] at h1
    rw [h1.2]
    exact ⟨le_refl _, by simp [default]⟩
  · have := chain_mem _ _ h.chain x h1
    have h2 := h.last_le
    constructor
    · push_cast; omega
    · omega

theorem setSize_session (d : DVirtualImageFileIOPrivate) (name : QString) (init : QHash)
    (info : FileInfo) (hc : d.file.openMode = 0) (hp : d.file.pos = 0)
    (hm : d.fileMap = init ++ [(name, info)])
    (hni : name ∉ init.map Prod.fst) (hle : info.start ≤ info.end_) :
    ∃ bs1 b, setSize d name (info.end_ - info.start) = (b, { d with file := ⟨bs1, 0, 0⟩ }) ∧
      d.file.bytes.length ≤ bs1.length ∧
      (info.index = init.length → b = true ∧ bs1 = writeAt d.file.bytes
        (3 + (d.fileMap.length : Int) * 80 - 8).toNat (encodeI64 info.end_)) := by
  have hins : d.fileMap.insert name { d.fileMap.value name with
      end_ := (d.fileMap.value name).start + (info.end_ - info.start) } = d.fileMap := by
    rw [hm, value_append_last init name info hni, QHash.insert_append_last init name info _ hni]
    have : info.start + (info.end_ - info.start) = info.end_ := by omega
    rw [this]
  by_cases hw : isWritable d name = true
  · have hspec := setSize_spec d name (info.end_ - info.start) hw (by omega) hc
    rw [hins] at hspec
    refine ⟨_, true, hspec, ?_, ?_⟩
    · simp only [length_writeAt]; omega
    · intro _
      refine ⟨rfl, ?_⟩
      rw [hm, value_append_last init name info hni]
      rfl
  · have hw2 : isWritable d name = false := by simpa using hw
    refine ⟨d.file.bytes, false, ?_, le_refl _, ?_⟩
    · unfold setSize
      rw [hw2]
      obtain ⟨valid, ⟨bs, m, p⟩, ver, fm, opened⟩ := d
      simp only at hc hp
      subst hc hp
      simp
    · intro hi
      rw [isWritable_last d name init info hm hni] at hw2
      simp [hi] at hw2

theorem close_session (md5 : QByteArray → QByteArray) (d : DVirtualImageFileIOPrivate)
    (name : QString) (h : SessInv d name) :
    ∃ bs1 acc q,
      close md5 d = some (true, { d with
        file := ⟨writeAt bs1 (validMetaDataSize d).toNat (md5 acc), 0, 0⟩ }) ∧
      d.file.bytes.length ≤ bs1.length ∧
      md5sum md5 { d with file := ⟨bs1, 3, 0⟩ } =
        some (md5 acc, { d with file := ⟨bs1, 3, q⟩ }) ∧
      (name ≠ [] → (∀ init info, d.fileMap = init ++ [(name, info)] → info.index = init.length) →
        ∀ init info, d.fileMap = init ++ [(name, info)] → bs1 = writeAt d.file.bytes
          (3 + (d.fileMap.length : Int) * 80 - 8).toNat (encodeI64 info.end_)) := by
  obtain ⟨hinv, hmode, hopened, init, info, hm⟩ := h
  obtain ⟨valid, ⟨bs, m, p⟩, ver, fm, opened⟩ := d
  simp only at hmode hopened hm
  subst hmode hopened hm
  have hni := not_mem_init_of_nodup init opened info hinv.nodup
  have hch := hinv.chain
  simp only [List.map_append, List.map_cons, List.map_nil] at hch
  rw [chain_append] at hch
  have hv0 := validMetaDataSize_nonneg
    ⟨valid, ⟨bs, 3, p⟩, ver, init ++ [(opened, info)], opened⟩
  simp only [validMetaDataSize] at hv0
  have hro : (3 : Nat) &&& ReadOnly ≠ 0 := by decide
  by_cases hne : opened = []
  · subst hne
    have hl := fileInfoList_ok _ hinv
    obtain ⟨acc, q, h1, h2⟩ := md5sum_spec md5 0
      ⟨valid, ⟨bs, 3, p⟩, ver, init ++ [([], info)], []⟩
      ⟨valid, ⟨bs, 3, 0⟩, ver, init ++ [([], info)], []⟩ bs bs 3 3 p 0 rfl rfl rfl hro hro rfl rfl hl
    refine ⟨bs, acc, q, ?_, le_refl _, h2, fun hcontra => absurd rfl hcontra⟩
    simp only [close, QFile.isOpen, testFlag, WriteOnly, List.isEmpty]
    simp only [show ((3 : Nat) != 0) = true from rfl, Bool.not_true, Bool.false_eq_true, if_false,
      show ((3 &&& 2 == 2 && (2 != 0 || 3 == 2)) = true) from rfl, if_true]
    rw [h1]
    simp only [validMetaDataSize]
    rw [seek_rw _ _ _ hv0]
    simp only [write_rw, QFile.close]
  · obtain ⟨bs1, b, hs1, hs2, hs3⟩ := setSize_session
      ⟨valid, ⟨bs, 0, 0⟩, ver, init ++ [(opened, info)], opened⟩ opened init info rfl rfl rfl hni
      hch.2.2
    have hl := fileInfoList_ok _ (tableInv_file _ hinv ⟨bs1, 3, 0⟩ opened hs2)
    obtain ⟨acc, q, h1, -⟩ := md5sum_spec md5 0
      ⟨valid, ⟨bs1, 3, 0⟩, ver, init ++ [(opened, info)], opened⟩
      ⟨valid, ⟨bs1, 3, 0⟩, ver, init ++ [(opened, info)], opened⟩ bs1 bs1 3 3 0 0 rfl rfl rfl hro hro
      rfl rfl hl
    refine ⟨bs1, acc, q, ?_, hs2, h1, ?_⟩
    · have hemp : opened.isEmpty = false := by
        cases opened with
        | nil => exact absurd rfl hne
        | cons _ _ => rfl
      simp only [close, QFile.isOpen, testFlag, WriteOnly, hemp, QFile.close,
        value_append_last init opened info hni]
      simp only [show ((3 : Nat) != 0) = true from rfl, Bool.not_true, Bool.false_eq_true, if_false,
        show ((3 &&& 2 == 2 && (2 != 0 || 3 == 2)) = true) from rfl, if_true, Bool.not_false]
      rw [hs1]
      simp only [show ((0 : Nat) != 0) = false from rfl, Bool.not_false, if_true]
      rw [open_closed_rw _ rfl]
      simp only [Bool.not_true, Bool.false_eq_true, if_false]
      rw [h1]
      simp only [validMetaDataSize]
      rw [seek_rw _ _ _ hv0]
      simp only [write_rw, QFile.close]
    · intro _ hidx init2 info2 hm2
      have hi := hidx init info rfl
      obtain ⟨-, hb⟩ := hs3 hi
      have hm3 := List.append_inj_left' hm2 rfl
      have hm4 := List.append_inj_right' hm2 rfl
      simp only [List.cons.injEq, Prod.mk.injEq, and_true, true_and] at hm4
      subst hm3 hm4
      exact hb

theorem foldl_set_index (suffix : QHash) : ∀ (pre : List FileInfo),
    (∀ (j : Nat) (p : QString × FileInfo), suffix[j]? = some p → p.2.index = pre.length + j) →
    suffix.foldl (fun acc p => acc.set p.2.index p.2) (pre ++ List.replicate suffix.length default)
      = pre ++ suffix.map Prod.snd := by
  induction suffix with
  | nil => intro pre _; simp
  | cons x xs ih =>
    intro pre h
    have hx : x.2.index = pre.length := by simpa using h 0 x (by simp)
    simp only [List.foldl_cons, List.length_cons, List.replicate_succ, List.map_cons, hx]
    rw [List.set_append_right _ _ (le_refl _), Nat.sub_self, List.set_cons_zero]
    have := ih (pre ++ [x.2]) (by
      intro j p hp
      have := h (j + 1) p (by simpa using hp)
      simp only [List.length_append, List.length_singleton]
      omega)
    simpa using this

theorem fileInfoList_eq (d : DVirtualImageFileIOPrivate) (h : TableInv d)
    (hn : d.fileMap.length ≤ 256) : fileInfoList d = d.fileMap.map Prod.snd := by
  have := foldl_set_index d.fileMap [] (by
    intro j p hp
    have hj : j < d.fileMap.length := by
      by_contra hc
      rw [List.getElem?_eq_none (by omega)] at hp
      exact Option.noConfusion hp
    have := h.index j p (by simpa [List.get?_eq_getElem?] using hp)
    simp only [List.length_nil, Nat.zero_add]
    rw [this]
    exact Nat.mod_eq_of_lt (by omega))
  simpa [fileInfoList] using this

theorem QHash.find_of_getElem (m : QHash) (hnd : (m.map Prod.fst).Nodup) :
    ∀ (i : Nat) (k : QString) (v : FileInfo), m[i]? = some (k, v) → QHash.find m k = some v := by
  induction m with
  | nil => intro i k v h; simp at h
  | cons x xs ih =>
    intro i k v h
    obtain ⟨k0, v0⟩ := x
    simp only [List.map_cons, List.nodup_cons] at hnd
    cases i with
    | zero =>
      simp only [List.getElem?_cons_zero, Option.some.injEq, Prod.mk.injEq] at h
      simp [QHash.find, h.1, h.2]
    | succ j =>
      simp only [List.getElem?_cons_succ] at h
      have hk : k ∈ xs.map Prod.fst := by
        have := List.getElem?_mem h
        exact List.mem_map.2 ⟨(k, v), this, rfl⟩
      have hne : k0 ≠ k := by
        rintro rfl
        exact hnd.1 hk
      simp [QHash.find, hne, ih hnd.2 j k v h]

theorem eq_append_last (m : QHash) (x : QString × FileInfo) (i : Nat)
    (h : m[i]? = some x) (hi : i + 1 = m.length) : m = List.take i m ++ [x] := by
  have hlt : i < m.length := by omega
  have h1 : List.drop i m = [x] := by
    rw [List.drop_eq_getElem_cons hlt, List.drop_of_length_le (by omega)]
    rw [List.getElem?_eq_getElem hlt] at h
    simp only [Option.some.injEq] at h
    rw [h]
  conv_lhs => rw [← List.take_append_drop i m, h1]

theorem writable_is_last (d : DVirtualImageFileIOPrivate) (h : TableInv d) (name : QString)
    (hmem : name ∈ d.fileMap.map Prod.fst) (hw : isWritable d name = true) :
    ∃ init info, d.fileMap = init ++ [(name, info)] ∧ info.index = init.length := by
  obtain ⟨p, hp, hpn⟩ := List.mem_map.1 hmem
  obtain ⟨i, hi, hget⟩ := List.getElem_of_mem hp
  obtain ⟨k, v⟩ := p
  simp only at hpn
  subst hpn
  have hget2 : d.fileMap[i]? = some (k, v) := by rw [List.getElem?_eq_getElem hi, hget]
  have hfind := QHash.find_of_getElem d.fileMap h.nodup i k v hget2
  have hidx := h.index i (k, v) (by simpa [List.get?_eq_getElem?] using hget2)
  simp only at hidx
  have hex : existes d k = true := (existes_iff d k).2 hmem
  simp only [isWritable, hex, Bool.not_true, Bool.false_eq_true, if_false, QHash.value, hfind,
    Option.getD_some, QHash.count, beq_iff_eq] at hw
  have hmod : i % 256 ≤ i := Nat.mod_le _ _
  have hi1 : i + 1 = d.fileMap.length := by omega
  refine ⟨List.take i d.fileMap, v, eq_append_last d.fileMap (k, v) i hget2 hi1, ?_⟩
  simp only [List.length_take]
  omega

theorem lastEnd_ge (d : DVirtualImageFileIOPrivate) (h : TableInv d) :
    24576 ≤ lastEnd 24576 (d.fileMap.map Prod.snd) := chain_le_lastEnd _ _ h.chain

theorem addKey_new (ks : List QString) (n : QString) (h : n ∉ ks) : addKey ks n = ks ++ [n] := by
  simp [addKey, h]

theorem addKey_mem (ks : List QString) (n : QString) (h : n ∈ ks) : addKey ks n = ks := by
  simp [addKey, h]

theorem open_writable (d : DVirtualImageFileIOPrivate) (h : TableInv d)
    (hc : d.file.openMode = 0) (name : QString) (hn : name.length ≤ 63)
    (hw : isWritable d name = true) :
    ∃ d1, open_ d name WriteOnly = (true, d1) ∧ SessInv d1 name ∧
      d1.fileMap.map Prod.fst = addKey (d.fileMap.map Prod.fst) name ∧
      d.file.bytes.length ≤ d1.file.bytes.length := by
  by_cases hmem : name ∈ d.fileMap.map Prod.fst
  · obtain ⟨init, info, hm, hi⟩ := writable_is_last d h name hmem hw
    have hnd := h.nodup
    rw [hm] at hnd
    have hni := not_mem_init_of_nodup init name info hnd
    have hst : 0 ≤ info.start := by
      have := chain_mem _ _ h.chain info (by rw [hm]; simp)
      omega
    refine ⟨_, open_last d name init info h.valid hc hm hni hi hst, ?_, ?_, le_refl _⟩
    · exact ⟨tableInv_file d h _ name (le_refl _), rfl, rfl, init, info, hm⟩
    · rw [addKey_mem _ _ hmem]
  · have hs : 0 ≤ metaDataSize + fileDataSize d := by
      rw [fileDataSize_eq d h.chain]
      have := lastEnd_ge d h
      omega
    refine ⟨_, open_new d name h.valid hc hn hmem hs, ?_, ?_, length_addFileBytes_ge d name⟩
    · exact ⟨tableInv_append d h _ name name (length_addFileBytes_ge d name) hmem, rfl, rfl,
        d.fileMap, newInfo d name, rfl⟩
    · rw [addKey_new _ _ hmem]
      simp

theorem writeSession_spec (md5 : QByteArray → QByteArray) (d : DVirtualImageFileIOPrivate)
    (h : TableInv d) (hc : d.file.openMode = 0) (name : QString) (hn : name.length ≤ 63)
    (chunks : List QByteArray) :
    ∃ b d1, writeSession md5 d name chunks = some (b, d1) ∧ TableInv d1 ∧
      d1.file.openMode = 0 ∧
      d1.fileMap.map Prod.fst = addKey (d.fileMap.map Prod.fst) name := by
  by_cases hw : isWritable d name = true
  · obtain ⟨d1, ho, hs, hk, -⟩ := open_writable d h hc name hn hw
    obtain ⟨hs2, hk2⟩ := writeAll_session chunks d1 name hs
    obtain ⟨bs1, acc, q, hcl, hlen, -, -⟩ := close_session md5 _ name hs2
    refine ⟨true, { writeAll d1 chunks with
      file := ⟨writeAt bs1 (validMetaDataSize (writeAll d1 chunks)).toNat (md5 acc), 0, 0⟩ },
      ?_, ?_, rfl, ?_⟩
    · simp only [writeSession, ho]
      exact hcl
    · exact tableInv_file _ hs2.inv _ _ (by simp only [length_writeAt]; omega)
    · exact hk2.trans hk
  · have hw2 : isWritable d name = false := by simpa using hw
    have hmem : name ∈ d.fileMap.map Prod.fst := by
      by_contra hcon
      rw [isWritable_new d name hcon] at hw2
      exact Bool.noConfusion hw2
    refine ⟨false, d, ?_, h, hc, (addKey_mem _ _ hmem).symm⟩
    simp only [writeSession, open_not_writable d name WriteOnly (by decide) hw2]

/-! ### Scripts -/

theorem step_spec (md5 : QByteArray → QByteArray) (d : DVirtualImageFileIOPrivate)
    (h : TableInv d) (hc : d.file.openMode = 0) (op : Op) (hn : op.name.length ≤ 63)
    (hadd : ∀ n, op = Op.addFile n → n ∉ d.fileMap.map Prod.fst) :
    ∃ d1, step md5 d op = some d1 ∧ TableInv d1 ∧ d1.file.openMode = 0 ∧
      d1.fileMap.map Prod.fst = addKey (d.fileMap.map Prod.fst) op.name := by
  cases op with
  | addFile name =>
    have hnew := hadd name rfl
    simp only [Op.name] at hn
    refine ⟨{ d with file := ⟨addFileBytes d name, 0, 0⟩,
                     fileMap := d.fileMap ++ [(name, newInfo d name)] }, ?_, ?_, rfl, ?_⟩
    · simp only [step, addFile_spec d name hc hn, QHash.insert_of_not_mem _ _ _ hnew]
    · exact tableInv_append d h _ d.openedFile name (length_addFileBytes_ge d name) hnew
    · simp only [Op.name, addKey_new _ _ hnew]
      simp
  | session name chunks =>
    simp only [Op.name] at hn
    obtain ⟨b, d1, h1, h2, h3, h4⟩ := writeSession_spec md5 d h hc name hn chunks
    exact ⟨d1, by simp only [step, h1, Option.map_some'], h2, h3, h4⟩

theorem run_spec (md5 : QByteArray → QByteArray) (ops : List Op) :
    ∀ (d : DVirtualImageFileIOPrivate), TableInv d → d.file.openMode = 0 →
      OpsOK (d.fileMap.map Prod.fst) ops →
      ∃ d1, run md5 ops d = some d1 ∧ TableInv d1 ∧ d1.file.openMode = 0 ∧
        d1.fileMap.map Prod.fst = keysAfter (d.fileMap.map Prod.fst) (ops.map Op.name) := by
  induction ops with
  | nil => intro d h hc _; exact ⟨d, rfl, h, hc, rfl⟩
  | cons op ops ih =>
    intro d h hc hok
    obtain ⟨hn, hadd, hrest⟩ := hok
    obtain ⟨d1, h1, h2, h3, h4⟩ := step_spec md5 d h hc op hn hadd
    rw [← h4] at hrest
    obtain ⟨d2, h5, h6, h7, h8⟩ := ih d1 h2 h3 hrest
    refine ⟨d2, by simp only [run, h1, Option.some_bind, h5], h6, h7, ?_⟩
    rw [h8, h4]
    rfl

theorem length_freshStore : freshStore.length = 24576 := by
  simp only [freshStore, initMd5, List.length_append, List.length_replicate, List.length_cons,
    List.length_nil]

theorem tableInv_fresh : TableInv freshEngine where
  valid := rfl
  size_ge := by simp [freshEngine, length_freshStore]
  nodup := by simp [freshEngine]
  chain := by simp [freshEngine, Chain]
  last_le := by simp [freshEngine, lastEnd, length_freshStore]
  index := by intro i p hp; simp [freshEngine] at hp
  name := by intro p hp; simp [freshEngine] at hp

theorem setFile_fresh (md5 : QByteArray → QByteArray) (fileName : String)
    (hfn : endsWith fileName ".dim" = true) :
    setFile md5 newEngine fileName [] = some (true, freshEngine) := by
  have hopen : QFile.open_ ⟨[], 0, 0⟩ WriteOnly = (true, ⟨[], 2, 0⟩) := rfl
  have hw : ∀ (bs : QByteArray) (p : Nat) (data : QByteArray),
      QFile.write ⟨bs, 2, p⟩ data = ((data.length : Int), ⟨writeAt bs p data, 2, p + data.length⟩) := by
    intro bs p data
    simp [QFile.write, QFile.writable, WriteOnly, Append, show (2 : Nat) &&& 2 = 2 from rfl,
      show (2 : Nat) &&& 4 = 0 from rfl]
  have hstore : writeAt (writeAt (writeAt (writeAt (List.replicate 24576 0) 0 [221]) 1 [1]) 2 [0]) 3
      initMd5 = freshStore := by
    have e1 := writeAt_writeAt_adj (List.replicate 24576 0) 0 [221] [1]
    have e2 := writeAt_writeAt_adj (List.replicate 24576 0) 0 [221, 1] [0]
    have e3 := writeAt_writeAt_adj (List.replicate 24576 0) 0 [221, 1, 0] initMd5
    simp only [List.length_cons, List.length_nil, Nat.zero_add, List.cons_append, List.nil_append,
      Nat.reduceAdd] at e1 e2 e3
    rw [e1, e2, e3]
    simp only [writeAt, freshStore, initMd5, List.take_zero, List.length_replicate, List.replicate_zero,
      List.drop_replicate, List.length_cons, List.length_nil, List.nil_append, List.append_nil,
      Nat.zero_sub, Nat.zero_add, Nat.reduceAdd, Nat.reduceSub, List.cons_append]
  simp only [setFile, newEngine, QFile.isOpen, hfn, QFile.size, hopen, QFile.resize, metaDataSize,
    QFile.putChar, hw, QFile.close, freshEngine]
  simp only [show ((0 : Nat) != 0) = false from rfl, Bool.not_true, Bool.false_eq_true, if_false,
    List.length_nil, Int.ofNat_zero, gt_iff_lt, lt_self_iff_false, Nat.cast_zero]
  norm_num
  simp only [hw, show Int.toNat 24576 = 24576 from rfl, List.length_cons, List.length_nil,
    Nat.zero_add, Nat.reduceAdd]
  exact hstore


theorem keysAfter_cons (ks : List QString) (n : QString) (ns : List QString) :
    keysAfter ks (n :: ns) = keysAfter (addKey ks n) ns := rfl

theorem fillOps_ok (items : List (QString × Option (List QByteArray))) :
    ∀ (ks : List QString), (∀ it ∈ items, it.1.length ≤ 63) → (items.map Prod.fst).Nodup →
      (∀ it ∈ items, it.1 ∉ ks) →
      OpsOK ks (fillOps items) ∧
        keysAfter ks ((fillOps items).map Op.name) = ks ++ items.map Prod.fst := by
  induction items with
  | nil => intro ks _ _ _; simp [fillOps, OpsOK, keysAfter]
  | cons it rest ih =>
    intro ks hlen hnd hnew
    obtain ⟨n, fill⟩ := it
    simp only [List.map_cons, List.nodup_cons] at hnd
    have hn : n ∉ ks := hnew (n, fill) (List.mem_cons_self _ _)
    have hl : n.length ≤ 63 := hlen (n, fill) (List.mem_cons_self _ _)
    have hrest := ih (ks ++ [n]) (fun it h => hlen it (List.mem_cons_of_mem _ h)) hnd.2 (by
      intro it h hmem
      rcases List.mem_append.1 hmem with h1 | h1
      · exact hnew it (List.mem_cons_of_mem _ h) h1
      · simp only [List.mem_singleton] at h1
        exact hnd.1 (List.mem_map.2 ⟨it, h, h1⟩))
    have hk1 : addKey ks n = ks ++ [n] := addKey_new ks n hn
    have hk2 : addKey (ks ++ [n]) n = ks ++ [n] := addKey_mem _ _ (by simp)
    cases fill with
    | none =>
      simp only [fillOps, OpsOK, Op.name, List.map_cons, keysAfter_cons, hk1]
      refine ⟨⟨hl, ?_, hrest.1⟩, by rw [hrest.2]; simp⟩
      intro m hm
      cases hm
      exact hn
    | some cs =>
      simp only [fillOps, OpsOK, Op.name, List.map_cons, keysAfter_cons, hk1, hk2]
      refine ⟨⟨hl, ?_, hl, ?_, hrest.1⟩, by rw [hrest.2]; simp⟩
      · intro m hm
        cases hm
        exact hn
      · intro m hm
        cases hm

theorem chain_getElem (l : List FileInfo) : ∀ (a : Int), Chain a l →
    (∀ x, l[0]? = some x → x.start = a) ∧
    (∀ (i : Nat) x y, l[i]? = some x → l[i + 1]? = some y → y.start = x.end_) := by
  induction l with
  | nil => intro a _; simp
  | cons z zs ih =>
    intro a h
    obtain ⟨h1, h2, h3⟩ := h
    have := ih _ h3
    refine ⟨by intro x hx; simp at hx; rw [← hx]; exact h1, ?_⟩
    intro i x y hx hy
    cases i with
    | zero =>
      simp only [List.getElem?_cons_zero, Option.some.injEq] at hx
      simp only [Nat.zero_add, List.getElem?_cons_succ] at hy
      rw [← hx]
      exact this.1 y hy
    | succ j =>
      simp only [List.getElem?_cons_succ] at hx hy
      exact this.2 j x y hx hy

theorem readAt_writeAt_same_len (l : QByteArray) (p : Nat) (d : QByteArray) (q n : Nat)
    (hq : q = p) (h : n = d.length) : readAt (writeAt l p d) q n = d := by
  subst h hq; exact readAt_writeAt_same l q d

theorem oneEntryStore_reads (F0 name B dg : QByteArray) (hF : F0.length = 24576)
    (hn : name.length ≤ 63) (hdg : dg.length = 16) :
    (oneEntryStore F0 name B dg).length = 24576 + B.length ∧
    readAt (oneEntryStore F0 name B dg) 0 1 = readAt F0 0 1 ∧
    readAt (oneEntryStore F0 name B dg) 1 1 = readAt F0 1 1 ∧
    readAt (oneEntryStore F0 name B dg) 2 1 = [1] ∧
    readAt (oneEntryStore F0 name B dg) 3 1 = [221] ∧
    readAt (oneEntryStore F0 name B dg) 4 63 = name ++ List.replicate (63 - name.length) 0 ∧
    readAt (oneEntryStore F0 name B dg) 67 8 = encodeI64 24576 ∧
    readAt (oneEntryStore F0 name B dg) 75 8 = encodeI64 (24576 + (B.length : Int)) ∧
    readAt (oneEntryStore F0 name B dg) 83 16 = dg ∧
    readAt (oneEntryStore F0 name B dg) 24576 B.length = B := by
  have h63 : readAt (oneEntryStore F0 name B dg) 4 63 =
      readAt (oneEntryStore F0 name B dg) (3 + 1) (name.length + (63 - name.length)) := by
    congr 1; omega
  rw [h63, readAt_add]
  unfold oneEntryStore
  refine ⟨?_, ?_, ?_, ?_, ?_, ?_, ?_, ?_, ?_, ?_⟩
  all_goals
    simp (disch := first | omega | rfl | exact (length_encodeI64 _).symm |
      exact (List.length_replicate _ _).symm | (simp only [length_writeAt, length_encodeI64,
      List.length_replicate, List.length_cons, List.length_nil, hF, hdg]; omega)) only [readAt_writeAt_before,
      readAt_writeAt_after, readAt_writeAt_same_len, length_writeAt, length_encodeI64,
      List.length_replicate, List.length_cons, List.length_nil, hF, hdg]
  · omega
  · exact readAt_writeAt_same _ 2 [1]
  · exact readAt_writeAt_same _ 3 [221]

theorem beValue_append (l : QByteArray) (b : Nat) : beValue (l ++ [b]) = beValue l * 256 + b := by
  simp [beValue, List.foldl_append]

theorem beValue_beBytes (n : Nat) : ∀ u : Nat, beValue (beBytes n u) = u % 256 ^ n := by
  induction n with
  | zero => intro u; simp [beBytes, beValue, Nat.mod_one]
  | succ n ih =>
    intro u
    rw [beBytes, beValue_append, ih, pow_succ, Nat.mul_comm (256 ^ n) 256, Nat.mod_mul]
    omega

theorem decodeI64_encodeI64 (v : Int) (h1 : -2 ^ 63 ≤ v) (h2 : v < 2 ^ 63) :
    decodeI64 (encodeI64 v) = v := by
  simp only [decodeI64, encodeI64, beValue_beBytes]
  norm_num at h1 h2 ⊢
  split_ifs with h <;> omega

theorem fromUtf8_padded (name : QByteArray) (k : Nat) (h0 : 0 ∉ name) :
    fromUtf8 (name ++ List.replicate k 0) = name := by
  unfold fromUtf8
  induction name with
  | nil =>
    cases k with
    | zero => rfl
    | succ k => simp [List.replicate_succ, List.takeWhile]
  | cons x xs ih =>
    simp only [List.mem_cons, not_or] at h0
    have hx : (x != 0) = true := by simpa using Ne.symm h0.1
    simp only [List.cons_append, List.takeWhile_cons, hx, if_true]
    rw [ih h0.2]

theorem addFileBytes_fresh (name : QByteArray) :
    addFileBytes freshEngine name =
      writeAt (writeAt (writeAt (writeAt (writeAt (writeAt freshStore
        3 [221]) (3 + 1) name) (3 + 1 + name.length) (List.replicate (63 - name.length) 0))
        (3 + 64) (encodeI64 24576)) (3 + 72) (encodeI64 24576)) 2 [1] := by
  have h1 : (validMetaDataSize freshEngine).toNat = 3 := rfl
  have h2 : metaDataSize + fileDataSize freshEngine = 24576 := rfl
  simp only [addFileBytes, h1, h2]
  rfl

theorem read_ro (bs : QByteArray) (p : Nat) (n : Int) (hn : 0 ≤ n) :
    QFile.read ⟨bs, 1, p⟩ n = (readAt bs p n.toNat, ⟨bs, 1, p + (readAt bs p n.toNat).length⟩) :=
  read_eq bs 1 p n (by decide) hn

theorem length_sampleMd5 (x : QByteArray) : (sampleMd5 x).length = 16 := by
  simp [sampleMd5]

theorem twoEntryEngine_fileMap : twoEntryEngine.fileMap =
    [([97], ⟨0, [97], 24576, 24576⟩), ([98], ⟨1, [98], 24576, 24576⟩)] := by
  unfold twoEntryEngine
  rw [addFile_spec freshEngine [97] rfl (by decide)]
  rw [addFile_spec _ [98] rfl (by decide)]
  rfl

theorem byteNames_nodup (n : Nat) : (byteNames n).Nodup := by
  unfold byteNames
  apply List.Nodup.map _ (List.nodup_range n)
  intro a b h
  simpa using h

theorem byteNames_length (n : Nat) : (byteNames n).length = n := by
  simp [byteNames]

theorem fillOps_none_names (names : List QString) :
    (names.map (fun n => ((n, none) : QString × Option (List QByteArray)))).map Prod.fst = names := by
  simp [Function.comp_def]

theorem rename_fileMap (d : DVirtualImageFileIOPrivate) (from_ to_ : QString)
    (h : existes d from_ = true) :
    (rename d from_ to_).2.fileMap = d.fileMap.remove from_ := by
  unfold rename
  simp only [h, Bool.not_true, Bool.false_eq_true, if_false, QHash.take]
  split
  · rfl
  · split <;> rfl

theorem open_fresh (name : QString) (hn : name.length ≤ 63) :
    open_ freshEngine name WriteOnly = (true, { freshEngine with
      file := ⟨addFileBytes freshEngine name, 3, 24576⟩,
      fileMap := [(name, ⟨0, name, 24576, 24576⟩)],
      openedFile := name }) :=
  open_new freshEngine name rfl rfl hn (by simp [freshEngine]) (by decide)

theorem open_fresh_a : open_ freshEngine [97] WriteOnly = (true, openedFresh) :=
  open_fresh [97] (by decide)

/-! ### Decoding a store -/

theorem headD_readAt (bs : QByteArray) (p n : Nat) :
    (readAt bs p (n + 1)).headD 0 = bs.getD p 0 := by
  unfold readAt
  rw [List.getD_eq_getElem?_getD, ← List.head?_drop]
  cases List.drop p bs <;> rfl

theorem readAt_full (bs : QByteArray) (p n : Nat) (h : p + n ≤ bs.length) :
    (readAt bs p n).length = n := by
  rw [length_readAt]; omega

theorem getU8_ro (bs : QByteArray) (p : Nat) (h : p < bs.length) :
    QFile.getU8 ⟨bs, 1, p⟩ = (bs.getD p 0, ⟨bs, 1, p + 1⟩) := by
  unfold QFile.getU8
  rw [read_ro bs p 1 (by decide)]
  simp only [show Int.toNat 1 = 1 from rfl]
  rw [headD_readAt bs p 0, readAt_full bs p 1 (by omega)]

theorem getI64_ro (bs : QByteArray) (p : Nat) (h : p + 8 ≤ bs.length) :
    QFile.getI64 ⟨bs, 1, p⟩ = (decodeI64 (readAt bs p 8), ⟨bs, 1, p + 8⟩) := by
  unfold QFile.getI64
  rw [read_ro bs p 8 (by decide)]
  simp only [show Int.toNat 8 = 8 from rfl]
  rw [readAt_full bs p 8 h]
  simp

/-- The entry record `decodeEntries` reads at offset `p` as entry `i`. -/
theorem decodeEntries_succ (bs : QByteArray) (k i p : Nat) (d : DVirtualImageFileIOPrivate)
    (hf : d.file = ⟨bs, 1, p⟩) (hl : p + 80 ≤ bs.length) :
    decodeEntries (k + 1) i d =
      if bs.getD p 0 != 0xdd then (false, { d with file := ⟨bs, 0, 0⟩ })
      else decodeEntries k (i + 1) { d with
        file := ⟨bs, 1, p + 80⟩,
        fileMap := d.fileMap.insert (fromUtf8 (readAt bs (p + 1) 63))
          ⟨i, fromUtf8 (readAt bs (p + 1) 63), decodeI64 (readAt bs (p + 64) 8),
            decodeI64 (readAt bs (p + 72) 8)⟩ } := by
  rw [decodeEntries, hf, getU8_ro bs p (by omega)]
  simp only []
  rw [read_ro bs (p + 1) 63 (by decide)]
  simp only [show Int.toNat 63 = 63 from rfl]
  rw [readAt_full bs (p + 1) 63 (by omega), getI64_ro bs (p + 1 + 63) (by omega)]
  simp only []
  rw [getI64_ro bs (p + 1 + 63 + 8) (by omega)]
  simp only [QFile.close, Nat.add_assoc, Nat.reduceAdd]

theorem decodeEntries_ok (bs : QByteArray) : ∀ (k i : Nat) (d : DVirtualImageFileIOPrivate),
    d.file = ⟨bs, 1, 3 + 80 * i⟩ → 3 + 80 * (i + k) ≤ bs.length →
    (∀ j, i ≤ j → j < i + k → bs[3 + 80 * j]? = some 0xdd) →
    ∃ fm, decodeEntries k i d = (true, { d with file := ⟨bs, 1, 3 + 80 * (i + k)⟩, fileMap := fm }) := by
  intro k
  induction k with
  | zero =>
    intro i d hf _ _
    refine ⟨d.fileMap, ?_⟩
    rw [decodeEntries, Nat.add_zero, ← hf]
  | succ k ih =>
    intro i d hf hl hrec
    rw [decodeEntries_succ bs k i (3 + 80 * i) d hf (by omega)]
    have hm := hrec i (Nat.le_refl _) (by omega)
    have hg : bs.getD (3 + 80 * i) 0 = 0xdd := by
      rw [List.getD_eq_getElem?_getD, hm]; rfl
    rw [hg]
    simp only [bne_self_eq_false, Bool.false_eq_true, if_false]
    obtain ⟨fm, h⟩ := ih (i + 1) { d with
        file := ⟨bs, 1, 3 + 80 * i + 80⟩,
        fileMap := d.fileMap.insert (fromUtf8 (readAt bs (3 + 80 * i + 1) 63))
          ⟨i, fromUtf8 (readAt bs (3 + 80 * i + 1) 63), decodeI64 (readAt bs (3 + 80 * i + 64) 8),
            decodeI64 (readAt bs (3 + 80 * i + 72) 8)⟩ } (by simp only []; congr 1) (by omega)
        (fun j h1 h2 => hrec j (by omega) (by omega))
    refine ⟨fm, ?_⟩
    rw [h]
    simp only [Prod.mk.injEq, true_and]
    congr 2
    omega

theorem decodeEntries_bad (bs : QByteArray) : ∀ (k i : Nat) (d : DVirtualImageFileIOPrivate),
    d.file = ⟨bs, 1, 3 + 80 * i⟩ → 3 + 80 * (i + k) ≤ bs.length →
    (∃ j, i ≤ j ∧ j < i + k ∧ bs[3 + 80 * j]? ≠ some 0xdd) →
    (decodeEntries k i d).1 = false ∧ (decodeEntries k i d).2.isValid = d.isValid := by
  intro k
  induction k with
  | zero =>
    intro i d _ _ h
    obtain ⟨j, h1, h2, _⟩ := h
    omega
  | succ k ih =>
    intro i d hf hl hrec
    rw [decodeEntries_succ bs k i (3 + 80 * i) d hf (by omega)]
    by_cases hg : bs.getD (3 + 80 * i) 0 = 0xdd
    · rw [hg]
      simp only [bne_self_eq_false, Bool.false_eq_true, if_false]
      obtain ⟨j, h1, h2, h3⟩ := hrec
      have hji : j ≠ i := by
        rintro rfl
        apply h3
        rw [List.getElem?_eq_getElem (by omega)]
        rw [List.getD_eq_getElem _ _ (by omega)] at hg
        rw [hg]
      exact ih (i + 1) _ (by simp only []; congr 1) (by omega) ⟨j, by omega, by omega, h3⟩
    · have : (bs.getD (3 + 80 * i) 0 != 0xdd) = true := by simpa using hg
      rw [this]
      simp

theorem setFile_header (md5 : QByteArray → QByteArray) (d : DVirtualImageFileIOPrivate)
    (fileName : String) (store : QByteArray) (hc : d.file.isOpen = false)
    (hfn : endsWith fileName ".dim" = true) (hlen : 24576 ≤ store.length)
    (hmark : store.getD 0 0 = 0xdd) (hver : store.getD 1 0 = 1) (hcount : store.getD 2 0 < 256) :
    setFile md5 d fileName store =
      match decodeEntries (store.getD 2 0) 0 (headerRead d store) with
      | (false, d4) => some (false, d4)
      | (true, d4) =>
        let stored := d4.file.read 16
        match md5sum md5 { d4 with file := stored.2 } with
        | none => none
        | some (sum, d5) =>
          if stored.1 != sum then some (false, d5)
          else some (true, { d5 with file := d5.file.close, isValid := true }) := by
  have hsz : ¬ ((store.length : Int) < 3 + ((store.getD 2 0 : Nat) : Int) * 80) := by omega
  have hpos : (0 : Int) < store.length := by omega
  have hge : ¬ ((store.length : Int) < metaDataSize) := by simp only [metaDataSize]; omega
  unfold setFile
  simp only [hc, Bool.false_eq_true, if_false, hfn, Bool.not_true, QFile.size, gt_iff_lt, hpos,
    if_true, hge, open_closed_ro ⟨store, 0, 0⟩ rfl, getU8_ro store 0 (by omega),
    getU8_ro store (0 + 1) (by omega), getU8_ro store (0 + 1 + 1) (by omega), hmark, hver,
    bne_self_eq_false, hsz, headerRead]


theorem getD_eq_of_getElem? (bs : QByteArray) (i v : Nat) (h : bs[i]? = some v) : bs.getD i 0 = v := by
  rw [List.getD_eq_getElem?_getD, h]; rfl

theorem getD_ne_of_getElem? (bs : QByteArray) (i v : Nat) (hi : i < bs.length)
    (h : bs[i]? ≠ some v) : bs.getD i 0 ≠ v := by
  rw [List.getD_eq_getElem _ _ hi]
  intro h2
  apply h
  rw [List.getElem?_eq_getElem hi, h2]

theorem md5sum_frame (md5 : QByteArray → QByteArray) (d d1 : DVirtualImageFileIOPrivate)
    (sum : QByteArray) (h : md5sum md5 d = some (sum, d1)) :
    d1.isValid = d.isValid ∧ d1.fileMap = d.fileMap ∧ d1.openedFile = d.openedFile ∧
      d1.version = d.version := by
  unfold md5sum at h
  split at h
  · simp only [Option.some.injEq, Prod.mk.injEq] at h
    obtain ⟨-, rfl⟩ := h
    exact ⟨rfl, rfl, rfl, rfl⟩
  · simp only [] at h
    split at h
    · exact absurd h (by simp)
    · simp only [Option.some.injEq, Prod.mk.injEq] at h
      obtain ⟨-, rfl⟩ := h
      exact ⟨rfl, rfl, rfl, rfl⟩

theorem setFile_of_mismatch (md5 : QByteArray → QByteArray)
    (d : DVirtualImageFileIOPrivate) (fileName : String) (store : QByteArray)
    (hc : d.file.isOpen = false) (hfn : endsWith fileName ".dim" = true)
    (hlen : 24576 ≤ store.length) (hmark : store[0]? = some 0xdd) (hver : store[1]? = some 1)
    (hcount : store.getD 2 0 < 256)
    (hrec : ∀ i, i < store.getD 2 0 → store[3 + 80 * i]? = some 0xdd)
    (sum : QByteArray) (d5 : DVirtualImageFileIOPrivate)
    (hsum : md5sum md5 { (decodeEntries (store.getD 2 0) 0 (headerRead d store)).2 with
      file := ⟨store, 1, 3 + 80 * store.getD 2 0 + 16⟩ } = some (sum, d5))
    (hne : readAt store (3 + 80 * store.getD 2 0) 16 ≠ sum) :
    setFile md5 d fileName store = some (false, d5) ∧ isValid d5 = false ∧
      d5.fileMap = (decodeEntries (store.getD 2 0) 0 (headerRead d store)).2.fileMap := by
  obtain ⟨fm, hdec⟩ := decodeEntries_ok store (store.getD 2 0) 0 (headerRead d store) rfl
    (by omega) (fun j _ hj => hrec j (by omega))
  rw [setFile_header md5 d fileName store hc hfn hlen (getD_eq_of_getElem? _ _ _ hmark)
    (getD_eq_of_getElem? _ _ _ hver) hcount]
  rw [hdec] at hsum ⊢
  simp only [Nat.zero_add] at hsum ⊢
  rw [read_ro store _ 16 (by decide)]
  simp only [show Int.toNat 16 = 16 from rfl]
  rw [readAt_full store _ 16 (by omega), hsum]
  obtain ⟨h1, h2, -, -⟩ := md5sum_frame md5 _ _ _ hsum
  have hb : (readAt store (3 + 80 * store.getD 2 0) 16 != sum) = true := by simpa using hne
  simp only [hb, if_true]
  exact ⟨trivial, h1, h2⟩

/-- The digest computation returns when every entry of the table lies in the store. -/
theorem md5sum_total (md5 : QByteArray → QByteArray) (d : DVirtualImageFileIOPrivate)
    (bs : QByteArray) (p : Nat) (hf : d.file = ⟨bs, 1, p⟩)
    (hin : ∀ x ∈ fileInfoList d, 0 ≤ x.start ∧ x.end_ ≤ bs.length) :
    ∃ sum d5, md5sum md5 d = some (sum, d5) := by
  obtain ⟨acc, q, h1, -⟩ := md5sum_spec md5 0 d d bs bs 1 1 p p hf hf rfl (by decide) (by decide)
    rfl rfl (fun x hx => ⟨by simpa using (hin x hx).1, (hin x hx).2⟩)
  exact ⟨_, _, h1⟩

theorem length_blankStore : blankStore.length = 24576 := by
  unfold blankStore
  rw [List.length_append, List.length_replicate]
  rfl

theorem md5sum_blankStore (md5 : QByteArray → QByteArray) (p : Nat) :
    md5sum md5 { isValid := false, file := ⟨blankStore, 1, p⟩, version := 1, fileMap := [],
                 openedFile := [] } =
      some (md5 [0xdd, 1, 0], { isValid := false, file := ⟨blankStore, 1, 3⟩, version := 1,
                                fileMap := [], openedFile := [] }) := by
  have h3 : readAt blankStore 0 3 = [0xdd, 1, 0] := rfl
  unfold md5sum
  simp only [QFile.isOpen, show ((1 : Nat) != 0) = true from rfl, Bool.not_true,
    Bool.false_eq_true, if_false, seek_eq _ _ _ _ (show (1 : Nat) ≠ 0 by decide) (le_refl (0 : Int)),
    validMetaDataSize, QHash.count, List.length_nil]
  rw [read_ro blankStore _ _ (by decide)]
  simp only [fileInfoList, List.foldl_nil, List.length_nil, List.replicate_zero, md5Entries]
  have e1 : Int.toNat 0 = 0 := rfl
  have e2 : Int.toNat (3 + ((0 : Nat) : Int) * 80) = 3 := rfl
  rw [e1, e2, h3]
  rfl

theorem decode_blankStore :
    decodeEntries (blankStore.getD 2 0) 0 (headerRead newEngine blankStore) =
      (true, { isValid := false, file := ⟨blankStore, 1, 3⟩, version := 1, fileMap := [],
               openedFile := [] }) := by
  have h2 : blankStore.getD 2 0 = 0 := rfl
  have h1 : blankStore.getD 1 0 = 1 := rfl
  rw [h2, decodeEntries, headerRead, h1]
  rfl

theorem digestRead_blankStore :
    digestRead newEngine blankStore = { decodedBlank with file := ⟨blankStore, 1, 19⟩ } := by
  rw [digestRead, decode_blankStore]
  rfl

theorem blankStore_entries : ∀ x ∈ fileInfoList (digestRead newEngine blankStore),
    0 ≤ x.start ∧ x.end_ ≤ (blankStore.length : Int) := by
  rw [digestRead_blankStore]
  intro x hx
  simp [fileInfoList, decodedBlank] at hx

theorem md5sum_digestRead_blankStore :
    md5sum sampleMd5 (digestRead newEngine blankStore) =
      some (sampleMd5 [0xdd, 1, 0], decodedBlank) := by
  rw [digestRead_blankStore]
  exact md5sum_blankStore sampleMd5 19

theorem blankStore_marker : blankStore[0]? = some 0xdd := by
  simp only [blankStore, List.cons_append, List.getElem?_cons_zero]

theorem blankStore_version : blankStore[1]? = some 1 := by
  simp only [blankStore, List.cons_append, List.getElem?_cons_succ, List.getElem?_cons_zero]

theorem badRecordStore_ne_nil : badRecordStore ≠ [] := by
  simp only [badRecordStore, List.cons_append, ne_eq, not_false_eq_true, reduceCtorEq]

theorem badRecordStore_record : badRecordStore[3 + 80 * 0]? ≠ some 0xdd := by
  have h : List.replicate 24573 0 = 0 :: List.replicate 24572 0 := rfl
  simp only [badRecordStore, h, List.cons_append, List.nil_append, Nat.mul_zero, Nat.add_zero,
    List.getElem?_cons_succ, List.getElem?_cons_zero, ne_eq, Option.some.injEq]
  decide

/-! ### Cursor operations -/

theorem open_long (d : DVirtualImageFileIOPrivate) (name : QString)
    (hv : d.isValid = true) (hc : d.file.openMode = 0) (hn : 63 < name.length)
    (hnew : name ∉ d.fileMap.map Prod.fst) :
    open_ d name WriteOnly = (true, { d with
      file := ⟨writeAt d.file.bytes (validMetaDataSize d).toNat [0xdd], 3, 0⟩,
      openedFile := name }) := by
  have hopen : d.file.isOpen = false := by simp [QFile.isOpen, hc]
  have hex := existes_eq_false d name hnew
  have hw := isWritable_new d name hnew
  have hval : d.fileMap.value name = default := by
    simp only [QHash.value, (QHash.find_eq_none _ _).2 hnew, Option.getD_none]
  unfold open_
  simp only [hopen, isValid, hv, hex, hw, Bool.not_true, Bool.or_self, Bool.false_eq_true, if_false,
    Bool.and_false, Bool.not_false, if_true, testFlag, NotOpen, WriteOnly, Append]
  rw [if_neg (by decide), if_neg (by decide)]
  rw [addFile_long d name hc hn]
  simp only []
  rw [show (2 ||| ReadOnly) = ReadWrite from rfl, open_closed_rw _ rfl]
  simp only []
  rw [hval, show (default : FileInfo).start = 0 from rfl, seek_rw _ _ _ (le_refl _), hv]
  rfl

theorem readAt_length_self (bs : QByteArray) (p n : Nat) :
    readAt bs p (readAt bs p n).length = readAt bs p n := by
  simp only [readAt, List.length_take]
  by_cases h : n ≤ (List.drop p bs).length
  · rw [Nat.min_eq_left h]
  · rw [Nat.min_eq_right (by omega), List.take_length, List.take_of_length_le (by omega)]

theorem QHash.find_insert (m : QHash) (k : QString) (v : FileInfo) (k1 : QString) :
    QHash.find (QHash.insert m k v) k1 = if k = k1 then some v else QHash.find m k1 := by
  induction m with
  | nil => simp [QHash.insert, QHash.find]
  | cons x xs ih =>
    obtain ⟨a, w⟩ := x
    by_cases h : a = k
    · subst h
      by_cases h1 : a = k1 <;> simp [QHash.insert, QHash.find, h1]
    · by_cases h1 : a = k1
      · subst h1
        simp [QHash.insert, QHash.find, h, Ne.symm h]
      · simp [QHash.insert, QHash.find, h, h1, ih]

theorem QHash.keys_insert_of_mem (m : QHash) (k : QString) (v : FileInfo)
    (h : k ∈ m.map Prod.fst) : (QHash.insert m k v).map Prod.fst = m.map Prod.fst := by
  induction m with
  | nil => simp at h
  | cons x xs ih =>
    obtain ⟨a, w⟩ := x
    by_cases ha : a = k
    · simp [QHash.insert, ha]
    · have hk : k ∈ xs.map Prod.fst := by
        simp only [List.map_cons, List.mem_cons] at h
        rcases h with h | h
        · exact absurd h.symm ha
        · exact h
      simp [QHash.insert, ha, ih hk]

theorem readInto_readable (f : QFile) (n : Int) (hr : f.readable = true) (hn : 0 ≤ n) :
    f.readInto n = (((readAt f.bytes f.pos n.toNat).length : Int), readAt f.bytes f.pos n.toNat,
      { f with pos := f.pos + (readAt f.bytes f.pos n.toNat).length }) := by
  simp [QFile.readInto, hr, hn]

theorem readInto_unreadable (f : QFile) (n : Int) (hr : f.readable = false) :
    f.readInto n = (-1, [], f) := by
  simp [QFile.readInto, hr]

theorem end_of_existes (d : DVirtualImageFileIOPrivate) (e : QString) (hex : existes d e = true) :
    end_ d e = (d.fileMap.value e).end_ ∧ start d e = (d.fileMap.value e).start ∧
      size d e = wrapI64 ((d.fileMap.value e).end_ - (d.fileMap.value e).start) := by
  have hex2 : d.fileMap.contains e = true := hex
  simp [end_, start, size, hex2]

/-! ### The name field of a record -/

/-- The bytes of the store after `addFile`: the new record, the count byte, and
the bytes the call leaves alone. -/
theorem addFileBytes_reads (d : DVirtualImageFileIOPrivate) (name : QString)
    (hn : name.length ≤ 63) (v : Nat) (hv : v = (validMetaDataSize d).toNat) (h3 : 3 ≤ v) :
    readAt (addFileBytes d name) v 1 = [0xdd] ∧
    readAt (addFileBytes d name) (v + 1) 63 = name ++ List.replicate (63 - name.length) 0 ∧
    readAt (addFileBytes d name) (v + 64) 8 = encodeI64 (metaDataSize + fileDataSize d) ∧
    readAt (addFileBytes d name) (v + 72) 8 = encodeI64 (metaDataSize + fileDataSize d) ∧
    readAt (addFileBytes d name) 2 1 = [(d.fileMap.insert name (newInfo d name)).length % 256] ∧
    (∀ q n, q + n ≤ 2 → q + n ≤ d.file.bytes.length →
      readAt (addFileBytes d name) q n = readAt d.file.bytes q n) ∧
    (∀ q n, 3 ≤ q → q + n ≤ v → q + n ≤ d.file.bytes.length →
      readAt (addFileBytes d name) q n = readAt d.file.bytes q n) := by
  unfold addFileBytes
  simp only [← hv]
  refine ⟨?_, ?_, ?_, ?_, ?_, ?_, ?_⟩
  · rw [readAt_writeAt_after _ _ _ _ _ (by simp only [List.length_singleton]; omega),
      readAt_writeAt_before _ _ _ _ _ (by omega)
        (by simp only [length_writeAt, length_encodeI64, List.length_replicate]; omega),
      readAt_writeAt_before _ _ _ _ _ (by omega)
        (by simp only [length_writeAt, length_encodeI64, List.length_replicate]; omega),
      readAt_writeAt_before _ _ _ _ _ (by omega)
        (by simp only [length_writeAt, length_encodeI64, List.length_replicate]; omega),
      readAt_writeAt_before _ _ _ _ _ (by omega)
        (by simp only [length_writeAt, List.length_singleton]; omega)]
    exact readAt_writeAt_same _ v [0xdd]
  · rw [readAt_writeAt_after _ _ _ _ _ (by simp only [List.length_singleton]; omega),
      readAt_writeAt_before _ _ _ _ _ (by omega)
        (by simp only [length_writeAt, length_encodeI64, List.length_replicate]; omega),
      readAt_writeAt_before _ _ _ _ _ (by omega)
        (by simp only [length_writeAt, length_encodeI64, List.length_replicate]; omega),
      writeAt_writeAt_adj]
    exact readAt_writeAt_same_len _ _ _ _ _ rfl
      (by simp only [List.length_append, List.length_replicate]; omega)
  · rw [readAt_writeAt_after _ _ _ _ _ (by simp only [List.length_singleton]; omega),
      readAt_writeAt_before _ _ _ _ _ (by omega)
        (by simp only [length_writeAt, length_encodeI64, List.length_replicate]; omega)]
    exact readAt_writeAt_same_len _ _ _ _ _ rfl (length_encodeI64 _).symm
  · rw [readAt_writeAt_after _ _ _ _ _ (by simp only [List.length_singleton]; omega)]
    exact readAt_writeAt_same_len _ _ _ _ _ rfl (length_encodeI64 _).symm
  · exact readAt_writeAt_same _ 2 _
  · intro q n h1 h2
    rw [readAt_writeAt_before _ _ _ _ _ (by omega)
        (by simp only [length_writeAt, length_encodeI64, List.length_replicate]; omega),
      readAt_writeAt_before _ _ _ _ _ (by omega)
        (by simp only [length_writeAt, length_encodeI64, List.length_replicate]; omega),
      readAt_writeAt_before _ _ _ _ _ (by omega)
        (by simp only [length_writeAt, length_encodeI64, List.length_replicate]; omega),
      readAt_writeAt_before _ _ _ _ _ (by omega)
        (by simp only [length_writeAt, length_encodeI64, List.length_replicate]; omega),
      readAt_writeAt_before _ _ _ _ _ (by omega)
        (by simp only [length_writeAt, List.length_singleton]; omega),
      readAt_writeAt_before _ _ _ _ _ (by omega) (by omega)]
  · intro q n h1 h2 h4
    rw [readAt_writeAt_after _ _ _ _ _ (by simp only [List.length_singleton]; omega),
      readAt_writeAt_before _ _ _ _ _ (by omega)
        (by simp only [length_writeAt, length_encodeI64, List.length_replicate]; omega),
      readAt_writeAt_before _ _ _ _ _ (by omega)
        (by simp only [length_writeAt, length_encodeI64, List.length_replicate]; omega),
      readAt_writeAt_before _ _ _ _ _ (by omega)
        (by simp only [length_writeAt, length_encodeI64, List.length_replicate]; omega),
      readAt_writeAt_before _ _ _ _ _ (by omega)
        (by simp only [length_writeAt, List.length_singleton]; omega),
      readAt_writeAt_before _ _ _ _ _ (by omega) (by omega)]

theorem addFile_name_field (d : DVirtualImageFileIOPrivate) (name : QString)
    (hc : d.file.openMode = 0) (hn : name.length ≤ 63) :
    (addFile d name).1 = true ∧
      (QFile.read ⟨(addFile d name).2.file.bytes, ReadOnly, (validMetaDataSize d).toNat + 1⟩ 63).1
        = name ++ List.replicate (63 - name.length) 0 := by
  have hv : 3 ≤ (validMetaDataSize d).toNat := by
    simp only [validMetaDataSize, QHash.count]; omega
  rw [addFile_spec d name hc hn]
  refine ⟨rfl, ?_⟩
  simp only [ReadOnly]
  rw [read_ro _ _ 63 (by decide)]
  simp only [show Int.toNat 63 = 63 from rfl]
  exact (addFileBytes_reads d name hn _ rfl hv).2.1

theorem rename_name_field (d : DVirtualImageFileIOPrivate) (from_ to_ : QString)
    (hm : d.file.openMode = ReadWrite) (hex : existes d from_ = true) (hn : to_.length ≤ 63) :
    (rename d from_ to_).1 = true ∧
      (QFile.read ⟨(rename d from_ to_).2.file.bytes, ReadOnly,
        3 + (d.fileMap.value from_).index * 80 + 1⟩ 63).1
        = to_ ++ List.replicate (63 - to_.length) 0 := by
  obtain ⟨iv, ⟨bs, m, p⟩, ver, fm, opened⟩ := d
  simp only at hm
  subst hm
  have hseek : (0 : Int) ≤ 3 + (((QHash.value fm from_).index : Nat) : Int) * 80 + 1 := by positivity
  have hq : (3 + (((QHash.value fm from_).index : Nat) : Int) * 80 + 1).toNat
      = 3 + (QHash.value fm from_).index * 80 + 1 := by omega
  have hex3 : existes ⟨iv, ⟨bs, 3, p⟩, ver, fm, opened⟩ from_ = true := hex
  have hres : (rename ⟨iv, ⟨bs, ReadWrite, p⟩, ver, fm, opened⟩ from_ to_).1 = true ∧
      (rename ⟨iv, ⟨bs, ReadWrite, p⟩, ver, fm, opened⟩ from_ to_).2.file.bytes =
        writeAt bs (3 + (QHash.value fm from_).index * 80 + 1)
          (to_ ++ List.replicate (63 - to_.length) 0) := by
    simp only [rename, ReadWrite, hex3, Bool.not_true, Bool.false_eq_true, if_false, QHash.take,
      seek_rw _ _ _ hseek, hq, toUtf8, write_rw, if_neg (show ¬ to_.length > 63 by omega)]
    by_cases hlt : to_.length < 63
    · simp only [hlt, if_true, seek_rw _ _ _ (Int.natCast_nonneg p), writeAt_writeAt_adj, and_self]
    · have h63 : 63 - to_.length = 0 := by omega
      simp only [hlt, if_false, seek_rw _ _ _ (Int.natCast_nonneg p), h63, List.replicate_zero,
        List.append_nil, and_self]
  rw [hres.2]
  refine ⟨hres.1, ?_⟩
  simp only [ReadOnly]
  rw [read_ro _ _ 63 (by decide)]
  simp only [show Int.toNat 63 = 63 from rfl]
  exact readAt_writeAt_same_len _ _ _ _ _ rfl
    (by simp only [List.length_append, List.length_replicate]; omega)

/-! ### The sampling loop -/

theorem blockIndex_le (bs : QByteArray) (p : Nat) : blockIndex bs p ≤ 1023 := by
  unfold blockIndex; omega

/-- One iteration of the sampling loop on a store that holds the entry. -/
theorem sampleLoop_step (bs : QByteArray) (m p : Nat) (iend : Int) (acc : QByteArray)
    (fuel : Nat) (hr : m &&& ReadOnly ≠ 0) (he : iend ≤ bs.length)
    (hlt : (p : Int) < iend - 1048578) :
    sampleLoop (fuel + 1) ⟨bs, m, p⟩ iend acc =
      sampleLoop fuel ⟨bs, m, p + (2 + blockIndex bs p * 1024 + 1024)⟩ iend
        (acc ++ readAt bs (p + 2 + blockIndex bs p * 1024) 1024) := by
  have ho := readable_ne_zero m hr
  have hk := blockIndex_le bs p
  have hlt2 : ((p : Nat) : Int) < iend - 1024 * 1024 - 2 := by omega
  rw [sampleLoop]
  simp only [hlt2, if_true]
  rw [read_eq bs m p 2 hr (by omega)]
  simp only [show Int.toNat 2 = 2 from rfl]
  have hl2 : (readAt bs p 2).length = 2 := by rw [length_readAt]; omega
  rw [hl2]
  rw [show ((readAt bs p 2).headD 0 + 256 * (readAt bs p 2).tail.headD 0) % 65536 % 1024
    = blockIndex bs p from rfl]
  rw [seek_eq _ _ _ _ ho (by positivity)]
  simp only []
  have hp2 : (((p + 2 : Nat) : Int) + ((blockIndex bs p : Nat) : Int) * 1024).toNat
      = p + 2 + blockIndex bs p * 1024 := by omega
  rw [hp2, read_eq _ _ _ 1024 hr (by omega)]
  simp only [show Int.toNat 1024 = 1024 from rfl]
  have hl3 : (readAt bs (p + 2 + blockIndex bs p * 1024) 1024).length = 1024 := by
    rw [length_readAt]; omega
  rw [hl3, show p + (2 + blockIndex bs p * 1024 + 1024) = p + 2 + blockIndex bs p * 1024 + 1024
    by omega]

theorem sampleLoop_mono : ∀ (fuel : Nat) (f : QFile) (iend : Int) (acc : QByteArray)
    (r : QFile × QByteArray), sampleLoop fuel f iend acc = some r →
    ∀ k, sampleLoop (fuel + k) f iend acc = some r := by
  intro fuel
  induction fuel with
  | zero => intro f iend acc r h; simp [sampleLoop] at h
  | succ fuel ih =>
    intro f iend acc r h k
    rw [show fuel + 1 + k = (fuel + k) + 1 by omega]
    rw [sampleLoop] at h ⊢
    by_cases hlt : (f.pos : Int) < iend - 1024 * 1024 - 2
    · simp only [hlt, if_true] at h ⊢
      split at h
      · exact h
      · exact ih _ _ _ _ h k
    · simp only [hlt, if_false] at h ⊢
      exact h

theorem sampleLoop_bound (bs : QByteArray) (m : Nat) (iend : Int)
    (hr : m &&& ReadOnly ≠ 0) (he : iend ≤ bs.length) :
    ∀ (fuel p : Nat) (acc : QByteArray), (p : Int) ≤ iend → (iend - p).toNat / 1026 < fuel →
    ∃ q acc1, sampleLoop fuel ⟨bs, m, p⟩ iend acc = some (⟨bs, m, q⟩, acc1) ∧ p ≤ q ∧
      (q : Int) ≤ iend ∧ iend - 1048578 ≤ q := by
  intro fuel
  induction fuel with
  | zero => intro p acc _ h; omega
  | succ fuel ih =>
    intro p acc hp hfuel
    by_cases hlt : (p : Int) < iend - 1048578
    · rw [sampleLoop_step bs m p iend acc fuel hr he hlt]
      have hk := blockIndex_le bs p
      obtain ⟨q, acc1, h1, h2, h3, h4⟩ := ih (p + (2 + blockIndex bs p * 1024 + 1024))
        (acc ++ readAt bs (p + 2 + blockIndex bs p * 1024) 1024) (by omega) (by omega)
      exact ⟨q, acc1, h1, by omega, h3, h4⟩
    · refine ⟨p, acc, ?_, Nat.le_refl _, hp, by omega⟩
      rw [sampleLoop]
      simp only []
      rw [if_neg (by omega)]

theorem length_sampledStore : sampledStore.length = 1073155 := by
  unfold sampledStore
  rw [List.length_append, List.length_append, length_freshStore, List.length_replicate]
  rfl

theorem sampledEntry_le : sampledEntry.end_ ≤ (sampledStore.length : Int) := by
  rw [length_sampledStore]; decide

theorem getD_eq_readAt (bs : QByteArray) (p : Nat) : bs.getD p 0 = (readAt bs p 1).headD 0 :=
  (headD_readAt bs p 0).symm

theorem lastEnd_const (a : Int) (l : List FileInfo) (h : ∀ x ∈ l, x.end_ = a) :
    lastEnd a l = a := by
  induction l with
  | nil => rfl
  | cons x xs ih =>
    simp only [lastEnd]
    rw [h x (List.mem_cons_self _ _)]
    exact ih (fun y hy => h y (List.mem_cons_of_mem _ hy))

theorem recordsInv_fresh : RecordsInv freshEngine where
  closed := rfl
  marker := rfl
  version := rfl
  count := rfl
  empty := by intro p hp; simp [freshEngine] at hp
  short := by intro p hp; simp [freshEngine] at hp
  record := by intro i p hp; simp [freshEngine] at hp

theorem recordsInv_addFile (d : DVirtualImageFileIOPrivate) (ht : TableInv d) (hr : RecordsInv d)
    (name : QString) (hn : name.length ≤ 63) (hnew : name ∉ d.fileMap.map Prod.fst)
    (hlen : d.fileMap.length ≤ 254) :
    addFile d name = (true, added d name) ∧ TableInv (added d name) ∧
      RecordsInv (added d name) := by
  have hadd := addFile_spec d name hr.closed hn
  rw [QHash.insert_of_not_mem _ _ _ hnew] at hadd
  have hv : (validMetaDataSize d).toNat = 3 + 80 * d.fileMap.length := by
    simp only [validMetaDataSize, QHash.count]; omega
  have hsz := ht.size_ge
  obtain ⟨r1, r2, r3, r4, r5, r6, r7⟩ := addFileBytes_reads d name hn _ hv.symm (by omega)
  have hs : metaDataSize + fileDataSize d = 24576 := by
    rw [fileDataSize_eq d ht.chain]
    apply lastEnd_const
    intro x hx
    obtain ⟨p, hp, rfl⟩ := List.mem_map.1 hx
    exact (hr.empty p hp).2
  refine ⟨hadd, tableInv_append d ht _ d.openedFile name (length_addFileBytes_ge d name) hnew, ?_⟩
  refine ⟨rfl, ?_, ?_, ?_, ?_, ?_, ?_⟩
  · show (addFileBytes d name).getD 0 0 = 0xdd
    rw [getD_eq_readAt, r6 0 1 (by omega) (by omega), ← getD_eq_readAt]
    exact hr.marker
  · show (addFileBytes d name).getD 1 0 = 1
    rw [getD_eq_readAt, r6 1 1 (by omega) (by omega), ← getD_eq_readAt]
    exact hr.version
  · show (addFileBytes d name).getD 2 0 = (d.fileMap ++ [(name, newInfo d name)]).length % 256
    rw [getD_eq_readAt, r5, QHash.insert_of_not_mem _ _ _ hnew]
    rfl
  · intro p hp
    rcases List.mem_append.1 hp with hp | hp
    · exact hr.empty p hp
    · simp only [List.mem_singleton] at hp
      subst hp
      simp only [newInfo, hs, and_self]
  · intro p hp
    rcases List.mem_append.1 hp with hp | hp
    · exact hr.short p hp
    · simp only [List.mem_singleton] at hp
      subst hp
      exact hn
  · intro i p hp
    show (addFileBytes d name).getD (3 + 80 * i) 0 = 0xdd ∧
      readAt (addFileBytes d name) (3 + 80 * i + 1) 63 = p.1 ++ List.replicate (63 - p.1.length) 0 ∧
      readAt (addFileBytes d name) (3 + 80 * i + 64) 8 = encodeI64 p.2.start ∧
      readAt (addFileBytes d name) (3 + 80 * i + 72) 8 = encodeI64 p.2.end_
    have hp2 : (d.fileMap ++ [(name, newInfo d name)])[i]? = some p := hp
    by_cases hi : i < d.fileMap.length
    · rw [List.getElem?_append_left hi] at hp2
      obtain ⟨q1, q2, q3, q4⟩ := hr.record i p hp2
      rw [getD_eq_readAt, r7 _ 1 (by omega) (by omega) (by omega), ← getD_eq_readAt,
        r7 _ 63 (by omega) (by omega) (by omega), r7 _ 8 (by omega) (by omega) (by omega),
        r7 _ 8 (by omega) (by omega) (by omega)]
      exact ⟨q1, q2, q3, q4⟩
    · rw [List.getElem?_append_right (by omega)] at hp2
      have h0 : i - d.fileMap.length = 0 := by
        by_contra hne
        rw [List.getElem?_eq_none (by simp; omega)] at hp2
        exact Option.noConfusion hp2
      rw [h0] at hp2
      simp only [List.getElem?_cons_zero, Option.some.injEq] at hp2
      subst hp2
      have hi2 : i = d.fileMap.length := by omega
      subst hi2
      rw [getD_eq_readAt, r1, r2, r3, r4]
      exact ⟨rfl, rfl, rfl, rfl⟩

theorem addFiles_spec : ∀ (names : List QString) (d : DVirtualImageFileIOPrivate),
    TableInv d → RecordsInv d → names.Nodup → (∀ n ∈ names, n ∉ d.fileMap.map Prod.fst) →
    (∀ n ∈ names, n.length ≤ 63) → d.fileMap.length + names.length ≤ 255 →
    TableInv (addFiles d names) ∧ RecordsInv (addFiles d names) ∧
      (addFiles d names).fileMap.map Prod.fst = d.fileMap.map Prod.fst ++ names := by
  intro names
  induction names with
  | nil => intro d ht hr _ _ _ _; exact ⟨ht, hr, by simp [addFiles]⟩
  | cons n ns ih =>
    intro d ht hr hnd hnew hshort hlen
    simp only [List.length_cons] at hlen
    obtain ⟨h1, h2, h3⟩ := recordsInv_addFile d ht hr n (hshort n (List.mem_cons_self _ _))
      (hnew n (List.mem_cons_self _ _)) (by omega)
    have hstep : addFiles d (n :: ns) = addFiles (addFile d n).2 ns := rfl
    rw [hstep, h1]
    simp only []
    rw [List.nodup_cons] at hnd
    obtain ⟨g1, g2, g3⟩ := ih _ h2 h3 hnd.2
      (by
        intro x hx
        simp only [added, List.map_append, List.map_cons, List.map_nil, List.mem_append,
          List.mem_singleton, not_or]
        exact ⟨hnew x (List.mem_cons_of_mem _ hx), fun h => hnd.1 (by rw [h] at hx; exact hx)⟩)
      (fun x hx => hshort x (List.mem_cons_of_mem _ hx))
      (by simp only [added, List.length_append, List.length_singleton]; omega)
    refine ⟨g1, g2, ?_⟩
    rw [g3]
    simp [added]

theorem foldl_set_name (m : QHash) : ∀ (init : List FileInfo),
    m.foldl (fun l p => l.set p.2.index p.2.name) (init.map FileInfo.name) =
      (m.foldl (fun l p => l.set p.2.index p.2) init).map FileInfo.name := by
  induction m with
  | nil => intro init; rfl
  | cons x xs ih =>
    intro init
    simp only [List.foldl_cons]
    rw [← ih, List.map_set]

theorem fileNameList_eq_map (d : DVirtualImageFileIOPrivate) :
    fileNameList d = (fileInfoList d).map FileInfo.name := by
  unfold fileNameList fileInfoList
  rw [← foldl_set_name, List.map_replicate]
  rfl

theorem fileList_eq_keys (d : DVirtualImageFileIOPrivate) (h : TableInv d)
    (hn : d.fileMap.length ≤ 256) : fileList d = d.fileMap.map Prod.fst := by
  rw [fileList, fileNameList_eq_map, fileInfoList_eq d h hn, List.map_map]
  apply List.map_congr_left
  intro p hp
  exact h.name p hp

theorem fileList_congr (d d1 : DVirtualImageFileIOPrivate) (h : d1.fileMap = d.fileMap) :
    fileList d1 = fileList d := by
  simp only [fileList, fileNameList, h]

theorem decodeEntries_table (d : DVirtualImageFileIOPrivate) (ht : TableInv d)
    (hr : RecordsInv d) (hlen : d.fileMap.length ≤ 255) (h0 : ∀ p ∈ d.fileMap, 0 ∉ p.1) :
    ∀ (k i : Nat) (d4 : DVirtualImageFileIOPrivate), i + k = d.fileMap.length →
    d4.file = ⟨d.file.bytes, 1, 3 + 80 * i⟩ → d4.fileMap = List.take i d.fileMap →
    decodeEntries k i d4 = (true, { d4 with
      file := ⟨d.file.bytes, 1, 3 + 80 * d.fileMap.length⟩, fileMap := d.fileMap }) := by
  intro k
  induction k with
  | zero =>
    intro i d4 hik hf hm
    rw [decodeEntries]
    have hi : i = d.fileMap.length := by omega
    subst hi
    rw [List.take_length] at hm
    rw [← hf, ← hm]
  | succ k ih =>
    intro i d4 hik hf hm
    have hsz := ht.size_ge
    have hi : i < d.fileMap.length := by omega
    obtain ⟨p, hp⟩ : ∃ p, d.fileMap[i]? = some p := ⟨_, List.getElem?_eq_getElem hi⟩
    have hmem : p ∈ d.fileMap := by
      rw [List.getElem?_eq_getElem hi, Option.some.injEq] at hp
      rw [← hp]
      exact List.getElem_mem hi
    obtain ⟨q1, q2, q3, q4⟩ := hr.record i p hp
    rw [decodeEntries_succ d.file.bytes k i (3 + 80 * i) d4 hf (by omega), q1]
    simp only [bne_self_eq_false, Bool.false_eq_true, if_false]
    rw [q2, q3, q4, fromUtf8_padded p.1 _ (h0 p hmem), (hr.empty p hmem).1, (hr.empty p hmem).2,
      decodeI64_encodeI64 24576 (by decide) (by decide)]
    have hidx : p.2.index = i := by
      rw [ht.index i p (by simpa [List.get?_eq_getElem?] using hp)]
      exact Nat.mod_eq_of_lt (by omega)
    have hinfo : (⟨i, p.1, 24576, 24576⟩ : FileInfo) = p.2 := by
      obtain ⟨key, ⟨ix, nm, st, en⟩⟩ := p
      have e1 := hr.empty _ hmem
      have e2 := ht.name _ hmem
      simp only at e1 e2 hidx
      rw [hidx, e2, e1.1, e1.2]
    rw [hinfo]
    have hni : p.1 ∉ (List.take i d.fileMap).map Prod.fst := by
      have hnd := ht.nodup
      rw [← List.take_append_drop i d.fileMap, List.map_append, List.nodup_append] at hnd
      have hin : p.1 ∈ (List.drop i d.fileMap).map Prod.fst := by
        rw [List.drop_eq_getElem_cons hi]
        rw [List.getElem?_eq_getElem hi, Option.some.injEq] at hp
        rw [hp]
        simp
      exact fun hmem1 => hnd.2.2 hmem1 hin
    rw [hm, QHash.insert_of_not_mem _ _ _ hni]
    have htake : List.take i d.fileMap ++ [(p.1, p.2)] = List.take (i + 1) d.fileMap := by
      rw [List.take_succ, hp]
      rfl
    rw [htake]
    have := ih (i + 1) { d4 with file := ⟨d.file.bytes, 1, 3 + 80 * i + 80⟩,
                                 fileMap := List.take (i + 1) d.fileMap } (by omega)
      (by simp only []; congr 1) rfl
    rw [this]

/-- The result of `setFile` on a well-formed store whose records decode to the
state `d4`: the digest comparison decides the result, the table is that of `d4`. -/
theorem setFile_decoded (md5 : QByteArray → QByteArray) (fileName : String) (store : QByteArray)
    (hfn : endsWith fileName ".dim" = true) (hlen : 24576 ≤ store.length)
    (hmark : store.getD 0 0 = 0xdd) (hver : store.getD 1 0 = 1) (hcount : store.getD 2 0 < 256)
    (fm : QHash) (q : Nat)
    (hdec : decodeEntries (store.getD 2 0) 0 (headerRead newEngine store) =
      (true, { headerRead newEngine store with file := ⟨store, 1, q⟩, fileMap := fm }))
    (hin : ∀ x ∈ fileInfoList { headerRead newEngine store with fileMap := fm },
      ((0 : Nat) : Int) ≤ x.start ∧ x.end_ ≤ store.length) :
    ∃ b d1, setFile md5 newEngine fileName store = some (b, d1) ∧ d1.fileMap = fm := by
  rw [setFile_header md5 newEngine fileName store rfl hfn hlen hmark hver hcount, hdec]
  simp only []
  rw [read_ro store q 16 (by decide)]
  simp only []
  obtain ⟨acc, q2, h1, -⟩ := md5sum_spec md5 0
    { headerRead newEngine store with
      file := ⟨store, 1, q + (readAt store q (Int.toNat 16)).length⟩, fileMap := fm }
    { headerRead newEngine store with
      file := ⟨store, 1, q + (readAt store q (Int.toNat 16)).length⟩, fileMap := fm }
    store store 1 1 _ _ rfl rfl rfl (by decide) (by decide) rfl rfl hin
  rw [h1]
  simp only []
  by_cases hb : (readAt store q (Int.toNat 16) != md5 acc) = true
  · rw [if_pos hb]
    exact ⟨false, _, rfl, rfl⟩
  · rw [if_neg hb]
    exact ⟨true, _, rfl, rfl⟩

theorem index_injective (d : DVirtualImageFileIOPrivate) (h : TableInv d)
    (hn : d.fileMap.length ≤ 256) (x y : QString × FileInfo) (hx : x ∈ d.fileMap)
    (hy : y ∈ d.fileMap) (hxy : x.2.index = y.2.index) : x = y := by
  obtain ⟨i, hi, rfl⟩ := List.getElem_of_mem hx
  obtain ⟨j, hj, rfl⟩ := List.getElem_of_mem hy
  have h1 := h.index i _ (by rw [List.get?_eq_getElem?]; exact List.getElem?_eq_getElem hi)
  have h2 := h.index j _ (by rw [List.get?_eq_getElem?]; exact List.getElem?_eq_getElem hj)
  rw [h1, h2, Nat.mod_eq_of_lt (by omega), Nat.mod_eq_of_lt (by omega)] at hxy
  subst hxy
  rfl

/-- The list `fileList()` builds does not depend on the order in which the table is
traversed. -/
theorem fileList_perm (d : DVirtualImageFileIOPrivate) (h : TableInv d)
    (hn : d.fileMap.length ≤ 256) (m : QHash) (hp : m.Perm d.fileMap) :
    fileList { d with fileMap := m } = fileList d := by
  simp only [fileList, fileNameList, hp.length_eq]
  apply List.Perm.foldl_eq' hp
  intro x hx y hy z
  have hx1 := hp.mem_iff.1 hx
  have hy1 := hp.mem_iff.1 hy
  by_cases hxy : x.2.index = y.2.index
  · rw [index_injective d h hn x y hx1 hy1 hxy]
  · exact List.set_comm _ _ _ hxy

/-- The state after the given names have been added to a new container, and what
`setFile` yields on its store when no name holds a zero byte. -/
theorem addFiles_fresh (md5 : QByteArray → QByteArray) (fileName : String)
    (hfn : endsWith fileName ".dim" = true) (names : List QString) (hnd : names.Nodup)
    (hlen : names.length ≤ 255) (hsize : ∀ n ∈ names, n.length ≤ 63) :
    TableInv (addFiles freshEngine names) ∧ RecordsInv (addFiles freshEngine names) ∧
    (addFiles freshEngine names).fileMap.map Prod.fst = names ∧
    fileList (addFiles freshEngine names) = names ∧
    ((∀ n ∈ names, 0 ∉ n) →
      ∃ b d1, setFile md5 newEngine fileName (addFiles freshEngine names).file.bytes = some (b, d1) ∧
        fileList d1 = names) := by
  obtain ⟨ht, hr, hk⟩ := addFiles_spec names freshEngine tableInv_fresh recordsInv_fresh hnd
    (by intro n _; simp [freshEngine]) hsize (by simpa [freshEngine] using hlen)
  have hk2 : (addFiles freshEngine names).fileMap.map Prod.fst = names := by
    rw [hk]; rfl
  have hl : (addFiles freshEngine names).fileMap.length = names.length := by
    have := congrArg List.length hk2
    rwa [List.length_map] at this
  have hfl := fileList_eq_keys _ ht (by omega)
  rw [hk2] at hfl
  refine ⟨ht, hr, hk2, hfl, ?_⟩
  intro h0
  generalize addFiles freshEngine names = d at ht hr hk2 hl hfl
  have hc : d.file.bytes.getD 2 0 = d.fileMap.length := by
    rw [hr.count]; exact Nat.mod_eq_of_lt (by omega)
  have hdec := decodeEntries_table d ht hr (by omega)
    (by
      intro p hp
      apply h0
      rw [← hk2]
      exact List.mem_map_of_mem _ hp)
    d.fileMap.length 0 (headerRead newEngine d.file.bytes) (by omega) rfl rfl
  obtain ⟨b, d1, h1, h2⟩ := setFile_decoded md5 fileName d.file.bytes hfn ht.size_ge hr.marker
    hr.version (by omega) d.fileMap (3 + 80 * d.fileMap.length) (by rw [hc]; exact hdec)
    (fileInfoList_ok d ht)
  exact ⟨b, d1, h1, by rw [fileList_congr d d1 h2, hfl]⟩

theorem names_at_index (d : DVirtualImageFileIOPrivate) (h : TableInv d)
    (hn : d.fileMap.length ≤ 256) (p : QString × FileInfo) (hp : p ∈ d.fileMap) :
    (d.fileMap.map Prod.fst)[p.2.index]? = some p.2.name := by
  obtain ⟨i, hi, rfl⟩ := List.getElem_of_mem hp
  have h1 := h.index i _ (by rw [List.get?_eq_getElem?]; exact List.getElem?_eq_getElem hi)
  rw [h1, Nat.mod_eq_of_lt (by omega), List.getElem?_map, List.getElem?_eq_getElem hi,
    h.name _ (List.getElem_mem hi)]
  rfl

/-! ### A store with an entry at the start of the `qint64` range, and the entry named `""` -/

theorem length_overflowStore : overflowStore.length = 24576 := by
  unfold overflowStore
  simp only [List.length_append, List.length_replicate, List.length_cons, List.length_nil]

theorem decode_overflowStore :
    decodeEntries (overflowStore.getD 2 0) 0 (headerRead newEngine overflowStore) =
      (true, overflowState false 1 83 []) := by
  have h2 : overflowStore.getD 2 0 = 0 + 1 := rfl
  have h0 : overflowStore.getD 3 0 = 0xdd := rfl
  have hn : fromUtf8 (readAt overflowStore (3 + 1) 63) = [97] := rfl
  have hs : decodeI64 (readAt overflowStore (3 + 64) 8) = -2 ^ 63 := by decide
  have he : decodeI64 (readAt overflowStore (3 + 72) 8) = 50 := by decide
  have h1 : overflowStore.getD 1 0 = 1 := rfl
  rw [h2, decodeEntries_succ overflowStore 0 0 3 _ rfl (by rw [length_overflowStore]; decide), h0,
    hn, hs, he, decodeEntries, headerRead, h1]
  rfl

theorem md5sum_overflowStore (p : Nat) :
    md5sum sampleMd5 (overflowState false 1 p []) =
      some (List.replicate 16 83, overflowState false 1 83 []) := by
  have hfl : fileInfoList (overflowState false 1 p []) = [⟨0, [97], -2 ^ 63, 50⟩] := rfl
  have hv : validMetaDataSize (overflowState false 1 p []) = 83 := rfl
  have hl : (readAt overflowStore 0 83).length = 83 := by
    rw [length_readAt, length_overflowStore]; rfl
  have hseek : QFile.seek ⟨overflowStore, 1, 0 + (readAt overflowStore 0 83).length⟩ (-2 ^ 63)
      = (false, ⟨overflowStore, 1, 0 + (readAt overflowStore 0 83).length⟩) := by
    simp [QFile.seek]
  unfold md5sum
  rw [hfl, hv]
  simp only [overflowState, QFile.isOpen, show ((1 : Nat) != 0) = true from rfl, Bool.not_true,
    Bool.false_eq_true, if_false, seek_eq _ _ _ _ (show (1 : Nat) ≠ 0 by decide) (le_refl (0 : Int)),
    read_ro overflowStore _ 83 (by decide), show Int.toNat 0 = 0 from rfl,
    show Int.toNat 83 = 83 from rfl, md5Entries, md5Entry, hseek]
  simp only [read_neg _ _ (show (50 : Int) - ((83 : Nat) : Int) < 0 by decide), List.append_nil,
    sampleMd5, hl]
  rfl

theorem setFile_overflowStore :
    setFile sampleMd5 newEngine "c.dim" overflowStore = some (true, overflowEngine) := by
  rw [setFile_header sampleMd5 newEngine "c.dim" overflowStore rfl (by decide)
    (le_of_eq length_overflowStore.symm) rfl rfl (by decide), decode_overflowStore]
  simp only [overflowState, read_ro overflowStore 83 16 (by decide), show Int.toNat 16 = 16 from rfl,
    readAt_full overflowStore 83 16 (by rw [length_overflowStore]; omega)]
  have h := md5sum_overflowStore (83 + 16)
  rw [overflowState] at h
  rw [h]
  have hst : readAt overflowStore 83 16 = List.replicate 16 83 := rfl
  simp only [hst, bne_self_eq_false, Bool.false_eq_true, if_false]
  rfl

theorem open_overflowEngine :
    open_ overflowEngine [97] ReadOnly = (true, overflowState true 1 0 [97]) := by
  have hseek : QFile.seek ⟨overflowStore, 1, 0⟩ (-2 ^ 63) = (false, ⟨overflowStore, 1, 0⟩) := by
    simp [QFile.seek]
  have hopen : QFile.open_ ⟨overflowStore, 0, 0⟩ (ReadOnly ||| ReadOnly) =
      (true, ⟨overflowStore, 1, 0⟩) := open_closed_ro ⟨overflowStore, 0, 0⟩ rfl
  have hex : existes overflowEngine [97] = true := rfl
  have hval : overflowEngine.fileMap.value [97] = ⟨0, [97], -2 ^ 63, 50⟩ := rfl
  have ht : testFlag ReadOnly NotOpen = false := rfl
  have hw : (ReadOnly &&& (WriteOnly ||| Append) != 0) = false := rfl
  have hv : isValid overflowEngine = true := rfl
  have ho : overflowEngine.file.isOpen = false := rfl
  have hf : overflowEngine.file = ⟨overflowStore, 0, 0⟩ := rfl
  unfold open_
  rw [hex, ht, hw, hv, ho]
  simp only [Bool.not_true, Bool.or_false, Bool.false_eq_true, if_false, Bool.false_and,
    Bool.not_false, Bool.and_false, Bool.true_and]
  rw [hval, hf, hopen]
  simp only [hseek]
  rfl

theorem pos_overflowEngine : pos (overflowState true 1 0 [97]) = -2 ^ 63 := by
  decide

theorem open_emptyName : open_ freshEngine [] WriteOnly = (true, openedEmptyName) :=
  open_fresh [] (by decide)

/-! ### Stores whose records have pairwise distinct names -/

theorem decodedTable_succ (store : QByteArray) (n : Nat) :
    decodedTable store (n + 1) =
      decodedTable store n ++ [((decodeRecord store n).name, decodeRecord store n)] := by
  simp [decodedTable, List.range_succ]

theorem decodedTable_keys (store : QByteArray) (n : Nat) (k : QString) :
    k ∈ (decodedTable store n).map Prod.fst ↔ ∃ j, j < n ∧ (decodeRecord store j).name = k := by
  simp [decodedTable]

theorem decodeEntries_distinct (bs : QByteArray) : ∀ (k i : Nat) (d : DVirtualImageFileIOPrivate),
    d.file = ⟨bs, 1, 3 + 80 * i⟩ → 3 + 80 * (i + k) ≤ bs.length →
    (∀ j, i ≤ j → j < i + k → bs[3 + 80 * j]? = some 0xdd) →
    d.fileMap = decodedTable bs i →
    (∀ a b, a < i + k → b < i + k → a ≠ b → (decodeRecord bs a).name ≠ (decodeRecord bs b).name) →
    decodeEntries k i d =
      (true, { d with file := ⟨bs, 1, 3 + 80 * (i + k)⟩, fileMap := decodedTable bs (i + k) }) := by
  intro k
  induction k with
  | zero =>
    intro i d hf _ _ hm _
    rw [decodeEntries, Nat.add_zero, ← hf, ← hm]
  | succ k ih =>
    intro i d hf hl hrec hm hdist
    rw [decodeEntries_succ bs k i (3 + 80 * i) d hf (by omega)]
    have hg : bs.getD (3 + 80 * i) 0 = 0xdd :=
      getD_eq_of_getElem? _ _ _ (hrec i (Nat.le_refl _) (by omega))
    rw [hg]
    simp only [bne_self_eq_false, Bool.false_eq_true, if_false]
    have hnew : (decodeRecord bs i).name ∉ (decodedTable bs i).map Prod.fst := by
      rw [decodedTable_keys]
      rintro ⟨j, hj, hjn⟩
      exact hdist j i (by omega) (by omega) (by omega) hjn
    have hins : QHash.insert d.fileMap (fromUtf8 (readAt bs (3 + 80 * i + 1) 63))
        ⟨i, fromUtf8 (readAt bs (3 + 80 * i + 1) 63), decodeI64 (readAt bs (3 + 80 * i + 64) 8),
          decodeI64 (readAt bs (3 + 80 * i + 72) 8)⟩ = decodedTable bs (i + 1) := by
      rw [hm, decodedTable_succ]
      exact QHash.insert_of_not_mem _ _ _ hnew
    rw [hins]
    have := ih (i + 1) { d with file := ⟨bs, 1, 3 + 80 * i + 80⟩, fileMap := decodedTable bs (i + 1) }
      (by simp only []; congr 1) (by omega) (fun j h1 h2 => hrec j (by omega) (by omega)) rfl
      (fun a b ha hb => hdist a b (by omega) (by omega))
    rw [this]
    simp only [show i + 1 + k = i + (k + 1) by omega]

theorem fileInfoList_decodedTable (d : DVirtualImageFileIOPrivate) (bs : QByteArray) (n : Nat)
    (h : d.fileMap = decodedTable bs n) :
    fileInfoList d = (List.range n).map (decodeRecord bs) := by
  have := foldl_set_index (decodedTable bs n) [] (by
    intro j p hp
    simp only [decodedTable, List.getElem?_map, Option.map_eq_some'] at hp
    obtain ⟨a, ha, rfl⟩ := hp
    have hj : j < n := by
      by_contra hc
      rw [List.getElem?_eq_none (by simpa using hc)] at ha
      exact Option.noConfusion ha
    rw [List.getElem?_range hj] at ha
    simp only [Option.some.injEq] at ha
    subst ha
    simp [decodeRecord])
  simp only [List.nil_append] at this
  rw [fileInfoList, h, this]
  simp [decodedTable]

theorem digestRead_distinct (d : DVirtualImageFileIOPrivate) (store : QByteArray)
    (hempty : d.fileMap = []) (hlen : 24576 ≤ store.length) (hcount : store.getD 2 0 < 256)
    (hrec : ∀ i, i < store.getD 2 0 → store[3 + 80 * i]? = some 0xdd)
    (hdist : ∀ i j, i < store.getD 2 0 → j < store.getD 2 0 → i ≠ j →
      (decodeRecord store i).name ≠ (decodeRecord store j).name) :
    (digestRead d store).fileMap = decodedTable store (store.getD 2 0) := by
  have h := decodeEntries_distinct store (store.getD 2 0) 0 (headerRead d store) rfl (by omega)
    (fun j _ hj => hrec j (by omega)) (by simp [headerRead, hempty, decodedTable])
    (fun a b ha hb => hdist a b (by omega) (by omega))
  rw [digestRead, h]
  simp only [Nat.zero_add]

theorem length_oneRecordStore : oneRecordStore.length = 24576 := by
  unfold oneRecordStore
  simp only [List.length_append, List.length_replicate, List.length_cons, List.length_nil]

theorem decodeRecord_oneRecordStore : decodeRecord oneRecordStore 0 = ⟨0, [97], 24576, 24576⟩ := by
  have hn : fromUtf8 (readAt oneRecordStore (3 + 80 * 0 + 1) 63) = [97] := rfl
  have hs : decodeI64 (readAt oneRecordStore (3 + 80 * 0 + 64) 8) = 24576 := by decide
  have he : decodeI64 (readAt oneRecordStore (3 + 80 * 0 + 72) 8) = 24576 := by decide
  rw [decodeRecord, hn, hs, he]

theorem oneRecordStore_count : oneRecordStore.getD 2 0 = 1 := rfl

theorem oneRecordStore_records :
    ∀ i, i < oneRecordStore.getD 2 0 → oneRecordStore[3 + 80 * i]? = some 0xdd := by
  intro i hi
  rw [oneRecordStore_count] at hi
  obtain rfl : i = 0 := by omega
  simp only [oneRecordStore, List.cons_append, List.nil_append, Nat.mul_zero, Nat.add_zero,
    List.getElem?_cons_succ, List.getElem?_cons_zero]

theorem oneRecordStore_distinct :
    ∀ i j, i < oneRecordStore.getD 2 0 → j < oneRecordStore.getD 2 0 → i ≠ j →
      (decodeRecord oneRecordStore i).name ≠ (decodeRecord oneRecordStore j).name := by
  intro i j hi hj hij
  rw [oneRecordStore_count] at hi hj
  omega

theorem oneRecordStore_ranges :
    ∀ i, i < oneRecordStore.getD 2 0 → 0 ≤ (decodeRecord oneRecordStore i).start ∧
      (decodeRecord oneRecordStore i).start ≤ (decodeRecord oneRecordStore i).end_ ∧
      (decodeRecord oneRecordStore i).end_ ≤ oneRecordStore.length := by
  intro i hi
  rw [oneRecordStore_count] at hi
  obtain rfl : i = 0 := by omega
  rw [decodeRecord_oneRecordStore, length_oneRecordStore]
  decide

theorem md5sum_oneRecordStore (p : Nat) :
    md5sum sampleMd5 { decodedOneRecord with file := ⟨oneRecordStore, 1, p⟩ } =
      some (List.replicate 16 83, decodedOneRecord) := by
  have hfl : fileInfoList { decodedOneRecord with file := ⟨oneRecordStore, 1, p⟩ } =
      [⟨0, [97], 24576, 24576⟩] := rfl
  have hv : validMetaDataSize { decodedOneRecord with file := ⟨oneRecordStore, 1, p⟩ } = 83 := rfl
  have hl : (readAt oneRecordStore 0 83).length = 83 := by
    rw [length_readAt, length_oneRecordStore]; rfl
  unfold md5sum
  rw [hfl, hv]
  simp only [decodedOneRecord, QFile.isOpen, show ((1 : Nat) != 0) = true from rfl, Bool.not_true,
    Bool.false_eq_true, if_false, seek_eq _ _ _ _ (show (1 : Nat) ≠ 0 by decide) (le_refl (0 : Int)),
    read_ro oneRecordStore _ 83 (by decide), show Int.toNat 0 = 0 from rfl,
    show Int.toNat 83 = 83 from rfl, md5Entries, md5Entry,
    seek_eq _ _ _ _ (show (1 : Nat) ≠ 0 by decide) (show (0 : Int) ≤ 24576 by decide),
    show Int.toNat 24576 = 24576 from rfl]
  have hloop : ∀ acc : QByteArray, sampleLoop (((24576 : Int) - ((24576 : Nat) : Int)).toNat + 1)
      ⟨oneRecordStore, 1, 24576⟩ 24576 acc = some (⟨oneRecordStore, 1, 24576⟩, acc) := by
    intro acc
    rw [show ((24576 : Int) - ((24576 : Nat) : Int)).toNat + 1 = 0 + 1 from rfl, sampleLoop]
    exact if_neg (by decide)
  have hr0 : ∀ (bs : QByteArray) (q : Nat), readAt bs q 0 = [] := fun bs q => List.take_zero _
  have hz : (24576 : Int) - ((24576 : Nat) : Int) = 0 := by decide
  rw [hloop]
  simp only [hz, read_ro oneRecordStore 24576 0 (le_refl _), show Int.toNat 0 = 0 from rfl, hr0,
    List.length_nil, Nat.add_zero, List.append_nil, sampleMd5, hl]

theorem digestRead_oneRecordStore :
    digestRead newEngine oneRecordStore =
      { decodedOneRecord with file := ⟨oneRecordStore, 1, 3 + 80 * oneRecordStore.getD 2 0 + 16⟩ } := by
  have h2 : oneRecordStore.getD 2 0 = 0 + 1 := rfl
  have h0 : oneRecordStore.getD 3 0 = 0xdd := rfl
  have hn : fromUtf8 (readAt oneRecordStore (3 + 1) 63) = [97] := rfl
  have hs : decodeI64 (readAt oneRecordStore (3 + 64) 8) = 24576 := by decide
  have he : decodeI64 (readAt oneRecordStore (3 + 72) 8) = 24576 := by decide
  have h1 : oneRecordStore.getD 1 0 = 1 := rfl
  rw [digestRead, h2, decodeEntries_succ oneRecordStore 0 0 3 _ rfl
    (by rw [length_oneRecordStore]; decide), h0, hn, hs, he, decodeEntries, headerRead, h1]
  rfl

theorem md5sum_digestRead_oneRecordStore :
    md5sum sampleMd5 (digestRead newEngine oneRecordStore) =
      some (List.replicate 16 83, decodedOneRecord) := by
  rw [digestRead_oneRecordStore]
  exact md5sum_oneRecordStore _

theorem oneRecordStore_marker : oneRecordStore[0]? = some 0xdd := by
  simp only [oneRecordStore, List.cons_append, List.getElem?_cons_zero]

theorem oneRecordStore_version : oneRecordStore[1]? = some 1 := by
  simp only [oneRecordStore, List.cons_append, List.getElem?_cons_succ, List.getElem?_cons_zero]

/-! ### Sessions in the open modes built from `ReadOnly`, `WriteOnly` and `Append` -/

/-- Claim C1, round trip.  On a container created in an empty file, for every entry
name of 1 to 63 bytes without a zero byte and every byte string `B`:
`open(name, WriteOnly)`, `write(B)`, `close()` succeed, and `setFile` of a new engine
over the resulting store succeeds with `isValid()`, `size(name) = |B|`, and
`open(name, ReadOnly)` followed by `read(|B|)` returns exactly `B`.  The digest
primitive is any function with 16-byte results; `24576 + |B|` fits a `qint64`. -/
theorem roundtrip_fresh_entry (md5 : QByteArray → QByteArray)
    (hmd5 : ∀ x, (md5 x).length = 16) (fileName : String)
    (hfn : endsWith fileName ".dim" = true) (name : QString)
    (h1 : 1 ≤ name.length) (h63 : name.length ≤ 63) (h0 : 0 ∉ name)
    (B : QByteArray) (hB : 24576 + (B.length : Int) < 2 ^ 63) :
    ∃ d0 d1 d2 d3 e e1 e2,
      setFile md5 newEngine fileName [] = some (true, d0) ∧
      open_ d0 name WriteOnly = (true, d1) ∧
      write d1 B = ((B.length : Int), d2) ∧
      close md5 d2 = some (true, d3) ∧
      setFile md5 newEngine fileName d3.file.bytes = some (true, e) ∧
      isValid e = true ∧
      size e name = B.length ∧
      open_ e name ReadOnly = (true, e1) ∧
      read e1 B.length = ((B.length : Int), B, e2) := by
  have hd0 := setFile_fresh md5 fileName hfn
  have hnew : name ∉ freshEngine.fileMap.map Prod.fst := by simp [freshEngine]
  have hw := isWritable_new freshEngine name hnew
  obtain ⟨d1, ho, hs1, -, -⟩ := open_writable freshEngine tableInv_fresh rfl name h63 hw
  have ho2 := open_new freshEngine name rfl rfl h63 hnew (by decide)
  rw [ho] at ho2
  simp only [Prod.mk.injEq, true_and] at ho2
  have hF1 := addFileBytes_fresh name
  have hs : metaDataSize + fileDataSize freshEngine = 24576 := rfl
  have hni : newInfo freshEngine name = ⟨0, name, 24576, 24576⟩ := rfl
  rw [hF1, hs, hni] at ho2
  simp only [freshEngine, List.nil_append, show Int.toNat 24576 = 24576 from rfl] at ho2
  obtain ⟨hwlen, hs2, -⟩ := write_session d1 name B hs1
  have hne : name ≠ [] := by
    intro h; rw [h] at h1; simp at h1
  obtain ⟨bs1, acc, q, hcl, -, hsum, hbs⟩ := close_session md5 _ name hs2
  have hwr : (write d1 B).2 = ⟨true, ⟨writeAt d1.file.bytes 24576 B, 3, 24576 + B.length⟩, 0,
      [(name, ⟨0, name, 24576, 24576 + (B.length : Int)⟩)], name⟩ := by
    rw [ho2]
    simp only [write, write_rw, QHash.value, QHash.find, if_true, Option.getD_some, QHash.insert]
    have hmax : max (24576 : Int) ((24576 + B.length : Nat) : Int) = 24576 + (B.length : Int) := by
      push_cast; omega
    rw [hmax]
  rw [hwr] at hcl hsum hbs
  have hb1 := hbs hne (by
    intro init info hm
    cases init with
    | nil => simp only [List.nil_append, List.cons.injEq, Prod.mk.injEq, and_true, true_and] at hm
             rw [← hm]; rfl
    | cons x xs =>
      have := congrArg List.length hm
      simp at this) [] ⟨0, name, 24576, 24576 + (B.length : Int)⟩ rfl
  simp only [ho2] at hb1
  have hoff : (3 + ((1 : Nat) : Int) * 80 - 8).toNat = 75 := rfl
  simp only [List.length_singleton, hoff] at hb1
  have hv : (validMetaDataSize (⟨true, ⟨writeAt d1.file.bytes 24576 B, 3, 24576 + B.length⟩, 0,
      [(name, ⟨0, name, 24576, 24576 + (B.length : Int)⟩)], name⟩ : DVirtualImageFileIOPrivate)).toNat
      = 83 := rfl
  rw [hv] at hcl
  have hstore : writeAt bs1 83 (md5 acc) = oneEntryStore freshStore name B (md5 acc) := by
    rw [hb1]; rfl
  rw [hstore] at hcl
  obtain ⟨r0, r1, r2, r3, r4, r5, r6, r7, r8, r9⟩ :=
    oneEntryStore_reads freshStore name B (md5 acc) length_freshStore h63 (hmd5 acc)
  rw [show readAt freshStore 0 1 = [221] from rfl] at r1
  rw [show readAt freshStore 1 1 = [1] from rfl] at r2
  have hlen1 : 24576 + B.length ≤ bs1.length := by
    rw [hb1]; simp only [length_writeAt, length_freshStore]; omega
  clear hb1 hbs hs2 hs1 hF1
  generalize hF : oneEntryStore freshStore name B (md5 acc) = F at *
  have hinfo : decodeI64 (encodeI64 (24576 + (B.length : Int))) = 24576 + (B.length : Int) :=
    decodeI64_encodeI64 _ (by omega) hB
  have hinfo0 : decodeI64 (encodeI64 24576) = 24576 := decodeI64_encodeI64 _ (by norm_num) (by norm_num)
  have hname := fromUtf8_padded name (63 - name.length) h0
  have hmd := md5sum_spec md5 24576
    ⟨true, ⟨bs1, 3, 0⟩, 0, [(name, ⟨0, name, 24576, 24576 + (B.length : Int)⟩)], name⟩
    ⟨false, ⟨F, 1, 99⟩, 1, [(name, ⟨0, name, 24576, 24576 + (B.length : Int)⟩)], []⟩
    bs1 F 3 1 0 99 rfl rfl rfl (by decide) (by decide)
    (by rw [← hstore]; exact (take_writeAt bs1 83 (md5 acc) 83 (le_refl _) (by omega)).symm)
    (by rw [← hstore]; exact (drop_writeAt bs1 83 (md5 acc) 24576 (by rw [hmd5]; decide)).symm)
    (by
      intro x hx
      have hx2 : x = ⟨0, name, 24576, 24576 + (B.length : Int)⟩ := by
        simpa [fileInfoList, default] using hx
      rw [hx2]
      exact ⟨by norm_num, by push_cast; omega⟩)
  obtain ⟨acc2, q2, hm1, hm2⟩ := hmd
  rw [hsum] at hm1
  simp only [Option.some.injEq, Prod.mk.injEq] at hm1
  rw [← hm1.1] at hm2
  have hdec : setFile md5 newEngine fileName F = some (true,
      ⟨true, ⟨F, 0, 0⟩, 1, [(name, ⟨0, name, 24576, 24576 + (B.length : Int)⟩)], []⟩) := by
    have hpos : (0 : Int) < ((F.length : Nat) : Int) := by omega
    have hsz : ¬ (((F.length : Nat) : Int) < metaDataSize) := by
      simp only [metaDataSize]; omega
    have hsz2 : ¬ (((F.length : Nat) : Int) < 3 + ((1 : Nat) : Int) * 80) := by omega
    have hlen63 : (name ++ List.replicate (63 - name.length) 0).length = 63 := by
      simp only [List.length_append, List.length_replicate]; omega
    simp only [setFile, newEngine, QFile.isOpen, hfn, QFile.size, open_closed_ro, QFile.getU8,
      QFile.getI64, read_ro _ _ _ (show (0 : Int) ≤ 1 by decide),
      read_ro _ _ _ (show (0 : Int) ≤ 63 by decide), read_ro _ _ _ (show (0 : Int) ≤ 8 by decide),
      read_ro _ _ _ (show (0 : Int) ≤ 16 by decide),
      show Int.toNat 1 = 1 from rfl, show Int.toNat 63 = 63 from rfl, show Int.toNat 8 = 8 from rfl,
      show Int.toNat 16 = 16 from rfl,
      r1, r2, r3, r4, r5, r6, r7, r8, hlen63, length_encodeI64, hmd5, List.length_cons,
      List.length_nil, Nat.zero_add, Nat.reduceAdd, List.headD_cons, decodeEntries, hname, hinfo,
      hinfo0, QHash.insert, hm2, QFile.close, if_true, bne_self_eq_false, Bool.not_true,
      Bool.false_eq_true, if_false, gt_iff_lt, hpos, hsz, hsz2]
  have hopen : open_ ⟨true, ⟨F, 0, 0⟩, 1, [(name, ⟨0, name, 24576, 24576 + (B.length : Int)⟩)], []⟩
      name ReadOnly = (true,
        ⟨true, ⟨F, 1, 24576⟩, 1, [(name, ⟨0, name, 24576, 24576 + (B.length : Int)⟩)], name⟩) := by
    simp only [open_, QFile.isOpen, isValid, existes, QHash.contains, QHash.find, if_true,
      Option.isSome_some, testFlag, NotOpen, ReadOnly, WriteOnly, Append, QHash.value,
      Option.getD_some]
    simp only [show ((0 : Nat) != 0) = false from rfl,
      show ((1 : Nat) &&& (2 ||| 4) != 0) = false from rfl,
      show ((1 : Nat) &&& 0 == 0 && (0 != 0 || 1 == 0)) = false from rfl,
      show ((1 : Nat) ||| 1) = 1 from rfl, open_closed_ro,
      Bool.false_and, Bool.not_false, Bool.not_true, Bool.true_and, Bool.or_self,
      Bool.false_eq_true, if_false, seek_eq _ _ _ _ (show (1 : Nat) ≠ 0 by decide)
        (show (0 : Int) ≤ 24576 by decide)]
    rw [if_neg (by decide), show QFile.open_ ⟨F, 0, 0⟩ 1 = (true, ⟨F, 1, 0⟩) from rfl]
    simp only [seek_eq _ _ _ _ (show (1 : Nat) ≠ 0 by decide) (show (0 : Int) ≤ 24576 by decide)]
    rfl
  have hread : read ⟨true, ⟨F, 1, 24576⟩, 1, [(name, ⟨0, name, 24576, 24576 + (B.length : Int)⟩)], name⟩
      B.length = ((B.length : Int), B,
        ⟨true, ⟨F, 1, 24576 + B.length⟩, 1, [(name, ⟨0, name, 24576, 24576 + (B.length : Int)⟩)],
          name⟩) := by
    have hmin : min ((B.length : Nat) : Int) (24576 + (B.length : Int) - ((24576 : Nat) : Int))
        = (B.length : Int) := by push_cast; omega
    simp only [read, QHash.value, QHash.find, if_true, Option.getD_some, hmin, QFile.readInto,
      QFile.readable, Int.toNat_ofNat, r9]
    rfl
  refine ⟨freshEngine, d1, _, _, _, _, _, hd0, ho, ?_, hcl, hdec, rfl, ?_, hopen, hread⟩
  · rw [← hwr, ← hwlen]
  · simp only [size, QHash.contains, QHash.find, QHash.value, if_true, Option.isSome_some,
      Bool.not_true, Bool.false_eq_true, if_false, Option.getD_some]
    rw [wrapI64_of_range _ (by omega) (by omega)]
    omega

/-- Claim C1 at a concrete input: the entry `a.bin` of the container `c.dim` with
content `[1, 2, 3, 4]`. -/
theorem roundtrip_fresh_entry_witness :
    ∃ d0 d1 d2 d3 e e1 e2,
      setFile sampleMd5 newEngine "c.dim" [] = some (true, d0) ∧
      open_ d0 [97, 46, 98, 105, 110] WriteOnly = (true, d1) ∧
      write d1 [1, 2, 3, 4] = ((([1, 2, 3, 4] : QByteArray).length : Int), d2) ∧
      close sampleMd5 d2 = some (true, d3) ∧
      setFile sampleMd5 newEngine "c.dim" d3.file.bytes = some (true, e) ∧
      isValid e = true ∧
      size e [97, 46, 98, 105, 110] = ([1, 2, 3, 4] : QByteArray).length ∧
      open_ e [97, 46, 98, 105, 110] ReadOnly = (true, e1) ∧
      read e1 ([1, 2, 3, 4] : QByteArray).length =
        ((([1, 2, 3, 4] : QByteArray).length : Int), [1, 2, 3, 4], e2) :=
  roundtrip_fresh_entry sampleMd5 length_sampleMd5 "c.dim" (by decide) [97, 46, 98, 105, 110]
    (by decide) (by decide) (by decide) [1, 2, 3, 4] (by decide)

/-- Claim C3, append-only allocation.  For every list of at most 255 pairwise distinct
names of at most 63 bytes, each added to a new container by `addFile` and optionally
filled by a write session before the next is added, all operations return and the
table listed by index holds the names in order, the entry at position `i` has index
`i`, the first entry starts at 24576 and every later entry starts at the end of the
entry before it. -/
theorem append_only_allocation (md5 : QByteArray → QByteArray) (fileName : String)
    (hfn : endsWith fileName ".dim" = true)
    (items : List (QString × Option (List QByteArray)))
    (hcount : items.length ≤ 255) (hdistinct : (items.map Prod.fst).Nodup)
    (hlen : ∀ it ∈ items, it.1.length ≤ 63) :
    ∃ d0 d, setFile md5 newEngine fileName [] = some (true, d0) ∧
      run md5 (fillOps items) d0 = some d ∧
      (fileInfoList d).map FileInfo.name = items.map Prod.fst ∧
      (∀ (i : Nat) x, (fileInfoList d)[i]? = some x → x.index = i) ∧
      (∀ x, (fileInfoList d)[0]? = some x → x.start = 24576) ∧
      (∀ (i : Nat) x y, (fileInfoList d)[i]? = some x → (fileInfoList d)[i + 1]? = some y →
        y.start = x.end_) := by
  obtain ⟨hok, hkeys⟩ := fillOps_ok items [] hlen hdistinct (by simp)
  obtain ⟨d, hrun, hinv, -, hk⟩ := run_spec md5 (fillOps items) freshEngine tableInv_fresh rfl hok
  have hk2 : d.fileMap.map Prod.fst = items.map Prod.fst := by
    rw [hk]; exact hkeys
  have hn : d.fileMap.length = items.length := by
    have := congrArg List.length hk2
    simpa using this
  have hfl := fileInfoList_eq d hinv (by omega)
  have hch := chain_getElem _ 24576 hinv.chain
  refine ⟨freshEngine, d, setFile_fresh md5 fileName hfn, hrun, ?_, ?_, ?_, ?_⟩
  · rw [hfl, ← hk2, List.map_map]
    apply List.map_congr_left
    intro p hp
    exact hinv.name p hp
  · intro i x hx
    rw [hfl, List.getElem?_map] at hx
    cases hp : d.fileMap[i]? with
    | none => rw [hp] at hx; simp at hx
    | some p =>
      rw [hp] at hx
      simp only [Option.map_some', Option.some.injEq] at hx
      have hi : i < d.fileMap.length := by
        by_contra hc
        rw [List.getElem?_eq_none (by omega)] at hp
        exact Option.noConfusion hp
      have := hinv.index i p (by simpa [List.get?_eq_getElem?] using hp)
      rw [← hx, this]
      exact Nat.mod_eq_of_lt (by omega)
  · rw [hfl]; exact hch.1
  · rw [hfl]; exact hch.2

/-- Claim C3 at a concrete input: the entries `a`, `b`, `c`, of which `a` and `c` are
filled. -/
theorem append_only_allocation_witness :
    ∃ d0 d, setFile sampleMd5 newEngine "c.dim" [] = some (true, d0) ∧
      run sampleMd5 (fillOps [([97], some [[1, 2, 3]]), ([98], none), ([99], some [[7], [8, 9]])])
        d0 = some d ∧
      (fileInfoList d).map FileInfo.name =
        ([([97], some [[1, 2, 3]]), ([98], none), ([99], some [[7], [8, 9]])] :
          List (QString × Option (List QByteArray))).map Prod.fst ∧
      (∀ (i : Nat) x, (fileInfoList d)[i]? = some x → x.index = i) ∧
      (∀ x, (fileInfoList d)[0]? = some x → x.start = 24576) ∧
      (∀ (i : Nat) x y, (fileInfoList d)[i]? = some x → (fileInfoList d)[i + 1]? = some y →
        y.start = x.end_) :=
  append_only_allocation sampleMd5 "c.dim" (by decide)
    [([97], some [[1, 2, 3]]), ([98], none), ([99], some [[7], [8, 9]])] (by decide) (by decide)
    (by decide)

/-- Claim C4.  For every engine state, every existing entry `e` whose index is not
`entryCount - 1` and every mode with `WriteOnly` or `Append` set, `open(e, mode)`
returns false and leaves the engine (entry table, open cursor, store) unchanged. -/
theorem open_for_write_rejects_earlier_entry (d : DVirtualImageFileIOPrivate) (e : QString)
    (mode : Nat) (hex : existes d e = true)
    (hidx : ((d.fileMap.value e).index : Int) ≠ d.fileMap.count - 1)
    (hmode : mode &&& (WriteOnly ||| Append) ≠ 0) :
    open_ d e mode = (false, d) := by
  apply open_not_writable d e mode hmode
  simp only [isWritable, hex, Bool.not_true, Bool.false_eq_true, if_false, beq_eq_false_iff_ne, ne_eq]
  exact hidx

/-- Claim C4 at a concrete input: the entry `a` of a container holding `a` and `b`,
opened `WriteOnly`. -/
theorem open_for_write_rejects_earlier_entry_witness :
    open_ twoEntryEngine [97] WriteOnly = (false, twoEntryEngine) :=
  open_for_write_rejects_earlier_entry twoEntryEngine [97] WriteOnly
    (by simp only [existes, twoEntryEngine_fileMap]; decide)
    (by simp only [twoEntryEngine_fileMap]; decide) (by decide)

/-- Claim C5 fails as stated: on a new container the name `x` is not in the table,
yet `isWritable("x")` is true and `setSize("x", 5)` returns true, after which the
table holds an entry under `x` with index 0 and range `[0, 5)`. -/
theorem setSize_absent_name_succeeds :
    ∃ d0, setFile sampleMd5 newEngine "c.dim" [] = some (true, d0) ∧
      existes d0 [120] = false ∧ isWritable d0 [120] = true ∧
      (setSize d0 [120] 5).1 = true ∧
      (setSize d0 [120] 5).2.fileMap = [([120], ⟨0, [], 0, 5⟩)] := by
  refine ⟨freshEngine, setFile_fresh sampleMd5 "c.dim" (by decide), rfl, rfl, ?_, ?_⟩
  · rw [setSize_spec freshEngine [120] 5 rfl (by decide) rfl]
  · rw [setSize_spec freshEngine [120] 5 rfl (by decide) rfl]
    rfl

/-- Claim C5, amended.  `isWritable(e)` is true exactly when `e` is absent from the
table or its index is `entryCount - 1`; `setSize(e, newSize)` returns false and
leaves the engine unchanged when `e` is in the table with another index or when
`newSize` is negative; and it succeeds only if `e` is writable and `newSize` is not
negative. -/
theorem setSize_guard (d : DVirtualImageFileIOPrivate) (e : QString) (sz : Int) :
    (isWritable d e = true ↔
      (existes d e = false ∨ ((d.fileMap.value e).index : Int) = d.fileMap.count - 1)) ∧
    (((existes d e = true ∧ ((d.fileMap.value e).index : Int) ≠ d.fileMap.count - 1) ∨ sz < 0) →
      setSize d e sz = (false, d)) ∧
    ((setSize d e sz).1 = true → isWritable d e = true ∧ 0 ≤ sz) := by
  have hiff : isWritable d e = true ↔
      (existes d e = false ∨ ((d.fileMap.value e).index : Int) = d.fileMap.count - 1) := by
    cases hex : existes d e <;> simp [isWritable, hex]
  refine ⟨hiff, ?_, ?_⟩
  · intro h
    unfold setSize
    by_cases hw : isWritable d e = true
    · rcases h with ⟨h1, h2⟩ | h
      · rcases hiff.1 hw with h3 | h3
        · rw [h1] at h3; exact absurd h3 (by decide)
        · exact absurd h3 h2
      · simp [hw, h]
    · simp [hw]
  · intro h
    unfold setSize at h
    by_cases hw : isWritable d e = true
    · refine ⟨hw, ?_⟩
      by_contra hneg
      simp [hw, lt_of_not_ge hneg] at h
    · simp [hw] at h

/-- Claim C5, amended, at a concrete input: `setSize("a", 5)` on a container holding
`a` and `b` returns false and changes nothing, and `a` is not writable. -/
theorem setSize_guard_witness :
    setSize twoEntryEngine [97] 5 = (false, twoEntryEngine) ∧
      isWritable twoEntryEngine [97] = false :=
  have hex : existes twoEntryEngine [97] = true := by
    simp only [existes, twoEntryEngine_fileMap]; decide
  have hidx : ((twoEntryEngine.fileMap.value [97]).index : Int) ≠
      twoEntryEngine.fileMap.count - 1 := by
    simp only [twoEntryEngine_fileMap]; decide
  have hg := setSize_guard twoEntryEngine [97] 5
  ⟨hg.2.1 (Or.inl ⟨hex, hidx⟩), by
    cases hw : isWritable twoEntryEngine [97] with
    | false => rfl
    | true =>
      rcases hg.1.1 hw with h | h
      · rw [hex] at h; exact absurd h (by decide)
      · exact absurd h hidx⟩

/-- Claim C6 on the code: on a new container `addFile` with a 64-byte name returns
false, but it has already replaced the byte at offset 3, the first byte `0x21` of the
stored digest, by the marker `0xdd`. -/
theorem addFile_long_name_writes_marker (md5 : QByteArray → QByteArray) :
    ∃ d0, setFile md5 newEngine "c.dim" [] = some (true, d0) ∧
      (addFile d0 (List.replicate 64 97)).1 = false ∧
      readAt d0.file.bytes 3 1 = [0x21] ∧
      readAt (addFile d0 (List.replicate 64 97)).2.file.bytes 3 1 = [0xdd] := by
  have hlen : 63 < (List.replicate 64 97 : QString).length := by
    rw [List.length_replicate]; decide
  have h : addFile freshEngine (List.replicate 64 97) = (false, { freshEngine with file :=
      ⟨writeAt freshStore 3 [0xdd], 0, 0⟩ }) :=
    addFile_long freshEngine (List.replicate 64 97) rfl hlen
  have hb : (addFile freshEngine (List.replicate 64 97)).2.file.bytes
      = writeAt freshStore 3 [0xdd] := congrArg (fun r => r.2.file.bytes) h
  have h21 : readAt freshStore 3 1 = [0x21] := rfl
  refine ⟨freshEngine, setFile_fresh md5 "c.dim" (by decide), congrArg Prod.fst h, h21, ?_⟩
  rw [hb]
  exact readAt_writeAt_same freshStore 3 [0xdd]

/-- Claim C7 on the code: after the 255 entries `[1]`, ..., `[255]` have been added to
a new container (count byte 255), `addFile` of a 256th entry returns true, the table
has 256 entries and the count byte at offset 2 is 0. -/
theorem addFile_256th_entry_succeeds (md5 : QByteArray → QByteArray) :
    ∃ d0 d254 d255, setFile md5 newEngine "c.dim" [] = some (true, d0) ∧
      run md5 (fillOps ((byteNames 254).map (fun n => (n, none)))) d0 = some d254 ∧
      addFile d254 [255] = (true, d255) ∧
      d255.fileMap.length = 255 ∧ readAt d255.file.bytes 2 1 = [255] ∧
      (addFile d255 [1, 1]).1 = true ∧
      (addFile d255 [1, 1]).2.fileMap.length = 256 ∧
      readAt (addFile d255 [1, 1]).2.file.bytes 2 1 = [0] := by
  have hnames := fillOps_none_names (byteNames 254)
  obtain ⟨hok, hkeys⟩ := fillOps_ok ((byteNames 254).map (fun n => (n, none))) []
    (by
      intro it hit
      obtain ⟨n, hn, rfl⟩ := List.mem_map.1 hit
      obtain ⟨i, -, rfl⟩ := List.mem_map.1 hn
      simp)
    (by rw [hnames]; exact byteNames_nodup 254) (by simp)
  obtain ⟨d, hrun, hinv, hc, hk⟩ := run_spec md5 _ freshEngine tableInv_fresh rfl hok
  have hk0 : List.map Prod.fst freshEngine.fileMap = [] := rfl
  rw [hk0, hkeys, hnames, List.nil_append] at hk
  have hlen : d.fileMap.length = 254 := by
    have := congrArg List.length hk
    simpa [byteNames_length] using this
  have hnew : ([255] : QString) ∉ d.fileMap.map Prod.fst := by
    rw [hk]
    intro hmem
    obtain ⟨i, hi, hi2⟩ := List.mem_map.1 hmem
    simp only [List.mem_range] at hi
    simp only [List.cons.injEq, and_true] at hi2
    omega
  have h1 := addFile_spec d [255] hc (by decide)
  rw [QHash.insert_of_not_mem _ _ _ hnew] at h1
  have hnew2 : ([1, 1] : QString) ∉
      (d.fileMap ++ [(([255] : QString), newInfo d [255])]).map Prod.fst := by
    rw [List.map_append, hk]
    intro hmem
    rcases List.mem_append.1 hmem with hmem | hmem
    · obtain ⟨i, -, hi2⟩ := List.mem_map.1 hmem
      simp at hi2
    · simp at hmem
  have h2 := addFile_spec
    { d with file := ⟨addFileBytes d [255], 0, 0⟩,
             fileMap := d.fileMap ++ [(([255] : QString), newInfo d [255])] } [1, 1] rfl (by decide)
  rw [QHash.insert_of_not_mem _ _ _ hnew2] at h2
  refine ⟨freshEngine, d, _, setFile_fresh md5 "c.dim" (by decide), hrun, h1, ?_, ?_, ?_, ?_, ?_⟩
  · simp [hlen]
  · simp only [addFileBytes, QHash.insert_of_not_mem _ _ _ hnew, List.length_append, hlen,
      List.length_singleton]
    exact readAt_writeAt_same _ 2 [255]
  · rw [h2]
  · rw [h2]; simp [hlen]
  · rw [h2]
    simp only [addFileBytes, QHash.insert_of_not_mem _ _ _ hnew2, List.length_append, hlen,
      List.length_singleton]
    exact readAt_writeAt_same _ 2 [0]

/-- Claim C8 on the code: on a new container with the entry `a` open for writing,
`rename("a", "b")` returns true, but afterwards `b` is not in the table, which is
empty. -/
theorem rename_drops_entry (md5 : QByteArray → QByteArray) :
    ∃ d0 d1, setFile md5 newEngine "c.dim" [] = some (true, d0) ∧
      open_ d0 [97] WriteOnly = (true, d1) ∧
      existes d1 [97] = true ∧ d1.fileMap.length = 1 ∧
      (rename d1 [97] [98]).1 = true ∧
      existes (rename d1 [97] [98]).2 [98] = false ∧
      (rename d1 [97] [98]).2.fileMap = [] := by
  have hex : existes openedFresh [97] = true := rfl
  have hfm := rename_fileMap openedFresh [97] [98] hex
  refine ⟨freshEngine, openedFresh, setFile_fresh md5 "c.dim" (by decide), open_fresh_a, hex, rfl,
    ?_, ?_, ?_⟩
  · simp only [rename, hex, openedFresh, QHash.take, QHash.value, QHash.find, if_true,
      Bool.not_true, Bool.false_eq_true, if_false, Option.getD_some,
      seek_rw _ _ _ (show (0 : Int) ≤ 3 + ((0 : Nat) : Int) * 80 + 1 by decide), toUtf8]
    rfl
  · simp only [existes, hfm]
    rfl
  · rw [hfm]
    rfl

/-- Claim C9 on the code: on a new container with the entry `a` open for writing,
`rename` of `a` to a 64-byte name returns false, but the entry `a` is no longer in
the table afterwards. -/
theorem rename_failure_drops_entry (md5 : QByteArray → QByteArray) :
    ∃ d0 d1, setFile md5 newEngine "c.dim" [] = some (true, d0) ∧
      open_ d0 [97] WriteOnly = (true, d1) ∧
      existes d1 [97] = true ∧
      (rename d1 [97] (List.replicate 64 98)).1 = false ∧
      existes (rename d1 [97] (List.replicate 64 98)).2 [97] = false := by
  have hex : existes openedFresh [97] = true := rfl
  have hfm := rename_fileMap openedFresh [97] (List.replicate 64 98) hex
  refine ⟨freshEngine, openedFresh, setFile_fresh md5 "c.dim" (by decide), open_fresh_a, hex,
    ?_, ?_⟩
  · simp only [rename, hex, openedFresh, QHash.take, QHash.value, QHash.find, if_true,
      Bool.not_true, Bool.false_eq_true, if_false, Option.getD_some,
      seek_rw _ _ _ (show (0 : Int) ≤ 3 + ((0 : Nat) : Int) * 80 + 1 by decide), toUtf8,
      List.length_replicate]
    rfl
  · simp only [existes, hfm]
    rfl

/-- Claim C10 on the code: after `open("a", WriteOnly)` on a new container and
`close()`, which returns true, `isOpen("a")` is still true; `pos()` is `-1`. -/
theorem close_keeps_cursor (md5 : QByteArray → QByteArray) :
    ∃ d0 d1 d3, setFile md5 newEngine "c.dim" [] = some (true, d0) ∧
      open_ d0 [97] WriteOnly = (true, d1) ∧
      close md5 d1 = some (true, d3) ∧ isOpen d3 [97] = true ∧ pos d3 = -1 := by
  obtain ⟨d1, ho, hs, -, -⟩ := open_writable freshEngine tableInv_fresh rfl [97] (by decide)
    (isWritable_new freshEngine [97] (by simp [freshEngine]))
  obtain ⟨bs1, acc, q, hcl, -, -, -⟩ := close_session md5 d1 [97] hs
  have ho2 := open_fresh_a
  rw [ho] at ho2
  simp only [Prod.mk.injEq, true_and] at ho2
  have hfm : d1.fileMap = [([97], ⟨0, [97], 24576, 24576⟩)] := by rw [ho2]; rfl
  refine ⟨freshEngine, d1, _, setFile_fresh md5 "c.dim" (by decide), ho, hcl, ?_, ?_⟩
  · simp [isOpen, hs.opened]
  · simp only [pos, hs.opened, hfm, QHash.value, QHash.find, if_true, Option.getD_some,
      List.isEmpty]
    decide

/-- Claim C11 fails as stated: the store `blankStore` is well formed (24576 bytes,
marker `0xdd`, version 1, no entry record) and its digest slot holds 16 zero bytes,
while the digest computed over its three header bytes is not zero (16 bytes `0x03`
with the digest function `sampleMd5`); `setFile` returns false and leaves `isValid()`
false. -/
theorem setFile_digest_mismatch_rejected :
    blankStore.length = 24576 ∧ blankStore[0]? = some 0xdd ∧ blankStore[1]? = some 1 ∧
      blankStore.getD 2 0 = 0 ∧ readAt blankStore 3 16 = List.replicate 16 0 ∧
      md5sum sampleMd5 (digestRead newEngine blankStore) =
        some (List.replicate 16 3, decodedBlank) ∧
      List.replicate 16 0 ≠ (List.replicate 16 3 : QByteArray) ∧
      setFile sampleMd5 newEngine "c.dim" blankStore = some (false, decodedBlank) ∧
      isValid decodedBlank = false :=
  ⟨length_blankStore, blankStore_marker, blankStore_version, rfl, rfl,
    md5sum_digestRead_blankStore, by decide,
    (setFile_of_mismatch sampleMd5 newEngine "c.dim" blankStore rfl (by decide)
      (le_of_eq length_blankStore.symm) blankStore_marker blankStore_version (by decide)
      (fun i hi => absurd hi (Nat.not_lt_zero i)) (sampleMd5 [0xdd, 1, 0]) _
      md5sum_digestRead_blankStore (by decide)).1, rfl⟩

/-- Claim C11, amended.  A digest mismatch on open prevents opening.  For every store
that is structurally well formed (length at least 24576, marker `0xdd`, version 1,
every entry record starting with `0xdd`, the decoded entry names pairwise distinct,
every decoded range `[start, end]` inside the store), read by an engine whose store is
closed and whose table is empty: the table that `setFile` decodes holds the records in
order, so `fileList()` assigns every index `0 .. count - 1` once; the digest is
computed; and when the stored 16-byte digest differs from the computed digest,
`setFile` returns false and leaves the engine invalid (`isValid() == false`), with the
decoded entry table. -/
theorem setFile_digest_mismatch (md5 : QByteArray → QByteArray)
    (d : DVirtualImageFileIOPrivate) (fileName : String) (store : QByteArray)
    (hc : d.file.isOpen = false) (hempty : d.fileMap = [])
    (hfn : endsWith fileName ".dim" = true)
    (hlen : 24576 ≤ store.length) (hmark : store[0]? = some 0xdd) (hver : store[1]? = some 1)
    (hcount : store.getD 2 0 < 256)
    (hrec : ∀ i, i < store.getD 2 0 → store[3 + 80 * i]? = some 0xdd)
    (hdist : ∀ i j, i < store.getD 2 0 → j < store.getD 2 0 → i ≠ j →
      (decodeRecord store i).name ≠ (decodeRecord store j).name)
    (hin : ∀ i, i < store.getD 2 0 → 0 ≤ (decodeRecord store i).start ∧
      (decodeRecord store i).start ≤ (decodeRecord store i).end_ ∧
      (decodeRecord store i).end_ ≤ store.length) :
    fileInfoList (digestRead d store) = (List.range (store.getD 2 0)).map (decodeRecord store) ∧
    ∃ sum d5, md5sum md5 (digestRead d store) = some (sum, d5) ∧
      d5.fileMap = decodedTable store (store.getD 2 0) ∧
      (readAt store (3 + 80 * store.getD 2 0) 16 ≠ sum →
        setFile md5 d fileName store = some (false, d5) ∧ isValid d5 = false) := by
  have htab := digestRead_distinct d store hempty hlen hcount hrec hdist
  have hlist := fileInfoList_decodedTable (digestRead d store) store _ htab
  obtain ⟨sum, d5, hsum⟩ := md5sum_total md5 (digestRead d store) store _ rfl (by
    intro x hx
    rw [hlist, List.mem_map] at hx
    obtain ⟨i, hi, rfl⟩ := hx
    have := hin i (List.mem_range.1 hi)
    exact ⟨this.1, this.2.2⟩)
  refine ⟨hlist, sum, d5, hsum, ?_, ?_⟩
  · rw [(md5sum_frame md5 _ _ _ hsum).2.1, htab]
  · intro hne
    have := setFile_of_mismatch md5 d fileName store hc hfn hlen hmark hver hcount hrec sum d5
      hsum hne
    exact ⟨this.1, this.2.1⟩

/-- Claim C11, amended, at a concrete input: a store with one entry whose digest slot
holds 16 zero bytes, while the digest function `sampleMd5` yields 16 bytes `0x53` for
its 83 header bytes. -/
theorem setFile_digest_mismatch_witness :
    fileInfoList (digestRead newEngine oneRecordStore) = [⟨0, [97], 24576, 24576⟩] ∧
    readAt oneRecordStore (3 + 80 * oneRecordStore.getD 2 0) 16 = List.replicate 16 0 ∧
    md5sum sampleMd5 (digestRead newEngine oneRecordStore) =
      some (List.replicate 16 83, decodedOneRecord) ∧
    setFile sampleMd5 newEngine "c.dim" oneRecordStore = some (false, decodedOneRecord) ∧
    isValid decodedOneRecord = false :=
  have h := setFile_digest_mismatch sampleMd5 newEngine "c.dim" oneRecordStore rfl rfl (by decide)
    (le_of_eq length_oneRecordStore.symm) oneRecordStore_marker oneRecordStore_version (by decide)
    oneRecordStore_records oneRecordStore_distinct oneRecordStore_ranges
  ⟨h.1.trans (by rw [oneRecordStore_count]; exact congrArg (fun x => [x]) decodeRecord_oneRecordStore),
    rfl, md5sum_digestRead_oneRecordStore,
    by
      obtain ⟨sum, d5, hs, -, hf⟩ := h.2
      rw [md5sum_digestRead_oneRecordStore] at hs
      simp only [Option.some.injEq, Prod.mk.injEq] at hs
      obtain ⟨rfl, rfl⟩ := hs
      exact (hf (by decide)).1,
    rfl⟩

/-- Claim C12, decode rejection.  For every non-empty store, `setFile` on an engine
whose store is closed returns false and leaves `isValid()` false if the store is
shorter than 24576 bytes, or its first byte is not `0xdd`, or its version byte is not
1, or some entry record `i` below the entry count does not begin with the marker
`0xdd` at offset `3 + 80 * i`. -/
theorem setFile_rejects_malformed_store (md5 : QByteArray → QByteArray)
    (d : DVirtualImageFileIOPrivate) (fileName : String) (store : QByteArray)
    (hc : d.file.isOpen = false) (hne : store ≠ []) (hcount : store.getD 2 0 < 256)
    (h : store.length < 24576 ∨ store[0]? ≠ some 0xdd ∨ store[1]? ≠ some 1 ∨
      ∃ i, i < store.getD 2 0 ∧ store[3 + 80 * i]? ≠ some 0xdd) :
    ∃ d1, setFile md5 d fileName store = some (false, d1) ∧ isValid d1 = false := by
  have hpos : (0 : Int) < store.length := by
    have := List.length_pos.2 hne
    omega
  by_cases hfn : endsWith fileName ".dim" = true
  swap
  · exact ⟨{ d with isValid := false }, by simp [setFile, hc, hfn], rfl⟩
  by_cases hlen : store.length < 24576
  · have hlt : (store.length : Int) < metaDataSize := by simp only [metaDataSize]; omega
    exact ⟨{ d with isValid := false, file := ⟨store, 0, 0⟩ },
      by simp [setFile, hc, hfn, QFile.size, hpos, hlt], rfl⟩
  have hge : ¬ ((store.length : Int) < metaDataSize) := by simp only [metaDataSize]; omega
  by_cases hmark : store.getD 0 0 = 0xdd
  swap
  · have hb : (store.getD 0 0 != 0xdd) = true := by simpa using hmark
    refine ⟨{ d with isValid := false, file := QFile.close ⟨store, 1, 0 + 1⟩ }, ?_, rfl⟩
    unfold setFile
    simp only [hc, Bool.false_eq_true, if_false, hfn, Bool.not_true, QFile.size, gt_iff_lt,
      hpos, if_true, hge, open_closed_ro ⟨store, 0, 0⟩ rfl, getU8_ro store 0 (by omega), hb]
  by_cases hver : store.getD 1 0 = 1
  swap
  · have hb : (store.getD 1 0 != 1) = true := by simpa using hver
    refine ⟨{ d with isValid := false, version := store.getD 1 0,
                     file := QFile.close ⟨store, 1, 0 + 1 + 1⟩ }, ?_, rfl⟩
    unfold setFile
    simp only [hc, Bool.false_eq_true, if_false, hfn, Bool.not_true, QFile.size, gt_iff_lt,
      hpos, if_true, hge, open_closed_ro ⟨store, 0, 0⟩ rfl, getU8_ro store 0 (by omega),
      getU8_ro store (0 + 1) (by omega), hmark, bne_self_eq_false, hb]
  rcases h with h | h | h | ⟨i, hi, hrec⟩
  · exact absurd h hlen
  · exact absurd hmark (getD_ne_of_getElem? store 0 _ (by omega) h)
  · exact absurd hver (getD_ne_of_getElem? store 1 _ (by omega) h)
  · obtain ⟨h1, h2⟩ := decodeEntries_bad store (store.getD 2 0) 0 (headerRead d store) rfl
      (by omega) ⟨i, Nat.zero_le _, by omega, hrec⟩
    rw [setFile_header md5 d fileName store hc hfn (by omega) hmark hver hcount]
    generalize decodeEntries (store.getD 2 0) 0 (headerRead d store) = r at h1 h2
    obtain ⟨b, d4⟩ := r
    simp only at h1 h2
    subst h1
    exact ⟨d4, rfl, h2⟩

/-- Claim C12 at a concrete input: a store of 24576 bytes with entry count 1 whose
record 0 does not begin with the marker. -/
theorem setFile_rejects_malformed_store_witness :
    ∃ d1, setFile sampleMd5 newEngine "c.dim" badRecordStore = some (false, d1) ∧
      isValid d1 = false :=
  setFile_rejects_malformed_store sampleMd5 newEngine "c.dim" badRecordStore rfl
    badRecordStore_ne_nil (by decide)
    (Or.inr (Or.inr (Or.inr ⟨0, by decide, badRecordStore_record⟩)))

/-- Claim C13 on the code: on a new container `open` with a 64-byte name and mode
`WriteOnly` returns true although `addFile` has failed; the name is the open cursor
but it is not in the entry table, which is empty, so `start(e)` is `-1` while the
store position is 0. -/
theorem open_long_name_returns_true (md5 : QByteArray → QByteArray) :
    ∃ d0 d1, setFile md5 newEngine "c.dim" [] = some (true, d0) ∧
      open_ d0 (List.replicate 64 97) WriteOnly = (true, d1) ∧
      existes d1 (List.replicate 64 97) = false ∧ d1.fileMap = [] ∧
      isOpen d1 (List.replicate 64 97) = true ∧
      start d1 (List.replicate 64 97) = -1 ∧ d1.file.pos = 0 := by
  have hlen : 63 < (List.replicate 64 97 : QString).length := by
    rw [List.length_replicate]; decide
  have h := open_long freshEngine (List.replicate 64 97) rfl rfl hlen (by simp [freshEngine])
  refine ⟨freshEngine, _, setFile_fresh md5 "c.dim" (by decide), h, rfl, rfl, ?_, rfl, rfl⟩
  simp [isOpen]

/-- Claim C14, reads are windowed.  For every engine state whose open entry `e` is in
the table and whose store position `p` is at most `end(e)`, `read` with a length
`len ≥ 0` returns at most `min(len, end(e) - p)` bytes, the returned bytes are the
store bytes at `[p, p + returned)`, the position afterwards is `p + returned` and is
still at most `end(e)`, and the store and the table are unchanged.  When the store is
readable the count returned is the number of bytes, which is `min(len, end(e) - p)`
cut at the end of the store. -/
theorem read_windowed (d : DVirtualImageFileIOPrivate) (len : Int) (hlen : 0 ≤ len)
    (hex : existes d d.openedFile = true) (he : (d.file.pos : Int) ≤ end_ d d.openedFile) :
    (read d len).1 ≤ min len (end_ d d.openedFile - d.file.pos) ∧
    ((read d len).2.1.length : Int) ≤ min len (end_ d d.openedFile - d.file.pos) ∧
    (read d len).2.1 = readAt d.file.bytes d.file.pos (read d len).2.1.length ∧
    (read d len).2.2.file.pos = d.file.pos + (read d len).2.1.length ∧
    ((read d len).2.2.file.pos : Int) ≤ end_ d d.openedFile ∧
    (read d len).2.2.file.bytes = d.file.bytes ∧ (read d len).2.2.fileMap = d.fileMap ∧
    (d.file.readable = true → (read d len).1 = (read d len).2.1.length ∧
      (read d len).2.1.length =
        min (min len (end_ d d.openedFile - d.file.pos)).toNat (d.file.bytes.length - d.file.pos)) := by
  rw [(end_of_existes d d.openedFile hex).1] at he ⊢
  have hn : 0 ≤ min len ((d.fileMap.value d.openedFile).end_ - d.file.pos) := le_min hlen (by omega)
  unfold read
  simp only []
  generalize hnn : min len ((d.fileMap.value d.openedFile).end_ - (d.file.pos : Int)) = n at hn ⊢
  have hne : n ≤ (d.fileMap.value d.openedFile).end_ - d.file.pos := by
    rw [← hnn]; exact min_le_right _ _
  cases hr : d.file.readable with
  | true =>
    rw [readInto_readable d.file n hr hn]
    simp only []
    have hl := length_readAt d.file.bytes d.file.pos n.toNat
    refine ⟨by omega, by omega, (readAt_length_self _ _ _).symm, trivial, ?_, trivial, trivial,
      fun _ => ⟨trivial, hl⟩⟩
    push_cast
    omega
  | false =>
    rw [readInto_unreadable d.file n hr]
    simp only [List.length_nil, Nat.add_zero, Nat.cast_zero]
    refine ⟨by omega, by omega, ?_, trivial, by omega, trivial, trivial, fun h => absurd h (by simp)⟩
    simp [readAt]

/-- Claim C14 at a concrete input: a read of 10 bytes at offset 4 of an entry with
range `[2, 8)`. -/
theorem read_windowed_witness :
    (read tinyEngine 10).2.1 = readAt tinyEngine.file.bytes 4 (read tinyEngine 10).2.1.length ∧
      ((read tinyEngine 10).2.2.file.pos : Int) ≤ 8 :=
  have h := read_windowed tinyEngine 10 (by decide) (by decide) (by decide)
  ⟨h.2.2.1, h.2.2.2.2.1⟩

/-- Claim C15, writes only extend the high-water mark.  For every engine state whose
open entry `e` is in the table and every `write`, the end of `e` afterwards is the
maximum of its end before and the store position after the write, so it does not
decrease; the start, name and index of `e` are unchanged; every other name maps to
the same entry as before; and the names and the number of entries of the table are unchanged. -/
theorem write_extends_end (d : DVirtualImageFileIOPrivate) (data : QByteArray)
    (hex : existes d d.openedFile = true) :
    end_ (write d data).2 d.openedFile =
      max (end_ d d.openedFile) ((write d data).2.file.pos : Int) ∧
    end_ d d.openedFile ≤ end_ (write d data).2 d.openedFile ∧
    start (write d data).2 d.openedFile = start d d.openedFile ∧
    ((write d data).2.fileMap.value d.openedFile).name = (d.fileMap.value d.openedFile).name ∧
    ((write d data).2.fileMap.value d.openedFile).index = (d.fileMap.value d.openedFile).index ∧
    (∀ k, k ≠ d.openedFile → (write d data).2.fileMap.find k = d.fileMap.find k) ∧
    (write d data).2.fileMap.map Prod.fst = d.fileMap.map Prod.fst ∧
    (write d data).2.fileMap.length = d.fileMap.length ∧
    (write d data).2.openedFile = d.openedFile := by
  have hmem := (existes_iff d d.openedFile).1 hex
  have hkeys := QHash.keys_insert_of_mem d.fileMap d.openedFile
    { d.fileMap.value d.openedFile with
      end_ := max (d.fileMap.value d.openedFile).end_ ((d.file.write data).2.pos : Int) } hmem
  have hex1 : existes (write d data).2 d.openedFile = true := by
    rw [existes_iff]
    simp only [write]
    rw [hkeys]
    exact hmem
  have hval : (write d data).2.fileMap.value d.openedFile =
      { d.fileMap.value d.openedFile with
        end_ := max (d.fileMap.value d.openedFile).end_ ((d.file.write data).2.pos : Int) } := by
    simp only [write, QHash.value, QHash.find_insert, if_true, Option.getD_some]
  obtain ⟨e1, s1, -⟩ := end_of_existes d d.openedFile hex
  obtain ⟨e2, s2, -⟩ := end_of_existes (write d data).2 d.openedFile hex1
  rw [e1, e2, s1, s2, hval]
  refine ⟨rfl, le_max_left _ _, rfl, rfl, rfl, ?_, ?_, ?_, rfl⟩
  · intro k hk
    simp only [write, QHash.find_insert, if_neg (Ne.symm hk)]
  · simp only [write]
    exact hkeys
  · have := congrArg List.length hkeys
    simpa [write] using this

/-- Claim C15 at a concrete input: six bytes written at offset 4 of an entry with
range `[2, 8)` move its end to 10. -/
theorem write_extends_end_witness :
    end_ (write tinyEngine [1, 2, 3, 4, 5, 6]).2 [97] = 10 ∧
      start (write tinyEngine [1, 2, 3, 4, 5, 6]).2 [97] = 2 ∧
      (write tinyEngine [1, 2, 3, 4, 5, 6]).2.fileMap.length = 1 :=
  have h := write_extends_end tinyEngine [1, 2, 3, 4, 5, 6] (by decide)
  ⟨h.1, h.2.2.1, h.2.2.2.2.2.2.2.1⟩

/-- Claim C16 fails as stated: the single name with the two UTF-8 bytes `0x61 0x00`
is added to a new container, after which `fileList()` returns that name; `setFile` on
the resulting store decodes the table and `fileList()` then returns the one-byte name
`0x61`. -/
theorem fileList_after_decode_differs :
    ∃ d0 b d1, setFile sampleMd5 newEngine "c.dim" [] = some (true, d0) ∧
      fileList (addFiles d0 [[97, 0]]) = [[97, 0]] ∧
      setFile sampleMd5 newEngine "c.dim" (addFiles d0 [[97, 0]]).file.bytes = some (b, d1) ∧
      fileList d1 = [[97]] := by
  obtain ⟨ht, hr, hk, hfl, -⟩ := addFiles_fresh sampleMd5 "c.dim" (by decide) [[97, 0]] (by decide)
    (by decide) (by decide)
  have key : ∀ d : DVirtualImageFileIOPrivate, TableInv d → RecordsInv d →
      d.fileMap.map Prod.fst = [[97, 0]] →
      ∃ b d1, setFile sampleMd5 newEngine "c.dim" d.file.bytes = some (b, d1) ∧
        fileList d1 = [[97]] := by
    intro d ht hr hk
    obtain ⟨p, hp⟩ : ∃ p, d.fileMap = [p] := by
      have := congrArg List.length hk
      simp only [List.length_map, List.length_singleton] at this
      exact List.length_eq_one.1 this
    have hp1 : p.1 = [97, 0] := by
      rw [hp] at hk
      simpa using hk
    have hmem : p ∈ d.fileMap := by rw [hp]; exact List.mem_singleton_self _
    obtain ⟨q1, q2, q3, q4⟩ := hr.record 0 p (by rw [hp]; rfl)
    have hc : d.file.bytes.getD 2 0 = 0 + 1 := by rw [hr.count, hp]; rfl
    have hsz := ht.size_ge
    have hdec : decodeEntries (d.file.bytes.getD 2 0) 0 (headerRead newEngine d.file.bytes) =
        (true, { headerRead newEngine d.file.bytes with
          file := ⟨d.file.bytes, 1, 83⟩, fileMap := [([97], ⟨0, [97], 24576, 24576⟩)] }) := by
      rw [hc, decodeEntries_succ d.file.bytes 0 0 3 _ rfl (by omega), q1]
      simp only [bne_self_eq_false, Bool.false_eq_true, if_false]
      rw [q2, q3, q4, (hr.empty p hmem).1, (hr.empty p hmem).2,
        decodeI64_encodeI64 24576 (by decide) (by decide), hp1, decodeEntries]
      rfl
    obtain ⟨b, d1, h1, h2⟩ := setFile_decoded sampleMd5 "c.dim" d.file.bytes (by decide) hsz
      hr.marker hr.version (by omega) [([97], ⟨0, [97], 24576, 24576⟩)] 83 hdec
      (by
        intro x hx
        have hx2 : x = ⟨0, [97], 24576, 24576⟩ := by simpa [fileInfoList] using hx
        subst hx2
        exact ⟨by decide, by simp only []; omega⟩)
    refine ⟨b, d1, h1, ?_⟩
    simp only [fileList, fileNameList, h2]
    rfl
  obtain ⟨b, d1, h1, h2⟩ := key _ ht hr hk
  exact ⟨freshEngine, b, d1, setFile_fresh sampleMd5 "c.dim" (by decide), hfl, h1, h2⟩

/-- Claim C16, amended.  For every list of pairwise distinct names, at most 255 of
them, each of at most 63 UTF-8 bytes none of which is zero, added in that order by
`addFile` to a new container: `fileList()` returns exactly the list of names; every
entry's name stands at the position given by the entry's index; the result is the same
for every order in which the table is traversed; and `setFile` on the resulting store
returns, after which `fileList()` returns the same list. -/
theorem fileList_creation_order (md5 : QByteArray → QByteArray) (fileName : String)
    (hfn : endsWith fileName ".dim" = true) (names : List QString) (hnd : names.Nodup)
    (hlen : names.length ≤ 255) (hsize : ∀ n ∈ names, (toUtf8 n).length ≤ 63)
    (h0 : ∀ n ∈ names, 0 ∉ toUtf8 n) :
    ∃ d0, setFile md5 newEngine fileName [] = some (true, d0) ∧
      fileList (addFiles d0 names) = names ∧
      (∀ p ∈ (addFiles d0 names).fileMap, names[p.2.index]? = some p.2.name) ∧
      (∀ m : QHash, m.Perm (addFiles d0 names).fileMap →
        fileList { addFiles d0 names with fileMap := m } = names) ∧
      ∃ b d1, setFile md5 newEngine fileName (addFiles d0 names).file.bytes = some (b, d1) ∧
        fileList d1 = names := by
  obtain ⟨ht, hr, hk, hfl, hdec⟩ := addFiles_fresh md5 fileName hfn names hnd hlen hsize
  have hl : (addFiles freshEngine names).fileMap.length = names.length := by
    have := congrArg List.length hk
    rwa [List.length_map] at this
  refine ⟨freshEngine, setFile_fresh md5 fileName hfn, hfl, ?_, ?_, hdec h0⟩
  · intro p hp
    have := names_at_index _ ht (by omega) p hp
    rwa [hk] at this
  · intro m hm
    rw [fileList_perm _ ht (by omega) m hm, hfl]

/-- Claim C16, amended, at a concrete input: the names `b`, `a`, `c` added in this order. -/
theorem fileList_creation_order_witness :
    ∃ d0, setFile sampleMd5 newEngine "c.dim" [] = some (true, d0) ∧
      fileList (addFiles d0 [[98], [97], [99]]) = [[98], [97], [99]] ∧
      (∀ p ∈ (addFiles d0 [[98], [97], [99]]).fileMap,
        ([[98], [97], [99]] : List QString)[p.2.index]? = some p.2.name) ∧
      (∀ m : QHash, m.Perm (addFiles d0 [[98], [97], [99]]).fileMap →
        fileList { addFiles d0 [[98], [97], [99]] with fileMap := m } = [[98], [97], [99]]) ∧
      ∃ b d1, setFile sampleMd5 newEngine "c.dim" (addFiles d0 [[98], [97], [99]]).file.bytes
          = some (b, d1) ∧
        fileList d1 = [[98], [97], [99]] :=
  fileList_creation_order sampleMd5 "c.dim" (by decide) [[98], [97], [99]] (by decide) (by decide)
    (by decide) (by decide)

/-- Claim C17 fails as stated, in two ways.  On a new container `open("", WriteOnly)`
succeeds and opens the entry named `""`, whose range is `[24576, 24576]` and holds the
store position; `pos()` is `-1` and not the store position minus `start`, and after
`seek(0)`, which returns true, `pos()` is `-1` and not `0`.  And `setFile` accepts
`overflowStore`, whose entry `a` has `start = -2^63` and `end = 50`; after
`open("a", ReadOnly)` the store position is 0, inside `[start, end]`, and the
subtraction in `pos()` overflows: the result is `-2^63`, neither `-1` nor
in `[0, size(e)]`. -/
theorem pos_fails_on_empty_name_and_overflow :
    (open_ freshEngine [] WriteOnly = (true, openedEmptyName) ∧
      isOpen openedEmptyName [] = true ∧ existes openedEmptyName [] = true ∧
      start openedEmptyName [] = 24576 ∧ end_ openedEmptyName [] = 24576 ∧
      size openedEmptyName [] = 0 ∧ openedEmptyName.file.pos = 24576 ∧
      pos openedEmptyName = -1 ∧
      (seek openedEmptyName 0).1 = true ∧ pos (seek openedEmptyName 0).2 = -1) ∧
    (setFile sampleMd5 newEngine "c.dim" overflowStore = some (true, overflowEngine) ∧
      open_ overflowEngine [97] ReadOnly = (true, overflowState true 1 0 [97]) ∧
      start (overflowState true 1 0 [97]) [97] = -2 ^ 63 ∧
      end_ (overflowState true 1 0 [97]) [97] = 50 ∧
      (overflowState true 1 0 [97]).file.pos = 0 ∧
      pos (overflowState true 1 0 [97]) = -2 ^ 63) :=
  ⟨⟨open_emptyName, rfl, rfl, rfl, rfl, by decide, rfl, rfl, rfl, rfl⟩,
    ⟨setFile_overflowStore, open_overflowEngine, rfl, rfl, rfl, pos_overflowEngine⟩⟩

/-- Claim C17 as amended, `pos()` is bounded.  For every engine state in which `start`
and `end` of the cursor entry are `qint64` values whose difference `end - start` is one
too, `pos()` is `-1` when the cursor name is empty and when the store position lies
outside `[start, end]` of the open entry, and otherwise it is the store position minus
`start`; when the open entry `e` is in the table the result is `-1` or lies in
`[0, size(e)]`; and after a `seek(p)` that returns true, with an entry of non-empty
name open and `0 ≤ p ≤ size(e)`, `pos()` returns `p`. -/
theorem pos_bounded (d : DVirtualImageFileIOPrivate)
    (hs : -2 ^ 63 ≤ (d.fileMap.value d.openedFile).start)
    (he : (d.fileMap.value d.openedFile).end_ < 2 ^ 63)
    (hlo : -2 ^ 63 ≤ (d.fileMap.value d.openedFile).end_ - (d.fileMap.value d.openedFile).start)
    (hhi : (d.fileMap.value d.openedFile).end_ - (d.fileMap.value d.openedFile).start < 2 ^ 63) :
    (d.openedFile.isEmpty = true → pos d = -1) ∧
    (d.openedFile.isEmpty = false →
      ((d.file.pos : Int) < (d.fileMap.value d.openedFile).start ∨
        (d.fileMap.value d.openedFile).end_ < (d.file.pos : Int)) → pos d = -1) ∧
    (d.openedFile.isEmpty = false → (d.fileMap.value d.openedFile).start ≤ (d.file.pos : Int) →
      (d.file.pos : Int) ≤ (d.fileMap.value d.openedFile).end_ →
      pos d = (d.file.pos : Int) - (d.fileMap.value d.openedFile).start) ∧
    (existes d d.openedFile = true →
      pos d = -1 ∨ (0 ≤ pos d ∧ pos d ≤ size d d.openedFile)) ∧
    (∀ p : Int, d.openedFile.isEmpty = false → existes d d.openedFile = true → 0 ≤ p →
      p ≤ size d d.openedFile → (seek d p).1 = true → pos (seek d p).2 = p) := by
  have hsize : wrapI64 ((d.fileMap.value d.openedFile).end_ - (d.fileMap.value d.openedFile).start)
      = (d.fileMap.value d.openedFile).end_ - (d.fileMap.value d.openedFile).start :=
    wrapI64_of_range _ hlo hhi
  refine ⟨?_, ?_, ?_, ?_, ?_⟩
  · intro h
    simp [pos, h]
  · intro h hout
    simp only [pos, h, Bool.false_eq_true, if_false]
    rcases hout with h1 | h1
    · simp [h1]
    · simp [h1]
  · intro h h1 h2
    simp only [pos, h, Bool.false_eq_true, if_false]
    have : ¬ ((d.file.pos : Int) < (d.fileMap.value d.openedFile).start) := by omega
    have : ¬ ((d.file.pos : Int) > (d.fileMap.value d.openedFile).end_) := by omega
    simp only [*, decide_False, Bool.or_self, Bool.false_eq_true, if_false]
    exact wrapI64_of_range _ (by omega) (by omega)
  · intro hex
    obtain ⟨-, -, hsz⟩ := end_of_existes d d.openedFile hex
    rw [hsz, hsize]
    unfold pos
    by_cases h : d.openedFile.isEmpty = true
    · simp [h]
    · simp only [h, if_false]
      by_cases h1 : ((d.file.pos : Int) < (d.fileMap.value d.openedFile).start ∨
          (d.file.pos : Int) > (d.fileMap.value d.openedFile).end_)
      · left
        rcases h1 with h1 | h1 <;> simp [h1]
      · right
        have h2 : ¬ ((d.file.pos : Int) < (d.fileMap.value d.openedFile).start) := by
          intro h3; exact h1 (Or.inl h3)
        have h3 : ¬ ((d.file.pos : Int) > (d.fileMap.value d.openedFile).end_) := by
          intro h3; exact h1 (Or.inr h3)
        simp only [h2, h3, decide_False, Bool.or_self, Bool.false_eq_true, if_false]
        rw [wrapI64_of_range _ (by omega) (by omega)]
        omega
  · intro p hne hex hp hpsz hseek
    obtain ⟨-, -, hsz⟩ := end_of_existes d d.openedFile hex
    rw [hsz, hsize] at hpsz
    have hnp : ¬ p < 0 := by omega
    have hw : wrapI64 ((d.fileMap.value d.openedFile).start + p) =
        (d.fileMap.value d.openedFile).start + p := wrapI64_of_range _ (by omega) (by omega)
    simp only [seek, hnp, if_false, hne, Bool.false_eq_true, hw] at hseek ⊢
    unfold QFile.seek at hseek ⊢
    by_cases hc : (!d.file.isOpen || decide ((d.fileMap.value d.openedFile).start + p < 0)) = true
    · simp [hc] at hseek
    · simp only [hc, if_false, Bool.false_eq_true]
      have hge : 0 ≤ (d.fileMap.value d.openedFile).start + p := by
        simp only [Bool.or_eq_true, decide_eq_true_eq, not_or, not_lt] at hc
        exact hc.2
      simp only [pos, hne, Bool.false_eq_true, if_false, Int.toNat_of_nonneg hge]
      have h2 : ¬ ((d.fileMap.value d.openedFile).start + p < (d.fileMap.value d.openedFile).start) := by
        omega
      have h3 : ¬ ((d.fileMap.value d.openedFile).start + p > (d.fileMap.value d.openedFile).end_) := by
        omega
      simp only [h2, h3, decide_False, Bool.or_self, Bool.false_eq_true, if_false]
      rw [wrapI64_of_range _ (by omega) (by omega)]
      omega

/-- Claim C17 as amended at a concrete input: the position 4 in an entry with range
`[2, 8)`, and a seek to 5. -/
theorem pos_bounded_witness :
    pos tinyEngine = 2 ∧ pos (seek tinyEngine 5).2 = 5 :=
  have h := pos_bounded tinyEngine (by decide) (by decide) (by decide) (by decide)
  ⟨h.2.2.1 (by decide) (by decide) (by decide),
    h.2.2.2.2 5 (by decide) (by decide) (by decide) (by decide) (by decide)⟩

/-- Claim C18 fails as stated: the name with the two UTF-8 bytes `0x61 0x00` is
written by `addFile` on a new container as the field `0x61` followed by 62 zero bytes,
and reading the field back as `setFile` does yields the one-byte name `0x61`. -/
theorem name_with_zero_byte_not_restored :
    ∃ d0, setFile sampleMd5 newEngine "c.dim" [] = some (true, d0) ∧
      (toUtf8 [97, 0]).length ≤ 63 ∧ (addFile d0 [97, 0]).1 = true ∧
      (QFile.read ⟨(addFile d0 [97, 0]).2.file.bytes, ReadOnly, (validMetaDataSize d0).toNat + 1⟩ 63).1
        = 97 :: List.replicate 62 0 ∧
      fromUtf8 (QFile.read ⟨(addFile d0 [97, 0]).2.file.bytes, ReadOnly,
        (validMetaDataSize d0).toNat + 1⟩ 63).1 = [97] ∧
      ([97] : QString) ≠ [97, 0] := by
  have h := addFile_name_field freshEngine [97, 0] rfl (by decide)
  refine ⟨freshEngine, setFile_fresh sampleMd5 "c.dim" (by decide), by decide, h.1, ?_, ?_, by decide⟩
  · rw [h.2]; rfl
  · rw [h.2]; rfl

/-- Claim C18, amended.  For every entry name whose UTF-8 encoding has at most 63
bytes, none of them zero, writing it as the 63-byte zero-padded name field, as
`addFile` does for a new entry and `rename` for an existing one, and reading that
field back as `setFile` does (63 bytes at the offset after the record marker, decoded
as UTF-8) yields the original name. -/
theorem name_field_round_trip (name : QString) (hn : (toUtf8 name).length ≤ 63)
    (h0 : 0 ∉ toUtf8 name) :
    (∀ d : DVirtualImageFileIOPrivate, d.file.openMode = 0 →
      (addFile d name).1 = true ∧
      fromUtf8 (QFile.read ⟨(addFile d name).2.file.bytes, ReadOnly,
        (validMetaDataSize d).toNat + 1⟩ 63).1 = name) ∧
    (∀ (d : DVirtualImageFileIOPrivate) (from_ : QString), d.file.openMode = ReadWrite →
      existes d from_ = true →
      (rename d from_ name).1 = true ∧
      fromUtf8 (QFile.read ⟨(rename d from_ name).2.file.bytes, ReadOnly,
        3 + (d.fileMap.value from_).index * 80 + 1⟩ 63).1 = name) := by
  constructor
  · intro d hc
    have h := addFile_name_field d name hc hn
    exact ⟨h.1, by rw [h.2]; exact fromUtf8_padded name _ h0⟩
  · intro d from_ hm hex
    have h := rename_name_field d from_ name hm hex hn
    exact ⟨h.1, by rw [h.2]; exact fromUtf8_padded name _ h0⟩

/-- Claim C18, amended, at a concrete input: the name `ab` added to a new container,
and the entry `a` of an open container renamed to `ab`. -/
theorem name_field_round_trip_witness :
    ((addFile freshEngine [97, 98]).1 = true ∧
      fromUtf8 (QFile.read ⟨(addFile freshEngine [97, 98]).2.file.bytes, ReadOnly,
        (validMetaDataSize freshEngine).toNat + 1⟩ 63).1 = [97, 98]) ∧
    ((rename openedFresh [97] [97, 98]).1 = true ∧
      fromUtf8 (QFile.read ⟨(rename openedFresh [97] [97, 98]).2.file.bytes, ReadOnly,
        3 + (openedFresh.fileMap.value [97]).index * 80 + 1⟩ 63).1 = [97, 98]) :=
  have h := name_field_round_trip [97, 98] (by decide) (by decide)
  ⟨h.1 freshEngine rfl, h.2 openedFresh [97] rfl rfl⟩

/-- Claim C20, the sampling loop terminates inside the entry.  For every entry with
`0 ≤ start ≤ end ≤` the size of a readable store: an iteration entered at a position
`p < end - 1048578` advances the position by `adv = 2 + k * 1024 + 1024` bytes with
`k ≤ 1023`, so `1026 ≤ adv ≤ 1048578` and the position afterwards is still less than
`end`; the loop started at `start` returns with fuel `(end - start) / 1026 + 1`, that
is after at most `(end - start) / 1026` iterations, at a position `q` with
`start ≤ q ≤ end`, so the length `end - q` of the tail read is not negative; and the
entry step of `md5sum` returns, with the store at `end`. -/
theorem sampling_loop_terminates (bs : QByteArray) (m : Nat) (info : FileInfo)
    (hr : m &&& ReadOnly ≠ 0) (h0 : 0 ≤ info.start) (hse : info.start ≤ info.end_)
    (he : info.end_ ≤ bs.length) :
    (∀ (p fuel : Nat) (acc : QByteArray), (p : Int) < info.end_ - 1048578 →
      ∃ adv, adv = 2 + blockIndex bs p * 1024 + 1024 ∧ 1026 ≤ adv ∧ adv ≤ 1048578 ∧
        ((p + adv : Nat) : Int) < info.end_ ∧
        sampleLoop (fuel + 1) ⟨bs, m, p⟩ info.end_ acc =
          sampleLoop fuel ⟨bs, m, p + adv⟩ info.end_ (acc ++ readAt bs (p + adv - 1024) 1024)) ∧
    (∀ acc : QByteArray, ∃ q acc1,
      sampleLoop ((info.end_ - info.start).toNat / 1026 + 1) ⟨bs, m, info.start.toNat⟩
        info.end_ acc = some (⟨bs, m, q⟩, acc1) ∧
      info.start ≤ q ∧ (q : Int) ≤ info.end_ ∧ 0 ≤ info.end_ - q ∧
      ∀ p0, md5Entry ⟨bs, m, p0⟩ acc info =
        some (⟨bs, m, info.end_.toNat⟩, acc1 ++ readAt bs q (info.end_ - q).toNat)) := by
  have ho := readable_ne_zero m hr
  constructor
  · intro p fuel acc hlt
    have hk := blockIndex_le bs p
    refine ⟨2 + blockIndex bs p * 1024 + 1024, rfl, by omega, by omega, by omega, ?_⟩
    rw [sampleLoop_step bs m p info.end_ acc fuel hr he hlt,
      show p + (2 + blockIndex bs p * 1024 + 1024) - 1024 = p + 2 + blockIndex bs p * 1024 by omega]
  · intro acc
    obtain ⟨q, acc1, h1, h2, h3, -⟩ := sampleLoop_bound bs m info.end_ hr he
      ((info.end_ - info.start).toNat / 1026 + 1) info.start.toNat acc (by omega) (by omega)
    refine ⟨q, acc1, h1, by omega, h3, by omega, ?_⟩
    intro p0
    have hst := Int.toNat_of_nonneg h0
    have hm := sampleLoop_mono _ _ _ _ _ h1
      ((info.end_ - info.start).toNat - (info.end_ - info.start).toNat / 1026)
    rw [show (info.end_ - info.start).toNat / 1026 + 1 +
        ((info.end_ - info.start).toNat - (info.end_ - info.start).toNat / 1026)
        = (info.end_ - info.start).toNat + 1 by omega] at hm
    unfold md5Entry
    rw [seek_eq _ _ _ _ ho h0]
    simp only []
    rw [hst, hm]
    simp only []
    rw [read_eq _ _ _ _ hr (by omega)]
    have hl := length_readAt bs q (info.end_ - (q : Int)).toNat
    rw [show q + (readAt bs q (info.end_ - (q : Int)).toNat).length = info.end_.toNat by omega]

/-- Claim C20 at a concrete input: an entry of 1048579 bytes, for which the loop makes
one iteration. -/
theorem sampling_loop_terminates_witness :
    ∃ q acc1,
      sampleLoop ((sampledEntry.end_ - sampledEntry.start).toNat / 1026 + 1)
        ⟨sampledStore, 1, sampledEntry.start.toNat⟩ sampledEntry.end_ [] =
          some (⟨sampledStore, 1, q⟩, acc1) ∧
      sampledEntry.start ≤ q ∧ (q : Int) ≤ sampledEntry.end_ ∧ 0 ≤ sampledEntry.end_ - q ∧
      ∀ p0, md5Entry ⟨sampledStore, 1, p0⟩ [] sampledEntry =
        some (⟨sampledStore, 1, sampledEntry.end_.toNat⟩,
          acc1 ++ readAt sampledStore q (sampledEntry.end_ - q).toNat) :=
  (sampling_loop_terminates sampledStore 1 sampledEntry (by decide) (by decide) (by decide)
    sampledEntry_le).2 []

end DVirtualImageFileIO
